import Mathlib

/-!
Verification of the bufit shared broadcast buffer.

The development shallowly embeds:
  - the reader min-heap of src/heap.go together with the container/heap
    algorithms (up, down, Fix, Remove, Push) that the buffer uses on it;
  - the growable ring-buffer backing store of src/unnamed/part_005
    (the `writer` type), including the aliasing between the store and the
    snapshot cursors its NextReader returns;
  - the Buffer orchestration of src/unnamed/part_002 and the reader handle
    of src/heap.go, as a sequential state machine over traces of the
    lock-protected atomic operations.
-/

set_option maxHeartbeats 1000000

namespace Bufit

abbrev Byte := Nat

/-- The reader record of src/heap.go: heap index `i`, absolute read offset
`off`, size of the last fetched snapshot `size`, the cached snapshot's
remaining bytes `data`, and the `life` flag (`ralive`).  `rid` models the
Go pointer identity of the handle. -/
structure Rdr where
  rid : Nat
  i : Nat
  off : Nat
  size : Nat
  data : List Byte
  ralive : Bool
  deriving Repr, DecidableEq

/-- Default element used for out-of-bounds list indexing. -/
def dum : Rdr := ⟨0, 0, 0, 0, [], false⟩

/-- readerHeap.Less from src/heap.go: compare by `off`. -/
def hless (l : List Rdr) (i j : Nat) : Prop :=
  (l.getD i dum).off < (l.getD j dum).off

instance (l : List Rdr) (i j : Nat) : Decidable (hless l i j) := by
  unfold hless; infer_instance

/-- readerHeap.Swap from src/heap.go: swap the two slots and reset each
moved reader's stored index field to its new position. -/
def hswap (l : List Rdr) (i j : Nat) : List Rdr :=
  let a := l.getD i dum
  let b := l.getD j dum
  (l.set i { b with i := i }).set j (if i = j then { b with i := j } else { a with i := j })

theorem hswap_length (l : List Rdr) (i j : Nat) : (hswap l i j).length = l.length := by
  simp [hswap]

/-- container/heap `up`: sift the element at position `j` toward the root.
In Go, `i := (j-1)/2; if i == j || !h.Less(j, i) break`; for natural `j`
the guard `i == j` fires exactly at the root `j = 0`. -/
def hup (l : List Rdr) (j : Nat) : List Rdr :=
  if (j - 1) / 2 = j ∨ ¬ hless l j ((j - 1) / 2) then l
  else hup (hswap l ((j - 1) / 2) j) ((j - 1) / 2)
termination_by j
decreasing_by
  rename_i h
  push_neg at h
  have hj : j ≠ 0 := by
    intro h0; subst h0; exact h.1 rfl
  exact Nat.lt_of_le_of_lt (Nat.div_le_self _ _)
    (Nat.sub_lt (Nat.pos_of_ne_zero hj) Nat.one_pos)

/-- Child selection inside container/heap `down`: the left child, or the
right child when it exists and compares strictly smaller. -/
def childSel (l : List Rdr) (i n : Nat) : Nat :=
  if 2 * i + 2 < n ∧ hless l (2 * i + 2) (2 * i + 1) then 2 * i + 2 else 2 * i + 1

theorem lt_childSel (l : List Rdr) (i n : Nat) : i < childSel l i n := by
  unfold childSel; split <;> omega

theorem childSel_lt (l : List Rdr) (i n : Nat) (h : 2 * i + 1 < n) : childSel l i n < n := by
  unfold childSel; split
  · rename_i hh; exact hh.1
  · exact h

/-- container/heap `down` loop: sift the element at position `i` downward
inside the prefix of length `n`; returns the final resting index. -/
def hdownAux (l : List Rdr) (i n : Nat) : List Rdr × Nat :=
  if h1 : 2 * i + 1 ≥ n then (l, i)
  else
    let j := childSel l i n
    if ¬ hless l j i then (l, i)
    else hdownAux (hswap l i j) j n
termination_by n - i
decreasing_by
  simp only [ge_iff_le, not_le] at h1
  have hij := lt_childSel l i n
  have hjn := childSel_lt l i n h1
  omega

/-- container/heap `down`: returns the list and whether the element moved. -/
def hdown (l : List Rdr) (i n : Nat) : List Rdr × Bool :=
  let p := hdownAux l i n
  (p.1, decide (i < p.2))

/-- Shared body of container/heap `Fix` and `Remove`:
`if !down(h, i, n) { up(h, i) }` with the down-bound `n`. -/
def fixBody (l : List Rdr) (i n : Nat) : List Rdr :=
  let p := hdown l i n
  if p.2 then p.1 else hup p.1 i

/-- container/heap `Fix`: re-establish the heap after the element at `i`
changed its key: `if !down(h, i, h.Len()) { up(h, i) }`. -/
def heapFix (l : List Rdr) (i : Nat) : List Rdr := fixBody l i l.length

/-- readerHeap.Pop from src/heap.go: drop the last slot. -/
def popRaw (l : List Rdr) : List Rdr := l.take (l.length - 1)

/-- readerHeap.Push from src/heap.go: set the pushed reader's index to the
current length and append it. -/
def pushRaw (l : List Rdr) (r : Rdr) : List Rdr := l ++ [{ r with i := l.length }]

/-- container/heap `Push`: raw push then sift up from the last position. -/
def heapPush (l : List Rdr) (r : Rdr) : List Rdr := hup (pushRaw l r) l.length

/-- container/heap `Remove` at index `i`: swap with the last slot, sift the
swapped-in element (down, then up if it did not move), and pop. -/
def heapRemove (l : List Rdr) (i : Nat) : List Rdr :=
  let n := l.length - 1
  if n = i then popRaw l
  else popRaw (fixBody (hswap l i n) i n)

/-- readerHeap.Peek from src/heap.go. -/
def peek (l : List Rdr) : Rdr := l.getD 0 dum

/-- Self-index invariant: every stored reader's `i` field equals its
position in the heap slice (`h[r.i] == r` for all elements). -/
def selfIdx (l : List Rdr) : Prop :=
  ∀ k, k < l.length → (l.getD k dum).i = k

/-- Heap-order property on the prefix of length `n`: every non-root
position is at least its parent, comparing `off`. -/
def heapOrdN (l : List Rdr) (n : Nat) : Prop :=
  ∀ c, 0 < c → c < n → (l.getD ((c - 1) / 2) dum).off ≤ (l.getD c dum).off

/-- Heap-order property of the whole slice. -/
def heapOrd (l : List Rdr) : Prop := heapOrdN l l.length

theorem getD_set_self (l : List Rdr) (i : Nat) (x : Rdr) (h : i < l.length) :
    (l.set i x).getD i dum = x := by
  simp [List.getD_eq_getElem?_getD, List.getElem?_set_self', List.getElem?_eq_getElem h]

theorem getD_set_other (l : List Rdr) (i j : Nat) (x : Rdr) (h : j ≠ i) :
    (l.set i x).getD j dum = l.getD j dum := by
  simp [List.getD_eq_getElem?_getD, List.getElem?_set_ne (by omega : i ≠ j)]

theorem getD_take (l : List Rdr) (n k : Nat) (h : k < n) :
    (l.take n).getD k dum = l.getD k dum := by
  simp [List.getD_eq_getElem?_getD, List.getElem?_take, h]

theorem getD_append_lt (l : List Rdr) (k : Nat) (x : Rdr) (h : k < l.length) :
    (l ++ [x]).getD k dum = l.getD k dum := by
  simp [List.getD_eq_getElem?_getD, List.getElem?_append, h]

theorem getD_append_last (l : List Rdr) (x : Rdr) :
    (l ++ [x]).getD l.length dum = x := by
  simp [List.getD_eq_getElem?_getD]

theorem hswap_getD_fst (l : List Rdr) (i j : Nat) (hi : i < l.length) (hj : j < l.length) :
    (hswap l i j).getD i dum = { l.getD j dum with i := i } := by
  unfold hswap
  by_cases hij : i = j
  · subst hij
    simp only [if_pos rfl]
    rw [getD_set_self _ _ _ (by simpa using hi)]
    simp
  · simp only [if_neg hij]
    rw [getD_set_other _ _ _ _ hij, getD_set_self _ _ _ hi]

theorem hswap_getD_snd (l : List Rdr) (i j : Nat) (hi : i < l.length) (hj : j < l.length) :
    (hswap l i j).getD j dum = { l.getD i dum with i := j } := by
  unfold hswap
  by_cases hij : i = j
  · subst hij
    simp only [if_pos rfl]
    rw [getD_set_self _ _ _ (by simpa using hi)]
    simp
  · simp only [if_neg hij]
    rw [getD_set_self _ _ _ (by simpa using hj)]

theorem hswap_getD_other (l : List Rdr) (i j k : Nat) (hki : k ≠ i) (hkj : k ≠ j) :
    (hswap l i j).getD k dum = l.getD k dum := by
  unfold hswap
  rw [getD_set_other _ _ _ _ hkj, getD_set_other _ _ _ _ hki]

theorem hswap_selfIdx (l : List Rdr) (i j : Nat) (hi : i < l.length) (hj : j < l.length)
    (h : selfIdx l) : selfIdx (hswap l i j) := by
  intro k hk
  rw [hswap_length] at hk
  by_cases hki : k = i
  · subst hki; rw [hswap_getD_fst l k j hi hj]
  · by_cases hkj : k = j
    · subst hkj; rw [hswap_getD_snd l i k hi hj]
    · rw [hswap_getD_other l i j k hki hkj]; exact h k hk

/-- Reader record without the heap-index field: the data that identifies the
reader independently of its position in the heap slice. -/
structure CoreR where
  rid : Nat
  off : Nat
  size : Nat
  data : List Byte
  ralive : Bool
  deriving Repr, DecidableEq

def core (r : Rdr) : CoreR :=
  ⟨r.rid, r.off, r.size, r.data, r.ralive⟩

def cores (l : List Rdr) : List CoreR := l.map core

theorem core_mk (r : Rdr) (k : Nat) : core { r with i := k } = core r := by
  simp [core]

theorem count_cores_set (m : List Rdr) (k : Nat) (z : Rdr) (hk : k < m.length)
    (a : CoreR) :
    (cores (m.set k z)).count a + (if core (m.getD k dum) = a then 1 else 0)
      = (cores m).count a + (if core z = a then 1 else 0) := by
  induction m generalizing k with
  | nil => simp at hk
  | cons hd tl ih =>
    cases k with
    | zero =>
      simp only [List.set, cores, List.map, List.count_cons, List.getD_cons_zero, beq_iff_eq]
      omega
    | succ k' =>
      have hk' : k' < tl.length := by simpa using hk
      simp only [List.set, cores, List.map, List.count_cons, List.getD_cons_succ, beq_iff_eq]
      have := ih k' hk'
      simp only [cores] at this
      omega

theorem set_set_perm (l : List Rdr) (i j : Nat) (x y : Rdr) (hi : i < l.length)
    (hj : j < l.length) (hij : i ≠ j) (hx : core x = core (l.getD j dum))
    (hy : core y = core (l.getD i dum)) :
    List.Perm (cores ((l.set i x).set j y)) (cores l) := by
  rw [List.perm_iff_count]
  intro a
  have c1 := count_cores_set (l.set i x) j y (by simpa using hj) a
  have c2 := count_cores_set l i x hi a
  rw [getD_set_other _ _ _ _ (Ne.symm hij), hy] at c1
  rw [hx] at c2
  omega

theorem set_same_core_perm (l : List Rdr) (k : Nat) (z : Rdr) (hk : k < l.length)
    (hz : core z = core (l.getD k dum)) : List.Perm (cores (l.set k z)) (cores l) := by
  rw [List.perm_iff_count]
  intro a
  have := count_cores_set l k z hk a
  rw [hz] at this
  omega

theorem hswap_cores_perm (l : List Rdr) (i j : Nat) (hi : i < l.length) (hj : j < l.length) :
    List.Perm (cores (hswap l i j)) (cores l) := by
  by_cases hij : i = j
  · subst hij
    have he : hswap l i i = l.set i { l.getD i dum with i := i } := by
      unfold hswap
      simp [List.set_set]
    rw [he]
    exact set_same_core_perm l i _ hi (core_mk _ _)
  · unfold hswap
    simp only [if_neg hij]
    exact set_set_perm l i j _ _ hi hj hij (core_mk _ _) (core_mk _ _)

theorem hup_length (l : List Rdr) (j : Nat) : (hup l j).length = l.length := by
  unfold hup
  split
  · rfl
  · rw [hup_length, hswap_length]
termination_by j
decreasing_by
  rename_i h
  push_neg at h
  have hj : j ≠ 0 := by intro h0; subst h0; exact h.1 rfl
  exact Nat.lt_of_le_of_lt (Nat.div_le_self _ _)
    (Nat.sub_lt (Nat.pos_of_ne_zero hj) Nat.one_pos)

theorem hup_selfIdx (l : List Rdr) (j : Nat) (hj : j < l.length) (h : selfIdx l) :
    selfIdx (hup l j) := by
  unfold hup
  split
  · exact h
  · rename_i hcond
    push_neg at hcond
    have hj0 : j ≠ 0 := by intro h0; subst h0; exact hcond.1 rfl
    have hij : (j - 1) / 2 < j := Nat.lt_of_le_of_lt (Nat.div_le_self _ _)
      (Nat.sub_lt (Nat.pos_of_ne_zero hj0) Nat.one_pos)
    exact hup_selfIdx (hswap l _ j) _ (by rw [hswap_length]; omega)
      (hswap_selfIdx l _ j (by omega) hj h)
termination_by j
decreasing_by
  exact hij

theorem hup_cores_perm (l : List Rdr) (j : Nat) (hj : j < l.length) :
    List.Perm (cores (hup l j)) (cores l) := by
  unfold hup
  split
  · exact List.Perm.refl _
  · rename_i hcond
    push_neg at hcond
    have hj0 : j ≠ 0 := by intro h0; subst h0; exact hcond.1 rfl
    have hij : (j - 1) / 2 < j := Nat.lt_of_le_of_lt (Nat.div_le_self _ _)
      (Nat.sub_lt (Nat.pos_of_ne_zero hj0) Nat.one_pos)
    exact (hup_cores_perm (hswap l _ j) _ (by rw [hswap_length]; omega)).trans
      (hswap_cores_perm l _ j (by omega) hj)
termination_by j
decreasing_by
  exact hij

theorem hdownAux_length (l : List Rdr) (i n : Nat) : (hdownAux l i n).1.length = l.length := by
  unfold hdownAux
  split
  · rfl
  · dsimp only
    split
    · rfl
    · rename_i h1 _
      rw [hdownAux_length, hswap_length]
termination_by n - i
decreasing_by
  rename_i hge hl
  simp only [ge_iff_le, not_le] at hge
  have hij := lt_childSel l i n
  have hjn := childSel_lt l i n hge
  omega

theorem hdownAux_selfIdx (l : List Rdr) (i n : Nat) (hi : i < n) (hn : n ≤ l.length)
    (h : selfIdx l) : selfIdx (hdownAux l i n).1 := by
  unfold hdownAux
  split
  · exact h
  · dsimp only
    split
    · exact h
    · rename_i h1 _
      simp only [ge_iff_le, not_le] at h1
      have hij := lt_childSel l i n
      have hjn := childSel_lt l i n h1
      exact hdownAux_selfIdx (hswap l i _) _ n hjn (by rw [hswap_length]; exact hn)
        (hswap_selfIdx l i _ (by omega) (by omega) h)
termination_by n - i
decreasing_by
  omega

theorem hdownAux_cores_perm (l : List Rdr) (i n : Nat) (hi : i < n) (hn : n ≤ l.length) :
    List.Perm (cores (hdownAux l i n).1) (cores l) := by
  unfold hdownAux
  split
  · exact List.Perm.refl _
  · dsimp only
    split
    · exact List.Perm.refl _
    · rename_i h1 _
      simp only [ge_iff_le, not_le] at h1
      have hij := lt_childSel l i n
      have hjn := childSel_lt l i n h1
      exact (hdownAux_cores_perm (hswap l i _) _ n hjn (by rw [hswap_length]; exact hn)).trans
        (hswap_cores_perm l i _ (by omega) (by omega))
termination_by n - i
decreasing_by
  omega

theorem hup_getD_out (l : List Rdr) (j k : Nat) (hk : j < k) :
    (hup l j).getD k dum = l.getD k dum := by
  unfold hup
  split
  · rfl
  · rename_i hstop
    push_neg at hstop
    have hj0 : j ≠ 0 := by intro h0; subst h0; exact hstop.1 rfl
    have hpj : (j - 1) / 2 < j := by omega
    rw [hup_getD_out _ _ _ (by omega), hswap_getD_other l _ j k (by omega) (by omega)]
termination_by j
decreasing_by
  exact hpj

/-- Sift-up correctness: if the heap order holds everywhere except possibly
at the edge into position `j`, and the grandparent of `j` already dominates
the children of `j`, then `hup` restores the heap order on the prefix. -/
theorem hup_ordN (l : List Rdr) (j n : Nat) (hj : j < n) (hn : n ≤ l.length)
    (h1 : ∀ c, 0 < c → c < n → c ≠ j →
      (l.getD ((c - 1) / 2) dum).off ≤ (l.getD c dum).off)
    (h2 : ∀ c, 0 < c → c < n → (c - 1) / 2 = j → j ≠ 0 →
      (l.getD ((j - 1) / 2) dum).off ≤ (l.getD c dum).off) :
    heapOrdN (hup l j) n := by
  unfold hup
  split
  · rename_i hstop
    intro c hc0 hcn
    by_cases hcj : c = j
    · subst hcj
      rcases hstop with he | hnl
      · omega
      · exact Nat.le_of_not_lt hnl
    · exact h1 c hc0 hcn hcj
  · rename_i hstop
    push_neg at hstop
    obtain ⟨hne, hl⟩ := hstop
    have hj0 : j ≠ 0 := by intro h0; subst h0; exact hne rfl
    have hpj : (j - 1) / 2 < j := by omega
    have hjlen : j < l.length := by omega
    have hplen : (j - 1) / 2 < l.length := by omega
    have hvp : ((hswap l ((j - 1) / 2) j).getD ((j - 1) / 2) dum).off = (l.getD j dum).off := by
      rw [hswap_getD_fst l _ j hplen hjlen]
    have hvj : ((hswap l ((j - 1) / 2) j).getD j dum).off = (l.getD ((j - 1) / 2) dum).off := by
      rw [hswap_getD_snd l _ j hplen hjlen]
    have hvo : ∀ k, k ≠ (j - 1) / 2 → k ≠ j →
        (hswap l ((j - 1) / 2) j).getD k dum = l.getD k dum := by
      intro k hk1 hk2
      exact hswap_getD_other l _ j k hk1 hk2
    apply hup_ordN (hswap l ((j - 1) / 2) j) ((j - 1) / 2) n (by omega)
      (by rw [hswap_length]; exact hn)
    · -- heap order except at the new focus (j-1)/2
      intro c hc0 hcn hcp
      by_cases hcj : c = j
      · subst hcj
        have hq : (c - 1) / 2 = (c - 1) / 2 := rfl
        rw [hvp, hvj]
        exact Nat.le_of_lt hl
      · rw [hvo c hcp hcj]
        by_cases hqp : (c - 1) / 2 = (j - 1) / 2
        · rw [hqp, hvp]
          exact Nat.le_trans (Nat.le_of_lt hl) (hqp ▸ h1 c hc0 hcn hcj)
        · by_cases hqj : (c - 1) / 2 = j
          · rw [hqj, hvj]
            exact h2 c hc0 hcn hqj hj0
          · rw [hvo _ hqp hqj]
            exact h1 c hc0 hcn hcj
    · -- grandparent of the new focus dominates its children
      intro c hc0 hcn hq hp0
      have hgp : ((j - 1) / 2 - 1) / 2 < (j - 1) / 2 := by omega
      rw [hvo (((j - 1) / 2 - 1) / 2) (by omega) (by omega)]
      by_cases hcj : c = j
      · rw [hcj, hvj]
        exact h1 ((j - 1) / 2) (by omega) (by omega) (by omega)
      · have hcp : c ≠ (j - 1) / 2 := by omega
        rw [hvo c hcp hcj]
        exact Nat.le_trans (h1 ((j - 1) / 2) (by omega) (by omega) (by omega))
          (hq ▸ h1 c hc0 hcn hcj)
termination_by j
decreasing_by
  exact hpj

theorem hdownAux_idx_ge (l : List Rdr) (i n : Nat) : i ≤ (hdownAux l i n).2 := by
  unfold hdownAux
  split
  · exact Nat.le_refl i
  · dsimp only
    split
    · exact Nat.le_refl i
    · rename_i h1 _
      simp only [ge_iff_le, not_le] at h1
      have hij := lt_childSel l i n
      have hjn := childSel_lt l i n h1
      exact Nat.le_trans (Nat.le_of_lt hij) (hdownAux_idx_ge _ _ n)
termination_by n - i
decreasing_by
  omega

theorem hdownAux_unmoved (l : List Rdr) (i n : Nat) (h : (hdownAux l i n).2 = i) :
    (hdownAux l i n).1 = l := by
  unfold hdownAux at h ⊢
  by_cases hc1 : 2 * i + 1 ≥ n
  · rw [dif_pos hc1]
  · rw [dif_neg hc1] at h ⊢
    dsimp only at h ⊢
    by_cases hc2 : ¬ hless l (childSel l i n) i
    · rw [if_pos hc2]
    · rw [if_neg hc2] at h ⊢
      have hij := lt_childSel l i n
      have := hdownAux_idx_ge (hswap l i (childSel l i n)) (childSel l i n) n
      exact absurd h (by omega)

theorem hdownAux_getD_out (l : List Rdr) (i n k : Nat) (hk : n ≤ k) :
    (hdownAux l i n).1.getD k dum = l.getD k dum := by
  unfold hdownAux
  split
  · rfl
  · dsimp only
    split
    · rfl
    · rename_i h1 _
      simp only [ge_iff_le, not_le] at h1
      have hij := lt_childSel l i n
      have hjn := childSel_lt l i n h1
      rw [hdownAux_getD_out _ _ n k hk, hswap_getD_other l i _ k (by omega) (by omega)]
termination_by n - i
decreasing_by
  omega

/-- Sift-down correctness: if the heap order holds at every edge whose
parent is not `i`, and the grandparent of `i` dominates the children of `i`,
then the down pass restores the heap order on the prefix of length `n`. -/
theorem hdownAux_ordN (l : List Rdr) (i n : Nat) (hi : i < n) (hn : n ≤ l.length)
    (h1 : ∀ c, 0 < c → c < n → (c - 1) / 2 ≠ i →
      (l.getD ((c - 1) / 2) dum).off ≤ (l.getD c dum).off)
    (h2 : ∀ c, 0 < c → c < n → (c - 1) / 2 = i → i ≠ 0 →
      (l.getD ((i - 1) / 2) dum).off ≤ (l.getD c dum).off) :
    heapOrdN (hdownAux l i n).1 n := by
  unfold hdownAux
  split
  · rename_i hstop
    simp only [ge_iff_le] at hstop
    intro c hc0 hcn
    by_cases hq : (c - 1) / 2 = i
    · omega
    · exact h1 c hc0 hcn hq
  · rename_i hbig
    simp only [ge_iff_le, not_le] at hbig
    dsimp only
    split
    · rename_i hnl
      dsimp only
      intro c hc0 hcn
      by_cases hq : (c - 1) / 2 = i
      · -- c is a child of i and the chosen child is not smaller than l[i]
        unfold hless at hnl
        push_neg at hnl
        unfold childSel at hnl
        by_cases hcs : 2 * i + 2 < n ∧ hless l (2 * i + 2) (2 * i + 1)
        · rw [if_pos hcs] at hnl
          unfold hless at hcs
          have hc12 : c = 2 * i + 1 ∨ c = 2 * i + 2 := by omega
          rcases hc12 with hc | hc <;> rw [hq, hc]
          · exact Nat.le_trans hnl (Nat.le_of_lt hcs.2)
          · exact hnl
        · rw [if_neg hcs] at hnl
          unfold hless at hcs
          push_neg at hcs
          have hc12 : c = 2 * i + 1 ∨ c = 2 * i + 2 := by omega
          rcases hc12 with hc | hc <;> rw [hq, hc]
          · exact hnl
          · exact Nat.le_trans hnl (hcs (by omega))
      · exact h1 c hc0 hcn hq
    · rename_i hnl
      push_neg at hnl
      have hij := lt_childSel l i n
      have hjn := childSel_lt l i n hbig
      have hpj : (childSel l i n - 1) / 2 = i := by
        unfold childSel
        split <;> omega
      have hilen : i < l.length := by omega
      have hjlen : childSel l i n < l.length := by omega
      have hvi : ((hswap l i (childSel l i n)).getD i dum).off
          = (l.getD (childSel l i n) dum).off := by
        rw [hswap_getD_fst l i _ hilen hjlen]
      have hvj : ((hswap l i (childSel l i n)).getD (childSel l i n) dum).off
          = (l.getD i dum).off := by
        rw [hswap_getD_snd l i _ hilen hjlen]
      have hvo : ∀ k, k ≠ i → k ≠ childSel l i n →
          (hswap l i (childSel l i n)).getD k dum = l.getD k dum := by
        intro k hk1 hk2
        exact hswap_getD_other l i _ k hk1 hk2
      apply hdownAux_ordN (hswap l i (childSel l i n)) (childSel l i n) n hjn
        (by rw [hswap_length]; exact hn)
      · -- edges whose parent is not the new focus hold after the swap
        intro c hc0 hcn hcq
        by_cases hci : c = i
        · have hi0 : i ≠ 0 := by omega
          have hqi : (c - 1) / 2 ≠ i := by omega
          have hqj : (c - 1) / 2 ≠ childSel l i n := by omega
          rw [hvo _ hqi hqj, hci, hvi]
          exact h2 (childSel l i n) (by omega) hjn hpj hi0
        · by_cases hcj : c = childSel l i n
          · rw [hcj, hpj, hvi, hvj]
            exact Nat.le_of_lt hnl
          · rw [hvo c hci hcj]
            by_cases hqi : (c - 1) / 2 = i
            · -- c is the sibling of the chosen child
              rw [hqi, hvi]
              unfold childSel at hcj ⊢
              by_cases hcs : 2 * i + 2 < n ∧ hless l (2 * i + 2) (2 * i + 1)
              · rw [if_pos hcs] at hcj ⊢
                unfold hless at hcs
                have hc : c = 2 * i + 1 := by omega
                rw [hc]
                exact Nat.le_of_lt hcs.2
              · rw [if_neg hcs] at hcj ⊢
                unfold hless at hcs
                push_neg at hcs
                have hc : c = 2 * i + 2 := by omega
                rw [hc]
                exact hcs (by omega)
            · rw [hvo _ hqi hcq]
              exact h1 c hc0 hcn hqi
      · -- the grandparent of the new focus dominates its children
        intro c hc0 hcn hq hj0
        rw [hpj, hvi]
        have hci : c ≠ i := by omega
        have hcj : c ≠ childSel l i n := by omega
        rw [hvo c hci hcj]
        have hh := h1 c hc0 hcn (by omega)
        rw [hq] at hh
        exact hh
termination_by n - i
decreasing_by
  omega

theorem hup_id_of_ordN (l : List Rdr) (i n : Nat) (hi : i < n) (h : heapOrdN l n) :
    hup l i = l := by
  unfold hup
  rw [if_pos]
  by_cases hi0 : i = 0
  · left; omega
  · right
    unfold hless
    push_neg
    exact h i (by omega) hi

/-- Correctness of the `if !down { up }` body shared by Fix and Remove:
if the heap order holds at every edge not involving `i`, and the
grandparent of `i` dominates the children of `i`, the result is ordered. -/
theorem fixBody_ordN (l : List Rdr) (i n : Nat) (hi : i < n) (hn : n ≤ l.length)
    (hEx : ∀ c, 0 < c → c < n → (c - 1) / 2 ≠ i → c ≠ i →
      (l.getD ((c - 1) / 2) dum).off ≤ (l.getD c dum).off)
    (hGp : ∀ c, 0 < c → c < n → (c - 1) / 2 = i → i ≠ 0 →
      (l.getD ((i - 1) / 2) dum).off ≤ (l.getD c dum).off) :
    heapOrdN (fixBody l i n) n := by
  by_cases hB : i ≠ 0 ∧ (l.getD i dum).off < (l.getD ((i - 1) / 2) dum).off
  · -- the element got smaller than its parent: down does not move, up fixes
    have hstop : hdownAux l i n = (l, i) := by
      unfold hdownAux
      split
      · rfl
      · rename_i hbig
        simp only [ge_iff_le, not_le] at hbig
        dsimp only
        rw [if_pos]
        unfold hless
        push_neg
        have hpj : (childSel l i n - 1) / 2 = i := by
          unfold childSel; split <;> omega
        have hjn := childSel_lt l i n hbig
        have := hGp (childSel l i n) (by have := lt_childSel l i n; omega) hjn hpj hB.1
        omega

    unfold fixBody hdown
    rw [hstop]
    dsimp only
    rw [if_neg (by simp)]
    apply hup_ordN l i n hi hn
    · intro c hc0 hcn hci
      by_cases hq : (c - 1) / 2 = i
      · rw [hq]
        exact Nat.le_trans (Nat.le_of_lt hB.2) (hGp c hc0 hcn hq hB.1)
      · exact hEx c hc0 hcn hq hci
    · exact hGp
  · -- parent already dominates: a plain down pass restores the order
    have h1 : ∀ c, 0 < c → c < n → (c - 1) / 2 ≠ i →
        (l.getD ((c - 1) / 2) dum).off ≤ (l.getD c dum).off := by
      intro c hc0 hcn hq
      by_cases hci : c = i
      · push_neg at hB
        have hi0 : i ≠ 0 := by omega
        have := hB hi0
        rw [hci]
        omega
      · exact hEx c hc0 hcn hq hci
    have hord := hdownAux_ordN l i n hi hn h1 hGp
    unfold fixBody hdown
    dsimp only
    by_cases hmoved : i < (hdownAux l i n).2
    · rw [if_pos (by simpa using hmoved)]
      exact hord
    · rw [if_neg (by simpa using hmoved)]
      have hidx := hdownAux_idx_ge l i n
      have heq : (hdownAux l i n).2 = i := by omega
      rw [hdownAux_unmoved l i n heq]
      rw [hdownAux_unmoved l i n heq] at hord
      rw [hup_id_of_ordN l i n hi hord]
      exact hord

theorem fixBody_length (l : List Rdr) (i n : Nat) : (fixBody l i n).length = l.length := by
  unfold fixBody hdown
  dsimp only
  split
  · exact hdownAux_length l i n
  · rw [hup_length, hdownAux_length]

theorem fixBody_selfIdx (l : List Rdr) (i n : Nat) (hi : i < n) (hn : n ≤ l.length)
    (h : selfIdx l) : selfIdx (fixBody l i n) := by
  unfold fixBody hdown
  dsimp only
  have hd := hdownAux_selfIdx l i n hi hn h
  split
  · exact hd
  · exact hup_selfIdx _ i (by rw [hdownAux_length]; omega) hd

theorem fixBody_cores_perm (l : List Rdr) (i n : Nat) (hi : i < n) (hn : n ≤ l.length) :
    List.Perm (cores (fixBody l i n)) (cores l) := by
  unfold fixBody hdown
  dsimp only
  have hd := hdownAux_cores_perm l i n hi hn
  split
  · exact hd
  · exact (hup_cores_perm _ i (by rw [hdownAux_length]; omega)).trans hd

theorem fixBody_getD_out (l : List Rdr) (i n k : Nat) (hi : i < n) (hk : n ≤ k) :
    (fixBody l i n).getD k dum = l.getD k dum := by
  unfold fixBody hdown
  dsimp only
  have hd := hdownAux_getD_out l i n k hk
  split
  · exact hd
  · rw [hup_getD_out _ i k (by omega)]
    exact hd

theorem heapFix_length (l : List Rdr) (i : Nat) : (heapFix l i).length = l.length :=
  fixBody_length l i l.length

theorem heapFix_selfIdx (l : List Rdr) (i : Nat) (hi : i < l.length) (h : selfIdx l) :
    selfIdx (heapFix l i) :=
  fixBody_selfIdx l i l.length hi (Nat.le_refl _) h

theorem heapFix_cores_perm (l : List Rdr) (i : Nat) (hi : i < l.length) :
    List.Perm (cores (heapFix l i)) (cores l) :=
  fixBody_cores_perm l i l.length hi (Nat.le_refl _)

/-- container/heap Fix restores the heap order when only the key at
position `i` has changed. -/
theorem heapFix_ord (l : List Rdr) (i : Nat) (hi : i < l.length)
    (hEx : ∀ c, 0 < c → c < l.length → (c - 1) / 2 ≠ i → c ≠ i →
      (l.getD ((c - 1) / 2) dum).off ≤ (l.getD c dum).off)
    (hGp : ∀ c, 0 < c → c < l.length → (c - 1) / 2 = i → i ≠ 0 →
      (l.getD ((i - 1) / 2) dum).off ≤ (l.getD c dum).off) :
    heapOrd (heapFix l i) := by
  unfold heapOrd
  rw [heapFix_length]
  exact fixBody_ordN l i l.length hi (Nat.le_refl _) hEx hGp

theorem pushRaw_length (l : List Rdr) (r : Rdr) : (pushRaw l r).length = l.length + 1 := by
  simp [pushRaw]

theorem heapPush_length (l : List Rdr) (r : Rdr) : (heapPush l r).length = l.length + 1 := by
  unfold heapPush
  rw [hup_length, pushRaw_length]

theorem pushRaw_selfIdx (l : List Rdr) (r : Rdr) (h : selfIdx l) : selfIdx (pushRaw l r) := by
  intro k hk
  rw [pushRaw_length] at hk
  unfold pushRaw
  by_cases hkl : k < l.length
  · rw [getD_append_lt _ _ _ hkl]
    exact h k hkl
  · have : k = l.length := by omega
    rw [this, getD_append_last]

theorem heapPush_selfIdx (l : List Rdr) (r : Rdr) (h : selfIdx l) : selfIdx (heapPush l r) :=
  hup_selfIdx _ _ (by rw [pushRaw_length]; omega) (pushRaw_selfIdx l r h)

theorem cores_append (l : List Rdr) (r : Rdr) : cores (l ++ [r]) = cores l ++ [core r] := by
  simp [cores]

theorem heapPush_cores_perm (l : List Rdr) (r : Rdr) :
    List.Perm (cores (heapPush l r)) (core r :: cores l) := by
  unfold heapPush
  refine (hup_cores_perm _ _ (by rw [pushRaw_length]; omega)).trans ?_
  unfold pushRaw
  rw [cores_append, core_mk]
  exact List.perm_append_singleton _ _

theorem heapPush_ord (l : List Rdr) (r : Rdr) (h : heapOrd l) : heapOrd (heapPush l r) := by
  unfold heapOrd
  rw [heapPush_length]
  unfold heapPush
  have hlen : (pushRaw l r).length = l.length + 1 := pushRaw_length l r
  apply hup_ordN (pushRaw l r) l.length (l.length + 1) (by omega) (by omega)
  · intro c hc0 hcn hcj
    have hcl : c < l.length := by omega
    have hql : (c - 1) / 2 < l.length := by omega
    unfold pushRaw
    rw [getD_append_lt _ _ _ hcl, getD_append_lt _ _ _ hql]
    exact h c hc0 hcl
  · intro c hc0 hcn hq hj0
    omega

theorem popRaw_length (l : List Rdr) : (popRaw l).length = l.length - 1 := by
  simp [popRaw]

theorem popRaw_selfIdx (l : List Rdr) (h : selfIdx l) : selfIdx (popRaw l) := by
  intro k hk
  rw [popRaw_length] at hk
  unfold popRaw
  rw [getD_take _ _ _ (by omega)]
  exact h k (by omega)

theorem popRaw_ord (l : List Rdr) (n : Nat) (hn : n = l.length - 1) (h : heapOrdN l n) :
    heapOrd (popRaw l) := by
  unfold heapOrd popRaw
  intro c hc0 hcn
  simp only [List.length_take] at hcn
  have hcn' : c < n := by omega
  rw [getD_take _ _ _ (by omega), getD_take _ _ _ (by omega)]
  exact h c hc0 hcn'

theorem drop_last_decomp (l : List Rdr) (hl : 0 < l.length) :
    popRaw l ++ [l.getD (l.length - 1) dum] = l := by
  unfold popRaw
  have h1 : l.length - 1 < l.length := by omega
  rw [List.getD_eq_getElem l dum h1]
  have := List.take_append_drop (l.length - 1) l
  rw [List.drop_eq_getElem_cons h1] at this
  have h2 : l.drop (l.length - 1 + 1) = [] := by
    apply List.drop_eq_nil_of_le
    omega
  rw [h2] at this
  exact this

theorem heapRemove_length (l : List Rdr) (i : Nat) :
    (heapRemove l i).length = l.length - 1 := by
  unfold heapRemove
  dsimp only
  split
  · exact popRaw_length l
  · rw [popRaw_length, fixBody_length, hswap_length]

theorem heapRemove_selfIdx (l : List Rdr) (i : Nat) (hi : i < l.length) (h : selfIdx l) :
    selfIdx (heapRemove l i) := by
  unfold heapRemove
  dsimp only
  split
  · exact popRaw_selfIdx l h
  · rename_i hne
    have hlt : i < l.length - 1 := by omega
    apply popRaw_selfIdx
    apply fixBody_selfIdx _ i (l.length - 1) hlt (by rw [hswap_length]; omega)
    exact hswap_selfIdx l i (l.length - 1) hi (by omega) h

theorem heapRemove_cores_perm (l : List Rdr) (i : Nat) (hi : i < l.length) :
    List.Perm (core (l.getD i dum) :: cores (heapRemove l i)) (cores l) := by
  unfold heapRemove
  dsimp only
  split
  · rename_i he
    have hd := drop_last_decomp l (by omega)
    rw [he] at hd
    have e1 : cores (popRaw l) ++ [core (l.getD i dum)] = cores l := by
      rw [← cores_append, hd]
    have hp := (List.perm_append_singleton (core (l.getD i dum)) (cores (popRaw l))).symm
    rw [e1] at hp
    exact hp
  · rename_i hne
    have hlt : i < l.length - 1 := by omega
    have hlast : (fixBody (hswap l i (l.length - 1)) i (l.length - 1)).getD (l.length - 1) dum
        = { l.getD i dum with i := l.length - 1 } := by
      rw [fixBody_getD_out _ i _ _ hlt (Nat.le_refl _)]
      exact hswap_getD_snd l i (l.length - 1) hi (by omega)
    have hflen : (fixBody (hswap l i (l.length - 1)) i (l.length - 1)).length = l.length := by
      rw [fixBody_length, hswap_length]
    have hd := drop_last_decomp (fixBody (hswap l i (l.length - 1)) i (l.length - 1))
      (by rw [hflen]; omega)
    rw [hflen, hlast] at hd
    have e1 : cores (popRaw (fixBody (hswap l i (l.length - 1)) i (l.length - 1)))
        ++ [core (l.getD i dum)]
        = cores (fixBody (hswap l i (l.length - 1)) i (l.length - 1)) := by
      rw [← core_mk (l.getD i dum) (l.length - 1), ← cores_append, hd]
    have hp := (List.perm_append_singleton (core (l.getD i dum))
      (cores (popRaw (fixBody (hswap l i (l.length - 1)) i (l.length - 1))))).symm
    rw [e1] at hp
    exact hp.trans ((fixBody_cores_perm _ i (l.length - 1) hlt
      (by rw [hswap_length]; omega)).trans (hswap_cores_perm l i (l.length - 1) hi (by omega)))

theorem heapRemove_ord (l : List Rdr) (i : Nat) (hi : i < l.length) (h : heapOrd l) :
    heapOrd (heapRemove l i) := by
  unfold heapRemove
  dsimp only
  split
  · exact popRaw_ord l (l.length - 1) rfl (fun c hc0 hcn => h c hc0 (by omega))
  · rename_i hne
    have hlt : i < l.length - 1 := by omega
    apply popRaw_ord _ (l.length - 1) (by rw [fixBody_length, hswap_length])
    apply fixBody_ordN _ i (l.length - 1) hlt (by rw [hswap_length]; omega)
    · intro c hc0 hcn hq hci
      have hco : c ≠ l.length - 1 := by omega
      have hqo : (c - 1) / 2 ≠ l.length - 1 := by omega
      rw [hswap_getD_other l i _ c hci hco, hswap_getD_other l i _ _ hq hqo]
      exact h c hc0 (by omega)
    · intro c hc0 hcn hq hi0
      have hco : c ≠ l.length - 1 := by omega
      have hci : c ≠ i := by omega
      have hpo1 : (i - 1) / 2 ≠ i := by omega
      have hpo2 : (i - 1) / 2 ≠ l.length - 1 := by omega
      rw [hswap_getD_other l i _ c hci hco, hswap_getD_other l i _ _ hpo1 hpo2]
      exact Nat.le_trans (h i (by omega) (by omega)) (hq ▸ h c hc0 (by omega))

/-- On a heap-ordered slice, the root is a minimum. -/
theorem peek_min (l : List Rdr) (n : Nat) (h : heapOrdN l n) (k : Nat) (hk : k < n) :
    (peek l).off ≤ (l.getD k dum).off := by
  induction k using Nat.strong_induction_on with
  | _ k ih =>
    cases Nat.eq_zero_or_pos k with
    | inl h0 => rw [h0]; exact Nat.le_refl _
    | inr hpos =>
      have hp : (k - 1) / 2 < k := by omega
      exact Nat.le_trans (ih ((k - 1) / 2) hp (by omega)) (h k hpos hk)

/-! ## The default backing store: the growable ring buffer of src/unnamed/part_005 -/

/-- Go `split(a, b, p)`: the slice pair `(p[a:b], nil)` when `a < b`, and
`(p[a:], p[0:b])` otherwise, as value lists. -/
def splitSeg (a b : Nat) (p : List Byte) : List Byte × List Byte :=
  if a < b then ((p.drop a).take (b - a), []) else (p.drop a, p.take b)

/-- Go `copy(dst, src)` where `dst` is the view of the array starting at
index `start`: writes `src` into the array element by element. The callers
pass `src` already truncated to the copied amount. -/
def copyInto (arr : List Byte) (start : Nat) (src : List Byte) : List Byte :=
  match src with
  | [] => arr
  | x :: xs => copyInto (arr.set start x) (start + 1) xs

/-- The `writer` struct of src/unnamed/part_005: a circular buffer with a
write offset `off`, a discard offset `roff`, an `empty` flag and the backing
array `data` (whose length models Go's `cap(data)`, since the code always
keeps `data` re-sliced to its full capacity). -/
structure Wring where
  empty : Bool
  off : Nat
  roff : Nat
  data : List Byte
  deriving Repr, DecidableEq

/-- Go `newWriter(p)`; the capacity of the Go slice is passed explicitly,
`data = p[0:cap(p)]` is the list padded to capacity. -/
def newWriter (p : List Byte) (c : Nat) : Wring :=
  ⟨p.isEmpty, p.length, 0, p ++ List.replicate (c - p.length) 0⟩

/-- writer.Cap. -/
def wCap (w : Wring) : Nat := w.data.length

/-- writer.Len. -/
def wLen (w : Wring) : Nat :=
  if w.empty then 0
  else if w.roff < w.off then w.off - w.roff
  else w.data.length - w.roff + w.off

/-- The sequence of retained bytes: the two slices `split(roff, off, data)`
of the occupied region, in order. -/
def contentOf (w : Wring) : List Byte :=
  if w.empty then []
  else (splitSeg w.roff w.off w.data).1 ++ (splitSeg w.roff w.off w.data).2

/-- Well-formedness maintained by the reachable writer states: offsets in
range and a canonical empty state. -/
def wWF (w : Wring) : Prop :=
  (w.data.length = 0 → w.roff = 0 ∧ w.off = 0 ∧ w.empty = true)
  ∧ (0 < w.data.length → w.roff < w.data.length ∧ w.off < w.data.length)
  ∧ (w.empty = true → w.roff = w.off)

instance (w : Wring) : Decidable (wWF w) := by
  unfold wWF; infer_instance

/-- The body of writer.Write after the `grow` call: split the free gap
`split(buf.off, buf.roff, buf.data)` into its two array regions, copy as
much of `p` as fits into each, set `empty`, and advance `off` modulo the
capacity. Go panics on the `% 0` when the capacity is zero and `p` is
empty; the model leaves `off` unchanged there (no claim depends on it). -/
def wWriteRaw (w : Wring) (p : List Byte) : Wring × Nat :=
  let lenA := if w.off < w.roff then w.roff - w.off else w.data.length - w.off
  let lenB := if w.off < w.roff then 0 else w.roff
  let n1 := min lenA p.length
  let n2 := min lenB (p.length - n1)
  let arr1 := copyInto w.data w.off (p.take n1)
  let arr2 := copyInto arr1 0 ((p.drop n1).take n2)
  let n := n1 + n2
  (⟨if 0 < n then false else w.empty, (w.off + n) % w.data.length, w.roff, arr2⟩, n)

/-- writer.grow: reallocate to `cap*2 + s` and re-write the retained slices
when the free gap is smaller than `s`. The two `next.Write` calls never
re-grow (the fresh capacity suffices), so they are the raw copy body;
`wWrite_eq_raw_of_fits` makes this inlining exact. -/
def grow (w : Wring) (s : Nat) : Wring :=
  if s ≤ wCap w - wLen w then w
  else
    let next := newWriter [] (wCap w * 2 + s)
    if w.empty then next
    else
      (wWriteRaw (wWriteRaw next (splitSeg w.roff w.off w.data).1).1
        (splitSeg w.roff w.off w.data).2).1

/-- writer.Write: grow, then the copy body. -/
def wWrite (w : Wring) (p : List Byte) : Wring × Nat :=
  wWriteRaw (grow w p.length) p

theorem wWrite_eq_raw_of_fits (w : Wring) (p : List Byte)
    (h : p.length ≤ wCap w - wLen w) : wWrite w p = wWriteRaw w p := by
  unfold wWrite grow
  rw [if_pos h]

/-- writer.Discard: advance `roff` by `s` modulo the capacity, with no
bounds check; report io.EOF exactly when the new `roff` lands on `off`.
`none` models the Go division-by-zero panic of `% 0` on a zero-capacity
writer. The `Bool` is the io.EOF result. -/
def wDiscard (w : Wring) (s : Nat) : Option ((Nat × Bool) × Wring) :=
  if 0 < s then
    if w.data.length = 0 then none
    else
      let roff' := (w.roff + s) % w.data.length
      if roff' = w.off then some ((s, true), { w with roff := roff', empty := true })
      else some ((s, false), { w with roff := roff' })
  else some ((s, false), w)

/-- writer.Read: copy out of the two occupied slices, then Discard what was
copied and return Discard's result. The `Bool` is the io.EOF flag. -/
def wRead (w : Wring) (k : Nat) : Option ((List Byte × Nat × Bool) × Wring) :=
  if w.empty then some (([], 0, true), w)
  else
    let a := (splitSeg w.roff w.off w.data).1
    let b := (splitSeg w.roff w.off w.data).2
    let n := min k (a.length + b.length)
    match wDiscard w n with
    | some ((_, eof), w') => some (((a ++ b).take n, n, eof), w')
    | none => none

/-- writer.ReadAt: read `k` bytes starting `skip` bytes into the retained
region, without mutating the writer; io.EOF when fewer than `k` bytes are
available past `skip`. -/
def wReadAt (w : Wring) (k skip : Nat) : List Byte × Nat × Bool :=
  if w.empty then ([], 0, true)
  else
    let a := (splitSeg w.roff w.off w.data).1
    let b := (splitSeg w.roff w.off w.data).2
    if skip < a.length then
      let bytes := ((a.drop skip) ++ b).take k
      (bytes, bytes.length, decide (bytes.length < k))
    else if skip - a.length < b.length then
      let bytes := (b.drop (skip - a.length)).take k
      (bytes, bytes.length, decide (bytes.length < k))
    else ([], 0, true)

/-! writer.NextReader returns `&buf` of the value receiver: a field copy
whose `data` slice still aliases the live writer's array. `SnapWorld`
tracks one snapshot cursor together with the live writer and whether the
two still share the array (a grow reallocates and un-shares). -/

structure SnapWorld where
  w : Wring
  s : Wring
  shared : Bool
  deriving Repr, DecidableEq

/-- writer.NextReader: a value copy sharing the array. -/
def mkSnap (w : Wring) : SnapWorld := ⟨w, w, true⟩

/-- A Write on the store: if it fits in the gap the copies go through the
shared array (visible to the snapshot); a grow reallocates, leaving the
snapshot on the old array. -/
def worldWrite (world : SnapWorld) (p : List Byte) : SnapWorld × Nat :=
  let res := wWrite world.w p
  if p.length ≤ wCap world.w - wLen world.w then
    ({ w := res.1,
       s := if world.shared then { world.s with data := res.1.data } else world.s,
       shared := world.shared }, res.2)
  else ({ w := res.1, s := world.s, shared := false }, res.2)

/-- A Discard on the store: mutates only the writer's offsets, never the
array, so the snapshot fields are untouched. -/
def worldDiscard (world : SnapWorld) (n : Nat) : Option (SnapWorld × Nat × Bool) :=
  match wDiscard world.w n with
  | some ((m, eof), w') => some ({ world with w := w' }, m, eof)
  | none => none

/-- A sequential Read on the snapshot cursor: mutates only the snapshot's
offsets. -/
def snapRead (world : SnapWorld) (k : Nat) : Option ((List Byte × Nat × Bool) × SnapWorld) :=
  match wRead world.s k with
  | some (r, s') => some (r, { world with s := s' })
  | none => none

theorem copyInto_length (arr : List Byte) (s : Nat) (src : List Byte) :
    (copyInto arr s src).length = arr.length := by
  induction src generalizing arr s with
  | nil => rfl
  | cons x xs ih => rw [copyInto, ih, List.length_set]

theorem copyInto_eq (arr : List Byte) (s : Nat) (src : List Byte)
    (h : s + src.length ≤ arr.length) :
    copyInto arr s src = arr.take s ++ src ++ arr.drop (s + src.length) := by
  induction src generalizing arr s with
  | nil =>
    simp only [copyInto, List.length_nil, Nat.add_zero, List.nil_append,
      List.append_nil]
    exact (List.take_append_drop s arr).symm
  | cons x xs ih =>
    have hs : s < arr.length := by simp at h; omega
    rw [copyInto, ih (arr.set s x) (s + 1) (by simp at h ⊢; omega)]
    rw [List.set_eq_take_cons_drop x hs]
    have hM : arr.take s ++ x :: arr.drop (s + 1)
        = (arr.take s ++ [x]) ++ arr.drop (s + 1) := by simp
    rw [hM]
    have hlen : (arr.take s ++ [x]).length = s + 1 := by
      simp [List.length_take_of_le (Nat.le_of_lt hs)]
    have htake : ((arr.take s ++ [x]) ++ arr.drop (s + 1)).take (s + 1)
        = arr.take s ++ [x] := by
      conv_lhs => rw [show s + 1 = (arr.take s ++ [x]).length + 0 from by rw [hlen]]
      rw [List.take_append 0]
      simp
    have hdrop : ((arr.take s ++ [x]) ++ arr.drop (s + 1)).drop (s + 1 + xs.length)
        = arr.drop (s + 1 + xs.length) := by
      conv_lhs => rw [show s + 1 + xs.length = (arr.take s ++ [x]).length + xs.length
        from by rw [hlen]]
      rw [List.drop_append xs.length, List.drop_drop]
    rw [htake, hdrop]
    have harith : s + 1 + xs.length = s + (x :: xs).length := by simp; omega
    rw [harith]
    simp [List.append_assoc]

theorem wLen_le_cap (w : Wring) (h : wWF w) : wLen w ≤ wCap w := by
  obtain ⟨hz, hb, he⟩ := h
  unfold wLen wCap
  split
  · omega
  · split
    · rcases Nat.eq_zero_or_pos w.data.length with h0 | h0
      · obtain ⟨h1, h2, _⟩ := hz h0
        omega
      · have := hb h0
        omega
    · rcases Nat.eq_zero_or_pos w.data.length with h0 | h0
      · obtain ⟨h1, h2, _⟩ := hz h0
        omega
      · have := hb h0
        omega

theorem contentOf_length (w : Wring) (h : wWF w) : (contentOf w).length = wLen w := by
  obtain ⟨hz, hb, he⟩ := h
  unfold contentOf splitSeg wLen
  by_cases hemp : w.empty = true
  · simp [hemp]
  · simp only [hemp, if_false, Bool.false_eq_true]
    by_cases hro : w.roff < w.off
    · rcases Nat.eq_zero_or_pos w.data.length with h0 | h0
      · obtain ⟨h1, h2, _⟩ := hz h0
        omega
      · have hb' := hb h0
        rw [if_pos hro, if_pos hro]
        simp only [List.length_append, List.length_take, List.length_drop,
          List.length_nil]
        omega
    · rcases Nat.eq_zero_or_pos w.data.length with h0 | h0
      · obtain ⟨h1, h2, h3⟩ := hz h0
        simp [h3] at hemp
      · have hb' := hb h0
        rw [if_neg hro, if_neg hro]
        simp only [List.length_append, List.length_drop, List.length_take]
        omega

theorem wWriteRaw_roff (w : Wring) (p : List Byte) : (wWriteRaw w p).1.roff = w.roff := rfl

theorem wWriteRaw_length (w : Wring) (p : List Byte) :
    (wWriteRaw w p).1.data.length = w.data.length := by
  simp only [wWriteRaw]
  rw [copyInto_length, copyInto_length]

theorem wWriteRaw_n (w : Wring) (p : List Byte) (h : wWF w)
    (hfit : p.length ≤ wCap w - wLen w) : (wWriteRaw w p).2 = p.length := by
  obtain ⟨e, o, r, arr⟩ := w
  have hz : arr.length = 0 → r = 0 ∧ o = 0 ∧ e = true := h.1
  have hb : 0 < arr.length → r < arr.length ∧ o < arr.length := h.2.1
  have hfit' : p.length ≤ arr.length
      - (if e = true then 0 else if r < o then o - r else arr.length - r + o) := hfit
  simp only [wWriteRaw]
  rcases Nat.eq_zero_or_pos arr.length with h0 | h0
  · obtain ⟨h1, h2, h3⟩ := hz h0
    rw [h0, h3] at hfit'
    simp only [if_pos rfl] at hfit'
    have : p.length = 0 := by omega
    rw [h1, h2, h0, this]
    simp
  · obtain ⟨hrb, hob⟩ := hb h0
    cases e with
    | true =>
      have hro : r = o := h.2.2 rfl
      rw [if_pos rfl] at hfit'
      subst hro
      split_ifs at hfit' ⊢ <;> omega
    | false =>
      rw [if_neg (by simp)] at hfit'
      split_ifs at hfit' ⊢ <;> omega

theorem wWriteRaw_wf (w : Wring) (p : List Byte) (h : wWF w)
    (hfit : p.length ≤ wCap w - wLen w) : wWF (wWriteRaw w p).1 := by
  obtain ⟨e, o, r, arr⟩ := w
  have hz : arr.length = 0 → r = 0 ∧ o = 0 ∧ e = true := h.1
  have hb : 0 < arr.length → r < arr.length ∧ o < arr.length := h.2.1
  have he : e = true → r = o := h.2.2
  have hfit' : p.length ≤ arr.length
      - (if e = true then 0 else if r < o then o - r else arr.length - r + o) := hfit
  have hlen := wWriteRaw_length ⟨e, o, r, arr⟩ p
  have hn := wWriteRaw_n ⟨e, o, r, arr⟩ p h hfit
  have hroff := wWriteRaw_roff ⟨e, o, r, arr⟩ p
  simp only [wWriteRaw] at hlen hn hroff ⊢
  refine ⟨?_, ?_, ?_⟩
  · intro h0
    rw [hlen] at h0
    obtain ⟨h1, h2, h3⟩ := hz h0
    rw [h0, h3] at hfit'
    simp only [if_pos rfl] at hfit'
    have hp0 : p.length = 0 := by omega
    have hn0 : (if o < r then r - o else arr.length - o) ⊓ p.length
        + (if o < r then 0 else r) ⊓ (p.length - (if o < r then r - o else arr.length - o) ⊓ p.length) = 0 := by
      rw [hp0]
      simp
    rw [hn0, h1, h2, h0]
    simp [h3]
  · intro h0
    rw [hlen] at h0
    obtain ⟨hrb, hob⟩ := hb h0
    constructor
    · rw [hlen]
      exact hrb
    · rw [hlen]
      exact Nat.mod_lt _ h0
  · intro hemp
    by_cases hn0 : 0 < (if o < r then r - o else arr.length - o) ⊓ p.length
        + (if o < r then 0 else r) ⊓ (p.length - (if o < r then r - o else arr.length - o) ⊓ p.length)
    · rw [if_pos hn0] at hemp
      exact absurd hemp (by simp)
    · rw [if_neg hn0] at hemp
      have hro := he hemp
      have hzero : (if o < r then r - o else arr.length - o) ⊓ p.length
          + (if o < r then 0 else r) ⊓ (p.length - (if o < r then r - o else arr.length - o) ⊓ p.length) = 0 := by
        omega
      rw [hzero, Nat.add_zero]
      show r = o % arr.length
      rcases Nat.eq_zero_or_pos arr.length with h0 | h0
      · obtain ⟨h1, h2, _⟩ := hz h0
        rw [h0, h1, h2]
      · rw [Nat.mod_eq_of_lt ((hb h0).2)]
        exact hro

/-- The content of the writer after the raw copy body: the old retained
bytes with `p` appended. -/
theorem wWriteRaw_content (w : Wring) (p : List Byte) (h : wWF w)
    (hfit : p.length ≤ wCap w - wLen w) :
    contentOf (wWriteRaw w p).1 = contentOf w ++ p := by
  obtain ⟨e, o, r, arr⟩ := w
  have hz : arr.length = 0 → r = 0 ∧ o = 0 ∧ e = true := h.1
  have hb : 0 < arr.length → r < arr.length ∧ o < arr.length := h.2.1
  have he : e = true → r = o := h.2.2
  have hfit' : p.length ≤ arr.length
      - (if e = true then 0 else if r < o then o - r else arr.length - r + o) := hfit
  by_cases hp : p = []
  · subst hp
    have hoff : (o + (0 + 0)) % arr.length = o := by
      rcases Nat.eq_zero_or_pos arr.length with h0 | h0
      · obtain ⟨_, h2, _⟩ := hz h0
        simp [h0, h2]
      · exact Nat.mod_eq_of_lt ((hb h0).2)
    simp only [wWriteRaw, List.length_nil, Nat.min_zero, Nat.zero_sub, List.take_nil,
      List.drop_nil, copyInto, Nat.add_zero, List.append_nil]
    have hoff2 : o % arr.length = o := by
      rcases Nat.eq_zero_or_pos arr.length with h0 | h0
      · obtain ⟨_, h2, _⟩ := hz h0
        simp [h0, h2]
      · exact Nat.mod_eq_of_lt ((hb h0).2)
    rw [hoff2]
    simp only [show (0 < 0) = False from by simp, if_false]
  · have hp0 : 0 < p.length := List.length_pos.mpr hp
    have hc0 : 0 < arr.length := by
      rcases Nat.eq_zero_or_pos arr.length with h0 | h0
      · obtain ⟨h1, h2, h3⟩ := hz h0
        rw [h0, h3] at hfit'
        simp only [if_pos rfl] at hfit'
        omega
      · exact h0
    have hrb := (hb hc0).1
    have hob := (hb hc0).2
    simp only [wWriteRaw, contentOf, splitSeg]
    by_cases hemp : e = true
    · have hro := he hemp
      subst hro
      rw [if_pos hemp] at hfit'
      rw [hemp]
      simp only [Nat.sub_zero] at hfit'
      simp only [show (r < r) = False from by simp, if_false, if_true, List.nil_append]
      by_cases hfA : p.length ≤ arr.length - r
      · have hn1 : (arr.length - r) ⊓ p.length = p.length := by omega
        rw [hn1, List.take_length]
        have hn2 : r ⊓ (p.length - p.length) = 0 := by omega
        rw [hn2]
        simp only [List.take_zero, copyInto, Nat.add_zero]
        rw [copyInto_eq arr r p (by omega)]
        have hlenT : (arr.take r).length = r := List.length_take_of_le (by omega)
        have hdropr : (arr.take r ++ p ++ arr.drop (r + p.length)).drop r
            = p ++ arr.drop (r + p.length) := by
          rw [List.append_assoc, List.drop_left' hlenT]
        rw [if_pos hp0]
        simp only [show (false = true) = False from by simp, if_false]
        by_cases hwrap : r + p.length < arr.length
        · rw [Nat.mod_eq_of_lt hwrap]
          rw [if_pos (by omega : r < r + p.length), hdropr]
          have hidx : r + p.length - r = p.length := by omega
          rw [hidx, List.take_left' rfl]
          simp
        · have heq : r + p.length = arr.length := by omega
          rw [heq, Nat.mod_self]
          rw [if_neg (by omega : ¬ r < 0)]
          simp only [List.drop_length, List.append_nil, List.take_zero]
          rw [List.drop_left' hlenT]
      · -- the copy wraps around the end of the array
        have hn1 : (arr.length - r) ⊓ p.length = arr.length - r := by omega
        rw [hn1]
        have hn2 : r ⊓ (p.length - (arr.length - r)) = p.length - (arr.length - r) := by
          omega
        rw [hn2]
        have hlenP1 : (p.take (arr.length - r)).length = arr.length - r :=
          List.length_take_of_le (by omega)
        rw [copyInto_eq arr r (p.take (arr.length - r)) (by rw [hlenP1]; omega)]
        rw [hlenP1]
        have hdc : arr.drop (r + (arr.length - r)) = [] :=
          List.drop_eq_nil_of_le (by omega)
        rw [hdc, List.append_nil]
        have hlenT : (arr.take r).length = r := List.length_take_of_le (by omega)
        have hlen1 : (arr.take r ++ p.take (arr.length - r)).length = arr.length := by
          simp only [List.length_append, hlenT, hlenP1]
          omega
        have hP2eq : (p.drop (arr.length - r)).take (p.length - (arr.length - r))
            = p.drop (arr.length - r) :=
          List.take_of_length_le (by simp only [List.length_drop]; omega)
        rw [hP2eq]
        rw [copyInto_eq _ 0 (p.drop (arr.length - r))
          (by simp only [List.length_drop]; rw [hlen1]; omega)]
        simp only [List.take_zero, List.nil_append, Nat.zero_add, List.length_drop]
        have hdropn2 : (arr.take r ++ p.take (arr.length - r)).drop
            (p.length - (arr.length - r))
            = (arr.take r).drop (p.length - (arr.length - r)) ++ p.take (arr.length - r) := by
          rw [List.drop_append_eq_append_drop, hlenT]
          rw [show p.length - (arr.length - r) - r = 0 by omega]
          rw [List.drop_zero]
        rw [hdropn2]
        have hlenP2 : (p.drop (arr.length - r)).length = p.length - (arr.length - r) := by
          simp only [List.length_drop]
        have hlenTD : ((arr.take r).drop (p.length - (arr.length - r))).length
            = r - (p.length - (arr.length - r)) := by
          simp only [List.length_drop, hlenT]
        have hoff : (r + (arr.length - r + (p.length - (arr.length - r)))) % arr.length
            = p.length - (arr.length - r) := by
          rw [show r + (arr.length - r + (p.length - (arr.length - r)))
            = arr.length + (p.length - (arr.length - r)) by omega]
          rw [Nat.add_mod_left]
          exact Nat.mod_eq_of_lt (by omega)
        rw [hoff]
        rw [if_pos (by omega : 0 < arr.length - r + (p.length - (arr.length - r)))]
        simp only [show (false = true) = False from by simp, if_false]
        rw [if_neg (by omega : ¬ r < p.length - (arr.length - r))]
        have hdropr : (p.drop (arr.length - r)
            ++ ((arr.take r).drop (p.length - (arr.length - r)) ++ p.take (arr.length - r))).drop r
            = p.take (arr.length - r) := by
          rw [List.drop_append_eq_append_drop]
          rw [List.drop_eq_nil_of_le (by rw [hlenP2]; omega :
            (p.drop (arr.length - r)).length ≤ r)]
          rw [List.nil_append]
          rw [List.drop_append_eq_append_drop]
          rw [List.drop_eq_nil_of_le (by rw [hlenTD, hlenP2] :
            ((arr.take r).drop (p.length - (arr.length - r))).length
              ≤ r - (p.drop (arr.length - r)).length)]
          rw [List.nil_append]
          rw [show r - (p.drop (arr.length - r)).length
              - ((arr.take r).drop (p.length - (arr.length - r))).length = 0
            from by rw [hlenTD, hlenP2]; omega]
          rw [List.drop_zero]
        have htaken2 : (p.drop (arr.length - r)
            ++ ((arr.take r).drop (p.length - (arr.length - r)) ++ p.take (arr.length - r))).take
              (p.length - (arr.length - r))
            = p.drop (arr.length - r) := List.take_left' hlenP2
        rw [hdropr, htaken2, List.take_append_drop]
    · -- non-empty writer
      have hemp' : e = false := by
        cases e
        · rfl
        · exact absurd rfl hemp
      subst hemp'
      rw [if_neg (by simp)] at hfit'
      simp only [show (false = true) = False from by simp, if_false, ite_self]
      by_cases hro : r < o
      · rw [if_pos hro] at hfit'
        rw [if_pos hro]
        simp only [eq_false (show ¬ o < r by omega), if_false, List.append_nil]
        by_cases hfA : p.length ≤ arr.length - o
        · have hn1 : (arr.length - o) ⊓ p.length = p.length := by omega
          rw [hn1, List.take_length]
          have hn2 : r ⊓ (p.length - p.length) = 0 := by omega
          rw [hn2]
          simp only [List.take_zero, copyInto, Nat.add_zero]
          rw [copyInto_eq arr o p (by omega)]
          have hlenT : (arr.take o).length = o := List.length_take_of_le (by omega)
          have hdropr : (arr.take o ++ p ++ arr.drop (o + p.length)).drop r
              = (arr.drop r).take (o - r) ++ (p ++ arr.drop (o + p.length)) := by
            rw [List.append_assoc, List.drop_append_eq_append_drop, hlenT]
            rw [show r - o = 0 by omega, List.drop_zero, List.drop_take]
          by_cases hwrap : o + p.length < arr.length
          · rw [Nat.mod_eq_of_lt hwrap]
            rw [if_pos (by omega : r < o + p.length), hdropr]
            have hlenA : ((arr.drop r).take (o - r)).length = o - r := by
              simp only [List.length_take, List.length_drop]
              omega
            rw [show o + p.length - r = ((arr.drop r).take (o - r)).length + p.length
              from by rw [hlenA]; omega]
            rw [List.take_append]
            rw [List.take_left' rfl]
            simp [List.append_assoc]
          · have heq : o + p.length = arr.length := by omega
            rw [heq, Nat.mod_self]
            rw [if_neg (by omega : ¬ r < 0)]
            simp only [List.drop_length, List.append_nil, List.take_zero]
            rw [List.drop_append_eq_append_drop, hlenT]
            rw [show r - o = 0 by omega, List.drop_zero, List.drop_take]
        · -- the copy wraps around the end of the array
          have hn1 : (arr.length - o) ⊓ p.length = arr.length - o := by omega
          rw [hn1]
          have hn2 : r ⊓ (p.length - (arr.length - o)) = p.length - (arr.length - o) := by
            omega
          rw [hn2]
          have hlenP1 : (p.take (arr.length - o)).length = arr.length - o :=
            List.length_take_of_le (by omega)
          rw [copyInto_eq arr o (p.take (arr.length - o)) (by rw [hlenP1]; omega)]
          rw [hlenP1]
          have hdc : arr.drop (o + (arr.length - o)) = [] :=
            List.drop_eq_nil_of_le (by omega)
          rw [hdc, List.append_nil]
          have hlenT : (arr.take o).length = o := List.length_take_of_le (by omega)
          have hlen1 : (arr.take o ++ p.take (arr.length - o)).length = arr.length := by
            simp only [List.length_append, hlenT, hlenP1]
            omega
          have hP2eq : (p.drop (arr.length - o)).take (p.length - (arr.length - o))
              = p.drop (arr.length - o) :=
            List.take_of_length_le (by simp only [List.length_drop]; omega)
          rw [hP2eq]
          rw [copyInto_eq _ 0 (p.drop (arr.length - o))
            (by simp only [List.length_drop]; rw [hlen1]; omega)]
          simp only [List.take_zero, List.nil_append, Nat.zero_add, List.length_drop]
          have hdropn2 : (arr.take o ++ p.take (arr.length - o)).drop
              (p.length - (arr.length - o))
              = (arr.take o).drop (p.length - (arr.length - o)) ++ p.take (arr.length - o) := by
            rw [List.drop_append_eq_append_drop, hlenT]
            rw [show p.length - (arr.length - o) - o = 0 by omega]
            rw [List.drop_zero]
          rw [hdropn2]
          have hlenP2 : (p.drop (arr.length - o)).length = p.length - (arr.length - o) := by
            simp only [List.length_drop]
          have hlenTD : ((arr.take o).drop (p.length - (arr.length - o))).length
              = o - (p.length - (arr.length - o)) := by
            simp only [List.length_drop, hlenT]
          have hoff : (o + (arr.length - o + (p.length - (arr.length - o)))) % arr.length
              = p.length - (arr.length - o) := by
            rw [show o + (arr.length - o + (p.length - (arr.length - o)))
              = arr.length + (p.length - (arr.length - o)) by omega]
            rw [Nat.add_mod_left]
            exact Nat.mod_eq_of_lt (by omega)
          rw [hoff]
          rw [if_neg (by omega : ¬ r < p.length - (arr.length - o))]
          have hdropr : (p.drop (arr.length - o)
              ++ ((arr.take o).drop (p.length - (arr.length - o)) ++ p.take (arr.length - o))).drop r
              = (arr.drop r).take (o - r) ++ p.take (arr.length - o) := by
            rw [List.drop_append_eq_append_drop]
            rw [List.drop_eq_nil_of_le (by rw [hlenP2]; omega :
              (p.drop (arr.length - o)).length ≤ r)]
            rw [List.nil_append]
            rw [List.drop_append_eq_append_drop]
            have hdd : ((arr.take o).drop (p.length - (arr.length - o))).drop
                (r - (p.drop (arr.length - o)).length)
                = (arr.drop r).take (o - r) := by
              rw [List.drop_drop, hlenP2]
              rw [show p.length - (arr.length - o) + (r - (p.length - (arr.length - o))) = r
                by omega]
              rw [List.drop_take]
            have hnil : (p.take (arr.length - o)).drop
                (r - (p.drop (arr.length - o)).length
                  - ((arr.take o).drop (p.length - (arr.length - o))).length) = (p.take (arr.length - o)).drop 0 := by
              rw [show r - (p.drop (arr.length - o)).length
                  - ((arr.take o).drop (p.length - (arr.length - o))).length = 0
                from by rw [hlenTD, hlenP2]; omega]
            rw [hdd, hnil, List.drop_zero]
          have htaken2 : (p.drop (arr.length - o)
              ++ ((arr.take o).drop (p.length - (arr.length - o)) ++ p.take (arr.length - o))).take
                (p.length - (arr.length - o))
              = p.drop (arr.length - o) := List.take_left' hlenP2
          rw [hdropr, htaken2]
          rw [List.append_assoc, List.take_append_drop]
      · -- wrapped content: off ≤ roff, the gap is the contiguous region [off, roff)
        rw [if_neg hro] at hfit'
        have hor : o < r := by omega
        rw [if_neg hro]
        simp only [eq_true hor, if_true]
        have hn1 : (r - o) ⊓ p.length = p.length := by omega
        rw [hn1, List.take_length]
        have hn2 : (0 : Nat) ⊓ (p.length - p.length) = 0 := by omega
        rw [hn2]
        simp only [List.take_zero, copyInto, Nat.add_zero]
        rw [copyInto_eq arr o p (by omega)]
        have hlenT : (arr.take o).length = o := List.length_take_of_le (by omega)
        rw [Nat.mod_eq_of_lt (by omega : o + p.length < arr.length)]
        rw [if_neg (by omega : ¬ r < o + p.length)]
        have hlenTP : (arr.take o ++ p).length = o + p.length := by
          simp only [List.length_append, hlenT]
        have hdropr : (arr.take o ++ p ++ arr.drop (o + p.length)).drop r
            = arr.drop r := by
          rw [show arr.take o ++ p ++ arr.drop (o + p.length)
            = (arr.take o ++ p) ++ arr.drop (o + p.length) from rfl]
          rw [List.drop_append_eq_append_drop]
          rw [List.drop_eq_nil_of_le (by rw [hlenTP]; omega :
            (arr.take o ++ p).length ≤ r)]
          rw [List.nil_append, List.drop_drop, hlenTP]
          rw [show o + p.length + (r - (o + p.length)) = r by omega]
        have htake : (arr.take o ++ p ++ arr.drop (o + p.length)).take (o + p.length)
            = arr.take o ++ p := List.take_left' hlenTP
        rw [hdropr, htake]
        simp [List.append_assoc]

theorem newWriter_nil_wf (c : Nat) : wWF (newWriter [] c) := by
  refine ⟨fun _ => ⟨rfl, rfl, rfl⟩, fun _ => ?_, fun _ => rfl⟩
  constructor <;> · simp [newWriter] at *; omega

theorem newWriter_nil_content (c : Nat) : contentOf (newWriter [] c) = [] := rfl

theorem newWriter_nil_len (c : Nat) : wLen (newWriter [] c) = 0 := rfl

theorem newWriter_nil_cap (c : Nat) : wCap (newWriter [] c) = c := by
  simp [newWriter, wCap]

theorem splitSeg_len_le (a b : Nat) (arr : List Byte) :
    (splitSeg a b arr).1.length ≤ arr.length ∧ (splitSeg a b arr).2.length ≤ arr.length := by
  unfold splitSeg
  split <;> constructor <;> simp <;> omega

/-- writer.grow: preserves the content, keeps well-formedness, and leaves a
free gap of at least `s`. -/
theorem grow_spec (w : Wring) (s : Nat) (h : wWF w) :
    wWF (grow w s) ∧ contentOf (grow w s) = contentOf w
      ∧ s ≤ wCap (grow w s) - wLen (grow w s) := by
  unfold grow
  split
  · exact ⟨h, rfl, by assumption⟩
  · rename_i hs
    have hLc := wLen_le_cap w h
    have hnw := newWriter_nil_wf (wCap w * 2 + s)
    have hnc := newWriter_nil_content (wCap w * 2 + s)
    have hncap := newWriter_nil_cap (wCap w * 2 + s)
    have hnlen := newWriter_nil_len (wCap w * 2 + s)
    by_cases hemp : w.empty = true
    · rw [if_pos hemp]
      refine ⟨hnw, ?_, ?_⟩
      · rw [hnc]
        unfold contentOf
        rw [if_pos hemp]
      · rw [hncap, hnlen]
        omega
    · rw [if_neg hemp]
      have hab : (splitSeg w.roff w.off w.data).1 ++ (splitSeg w.roff w.off w.data).2
          = contentOf w := by
        unfold contentOf
        rw [if_neg hemp]
      have hla : (splitSeg w.roff w.off w.data).1.length ≤ wCap w :=
        (splitSeg_len_le _ _ _).1
      have hlb : (splitSeg w.roff w.off w.data).2.length ≤ wCap w :=
        (splitSeg_len_le _ _ _).2
      have hfit1 : (splitSeg w.roff w.off w.data).1.length
          ≤ wCap (newWriter [] (wCap w * 2 + s)) - wLen (newWriter [] (wCap w * 2 + s)) := by
        rw [hncap, hnlen]
        omega
      have h1 := wWriteRaw_content (newWriter [] (wCap w * 2 + s)) _ hnw hfit1
      have h1wf := wWriteRaw_wf (newWriter [] (wCap w * 2 + s)) _ hnw hfit1
      have h1cap := wWriteRaw_length (newWriter [] (wCap w * 2 + s))
        (splitSeg w.roff w.off w.data).1
      have h1len : wLen (wWriteRaw (newWriter [] (wCap w * 2 + s))
          (splitSeg w.roff w.off w.data).1).1 = (splitSeg w.roff w.off w.data).1.length := by
        rw [← contentOf_length _ h1wf, h1, hnc, List.nil_append]
      have e1 : wCap (wWriteRaw (newWriter [] (wCap w * 2 + s))
          (splitSeg w.roff w.off w.data).1).1 = wCap w * 2 + s := by
        show (wWriteRaw (newWriter [] (wCap w * 2 + s))
          (splitSeg w.roff w.off w.data).1).1.data.length = wCap w * 2 + s
        rw [h1cap]
        exact hncap
      have hfit2 : (splitSeg w.roff w.off w.data).2.length
          ≤ wCap (wWriteRaw (newWriter [] (wCap w * 2 + s))
              (splitSeg w.roff w.off w.data).1).1
            - wLen (wWriteRaw (newWriter [] (wCap w * 2 + s))
              (splitSeg w.roff w.off w.data).1).1 := by
        rw [e1, h1len]
        omega
      have h2 := wWriteRaw_content _ _ h1wf hfit2
      have h2wf := wWriteRaw_wf _ _ h1wf hfit2
      have h2cap := wWriteRaw_length (wWriteRaw (newWriter [] (wCap w * 2 + s))
        (splitSeg w.roff w.off w.data).1).1 (splitSeg w.roff w.off w.data).2
      have h2content : contentOf (wWriteRaw (wWriteRaw (newWriter [] (wCap w * 2 + s))
          (splitSeg w.roff w.off w.data).1).1 (splitSeg w.roff w.off w.data).2).1
          = contentOf w := by
        rw [h2, h1, hnc, List.nil_append, hab]
      refine ⟨h2wf, h2content, ?_⟩
      have h2len : wLen (wWriteRaw (wWriteRaw (newWriter [] (wCap w * 2 + s))
          (splitSeg w.roff w.off w.data).1).1 (splitSeg w.roff w.off w.data).2).1
          = wLen w := by
        rw [← contentOf_length _ h2wf, h2content, contentOf_length _ h]
      have e2 : wCap (wWriteRaw (wWriteRaw (newWriter [] (wCap w * 2 + s))
          (splitSeg w.roff w.off w.data).1).1 (splitSeg w.roff w.off w.data).2).1
          = wCap w * 2 + s := by
        show (wWriteRaw (wWriteRaw (newWriter [] (wCap w * 2 + s))
          (splitSeg w.roff w.off w.data).1).1 (splitSeg w.roff w.off w.data).2).1.data.length
          = wCap w * 2 + s
        rw [h2cap, h1cap]
        exact hncap
      rw [e2, h2len]
      omega

/-- writer.Write: appends `p` to the retained content and reports `p`
written. -/
theorem wWrite_spec (w : Wring) (p : List Byte) (h : wWF w) :
    (wWrite w p).2 = p.length ∧ wWF (wWrite w p).1
      ∧ contentOf (wWrite w p).1 = contentOf w ++ p := by
  obtain ⟨hgwf, hgc, hgfit⟩ := grow_spec w p.length h
  unfold wWrite
  refine ⟨wWriteRaw_n _ _ hgwf hgfit, wWriteRaw_wf _ _ hgwf hgfit, ?_⟩
  rw [wWriteRaw_content _ _ hgwf hgfit, hgc]

/-- writer.Discard on a well-formed writer, for `n` within the retained
length: returns `(n, eof)` with io.EOF reported exactly when a positive `n`
consumes everything, and drops the first `n` retained bytes. -/
theorem wDiscard_spec (w : Wring) (n : Nat) (h : wWF w) (hn : n ≤ wLen w) :
    ∃ w' eof, wDiscard w n = some ((n, eof), w')
      ∧ (eof = true ↔ (0 < n ∧ n = wLen w))
      ∧ wWF w' ∧ contentOf w' = (contentOf w).drop n
      ∧ w'.data = w.data ∧ w'.off = w.off := by
  obtain ⟨e, o, r, arr⟩ := w
  have hz : arr.length = 0 → r = 0 ∧ o = 0 ∧ e = true := h.1
  have hb : 0 < arr.length → r < arr.length ∧ o < arr.length := h.2.1
  have hCL := contentOf_length ⟨e, o, r, arr⟩ h
  by_cases hn0 : 0 < n
  · have hL0 : 0 < wLen ⟨e, o, r, arr⟩ := by omega
    have hemp : e = false := by
      cases he' : e
      · rfl
      · exfalso
        unfold wLen at hL0
        rw [he'] at hL0
        simp at hL0
    subst hemp
    have hc0 : 0 < arr.length := by
      rcases Nat.eq_zero_or_pos arr.length with h0 | h0
      · have := (hz h0).2.2
        simp at this
      · exact h0
    obtain ⟨hrb, hob⟩ := hb hc0
    unfold wDiscard
    rw [if_pos hn0, if_neg (by omega : ¬ arr.length = 0)]
    by_cases hro : r < o
    · have hLval : wLen ⟨false, o, r, arr⟩ = o - r := by
        unfold wLen
        simp only [Bool.false_eq_true, if_false, if_pos hro]
      rw [hLval] at hn hL0 hCL
      have hmod : (r + n) % arr.length = r + n := Nat.mod_eq_of_lt (by omega)
      rw [hmod]
      by_cases heof : r + n = o
      · rw [if_pos heof]
        refine ⟨⟨true, o, r + n, arr⟩, true, rfl, ?_, ?_, ?_, rfl, rfl⟩
        · rw [hLval]
          constructor
          · intro _
            omega
          · intro _
            rfl
        · refine ⟨fun h0 => absurd h0 ?_, fun _ => ⟨?_, hob⟩, fun _ => heof⟩
          · show ¬ arr.length = 0
            omega
          · show r + n < arr.length
            omega
        · rw [show contentOf ⟨true, o, r + n, arr⟩ = [] from rfl]
          symm
          apply List.drop_eq_nil_of_le
          rw [hCL]
          omega
      · rw [if_neg heof]
        refine ⟨⟨false, o, r + n, arr⟩, false, rfl, ?_, ?_, ?_, rfl, rfl⟩
        · rw [hLval]
          simp only [Bool.false_eq_true, false_iff]
          omega
        · refine ⟨fun h0 => absurd h0 ?_, fun _ => ⟨?_, hob⟩,
            fun hcontr => by simp at hcontr⟩
          · show ¬ arr.length = 0
            omega
          · show r + n < arr.length
            omega
        · unfold contentOf splitSeg
          simp only [Bool.false_eq_true, if_false]
          rw [if_pos (show r + n < o by omega), if_pos hro]
          rw [List.append_nil, List.append_nil]
          rw [List.drop_take, List.drop_drop]
          rw [show o - r - n = o - (r + n) by omega]
    · have hLval : wLen ⟨false, o, r, arr⟩ = arr.length - r + o := by
        unfold wLen
        simp only [Bool.false_eq_true, if_false, if_neg hro]
      rw [hLval] at hn hL0 hCL
      by_cases hwrap : r + n < arr.length
      · have hmod : (r + n) % arr.length = r + n := Nat.mod_eq_of_lt hwrap
        rw [hmod]
        rw [if_neg (by omega : ¬ r + n = o)]
        refine ⟨⟨false, o, r + n, arr⟩, false, rfl, ?_, ?_, ?_, rfl, rfl⟩
        · rw [hLval]
          simp only [Bool.false_eq_true, false_iff]
          omega
        · refine ⟨fun h0 => absurd h0 ?_, fun _ => ⟨?_, hob⟩,
            fun hcontr => by simp at hcontr⟩
          · show ¬ arr.length = 0
            omega
          · show r + n < arr.length
            omega
        · unfold contentOf splitSeg
          simp only [Bool.false_eq_true, if_false]
          rw [if_neg (by omega : ¬ r + n < o), if_neg hro]
          rw [List.drop_append_eq_append_drop]
          rw [List.drop_drop]
          rw [show n - (arr.drop r).length = 0 from by simp; omega]
          rw [List.drop_zero]
      · have hmod : (r + n) % arr.length = r + n - arr.length := by
          rw [Nat.mod_eq_sub_mod (by omega : arr.length ≤ r + n)]
          exact Nat.mod_eq_of_lt (by omega)
        rw [hmod]
        by_cases heof : r + n - arr.length = o
        · rw [if_pos heof]
          refine ⟨⟨true, o, r + n - arr.length, arr⟩, true, rfl, ?_, ?_, ?_, rfl, rfl⟩
          · rw [hLval]
            constructor
            · intro _
              omega
            · intro _
              rfl
          · refine ⟨fun h0 => absurd h0 ?_, fun _ => ⟨?_, hob⟩,
              fun _ => heof⟩
            · show ¬ arr.length = 0
              omega
            · show r + n - arr.length < arr.length
              omega
          · rw [show contentOf ⟨true, o, r + n - arr.length, arr⟩ = [] from rfl]
            symm
            apply List.drop_eq_nil_of_le
            rw [hCL]
            omega
        · rw [if_neg heof]
          refine ⟨⟨false, o, r + n - arr.length, arr⟩, false, rfl, ?_, ?_, ?_, rfl, rfl⟩
          · rw [hLval]
            simp only [Bool.false_eq_true, false_iff]
            omega
          · refine ⟨fun h0 => absurd h0 ?_, fun _ => ⟨?_, hob⟩,
              fun hcontr => by simp at hcontr⟩
            · show ¬ arr.length = 0
              omega
            · show r + n - arr.length < arr.length
              omega
          · unfold contentOf splitSeg
            simp only [Bool.false_eq_true, if_false]
            rw [if_pos (show r + n - arr.length < o by omega), if_neg hro]
            rw [List.append_nil]
            rw [List.drop_append_eq_append_drop]
            rw [List.drop_eq_nil_of_le (by simp; omega : (arr.drop r).length ≤ n)]
            rw [List.nil_append]
            rw [show n - (arr.drop r).length = n - (arr.length - r) from by simp]
            rw [List.drop_take]
            rw [show o - (n - (arr.length - r)) = o - (r + n - arr.length) by omega]
            rw [show n - (arr.length - r) = r + n - arr.length by omega]
  · have hn' : n = 0 := by omega
    subst hn'
    unfold wDiscard
    rw [if_neg (by omega : ¬ 0 < 0)]
    exact ⟨⟨e, o, r, arr⟩, false, rfl, by simp, h, by rw [List.drop_zero], rfl, rfl⟩

theorem wRead_spec (w : Wring) (k : Nat) (h : wWF w) :
    ∃ eof w', wRead w k
        = some (((contentOf w).take (min k (wLen w)), min k (wLen w), eof), w')
      ∧ (eof = true ↔ min k (wLen w) = wLen w)
      ∧ wWF w' ∧ contentOf w' = (contentOf w).drop (min k (wLen w))
      ∧ w'.data = w.data := by
  by_cases he : w.empty = true
  · have hL : wLen w = 0 := by unfold wLen; rw [if_pos he]
    have hC : contentOf w = [] := by unfold contentOf; rw [if_pos he]
    refine ⟨true, w, ?_, ?_, h, ?_, rfl⟩
    · unfold wRead
      rw [if_pos he, hC, hL]
      simp
    · rw [hL]
      simp
    · rw [hC, hL]
      simp
  · have he' : w.empty = false := by
      cases hh : w.empty
      · rfl
      · exact absurd hh he
    have hc0 : 0 < w.data.length := by
      by_contra hc
      have h0 : w.data.length = 0 := by omega
      have hx := (h.1 h0).2.2
      rw [he'] at hx
      exact Bool.false_ne_true hx
    have hL0 : 0 < wLen w := by
      unfold wLen
      rw [he']
      simp only [Bool.false_eq_true, if_false]
      obtain ⟨hr, ho⟩ := h.2.1 hc0
      by_cases hro : w.roff < w.off
      · rw [if_pos hro]
        omega
      · rw [if_neg hro]
        omega
    have hab : (splitSeg w.roff w.off w.data).1 ++ (splitSeg w.roff w.off w.data).2
        = contentOf w := by
      unfold contentOf
      rw [he']
      simp
    have hlen : (splitSeg w.roff w.off w.data).1.length
        + (splitSeg w.roff w.off w.data).2.length = wLen w := by
      rw [← List.length_append, hab, contentOf_length w h]
    obtain ⟨w', eof, heq, hiff, hwf, hcont, hdata, hoff⟩ :=
      wDiscard_spec w (min k (wLen w)) h (Nat.min_le_right _ _)
    refine ⟨eof, w', ?_, ?_, hwf, hcont, hdata⟩
    · unfold wRead
      rw [if_neg (by rw [he']; simp)]
      simp only [hlen, heq, hab]
    · rw [hiff]
      constructor
      · rintro ⟨_, h2⟩
        exact h2
      · intro h2
        exact ⟨by omega, h2⟩

/-! ## The Buffer orchestration of src/unnamed/part_002

The `Buffer` owns a `Writer` store behind the interface declared in
src/unnamed/part_002 (Len / Discard / NextReader / Write).  The model keeps
the store as the sequence of retained bytes, together with the ghost `hist`
of all bytes ever written: `content = hist.drop off`.  The theorems
`wWrite_spec`, `wDiscard_spec` and `wRead_spec` above show the default ring
store implements exactly this behaviour on the call patterns the Buffer
uses (`Discard` only within `Len()`, snapshots only read while their bytes
are still retained, as the interface contract demands).  Every function
below is translated from the Go body it names; operations that run under
`b.mu` are single atomic steps, and a `sync.Cond` wait is modelled by the
event being disabled (`none`) while its guard would keep it waiting. -/

structure MBuf where
  off : Nat
  rh : List Rdr
  content : List Byte
  cap : Nat
  balive : Bool
  cb : Bool
  deriving Repr

/-- A Write that is blocked in `wwait.Wait()`: the original argument `p`,
the count `n` accepted so far, and (ghost) the history at call time. -/
structure WrState where
  orig : List Byte
  acc : Nat
  base : List Byte
  deriving Repr, DecidableEq

structure Sys where
  b : MBuf
  wr : Option WrState
  dead : List Rdr
  hist : List Byte
  jof : Nat → Nat
  got : Nat → List Byte

/-- The deferred actions `Buffer.drop` runs after its body, in execution
order. -/
inductive Act where
  | unlock
  | broadcastR
  | callback
  deriving Repr, DecidableEq

/-- Observable result of one event. -/
inductive Out where
  | silent
  | read (bytes : List Byte) (eof : Bool)
  | readBlocked
  | wrote (n : Nat) (closedErr : Bool)
  | pendingW
  | dropped (acts : List Act)
  deriving Repr, DecidableEq

/-- b.buf.Len(). -/
def bLen (b : MBuf) : Nat := b.content.length

/-- Buffer.shift: discard the bytes below the minimum registered offset
(`b.rh.Peek().off`) and advance `b.off` by the same amount. -/
def shiftF (b : MBuf) : MBuf :=
  if b.rh.length = 0 then b
  else
    let diff := (peek b.rh).off - b.off
    if 0 < diff then { b with content := b.content.drop diff, off := b.off + diff }
    else b

/-- Position of the reader with pointer identity `rid` in a slice. -/
def ridIdx : List Rdr → Nat → Option Nat
  | [], _ => none
  | r :: rs, n => if r.rid = n then some 0 else (ridIdx rs n).map (· + 1)

/-- Buffer.fetch for the reader at heap position `j`: advance its offset
past the previous snapshot, re-heapify, shift, then take a fresh snapshot
(`b.buf.NextReader()` discarded by `r.off - b.off`).  A `true` flag means
the call is parked in the `rwait.Wait()` loop: the advance and the shift
have happened, and the caller re-runs the fetch when it is woken (the
re-run advance is a no-op since `size` is already zero). -/
def fetchF (b : MBuf) (j : Nat) : MBuf × Bool :=
  let r := b.rh.getD j dum
  if r.ralive then
    let r1 := { r with off := r.off + r.size, size := 0 }
    let b1 := shiftF { b with rh := heapFix (b.rh.set j r1) j }
    if r1.off = b1.off + bLen b1 ∧ b1.balive then (b1, true)
    else
      let data := b1.content.drop (r1.off - b1.off)
      match ridIdx b1.rh r.rid with
      | some j1 => ({ b1 with
          rh := b1.rh.set j1 { b1.rh.getD j1 dum with data := data, size := data.length } },
          false)
      | none => (b1, false)
  else (b, false)

/-- Buffer.fetch dispatched by reader identity; a closed reader is no
longer in the heap and its fetch returns without touching anything. -/
def fetchS (s : Sys) (rid : Nat) : Sys × Bool :=
  match ridIdx s.b.rh rid with
  | some j =>
    let fb := fetchF s.b j
    ({ s with b := fb.1 }, fb.2)
  | none => (s, false)

/-- The current record of the reader `rid` (in the heap or closed). -/
def rdRec (s : Sys) (rid : Nat) : Rdr :=
  match ridIdx s.b.rh rid with
  | some j => s.b.rh.getD j dum
  | none =>
    match ridIdx s.dead rid with
    | some j => s.dead.getD j dum
    | none => dum

/-- `r.data.Read(p)` with `k = len(p)`: the snapshot cursor returns its
next `min k Len` bytes and reports io.EOF exactly when it reaches its end
(`wRead_spec` proves this for the ring snapshot).  The ghost `got`
accumulates the bytes delivered to each reader. -/
def dataRead (s : Sys) (rid k : Nat) : Sys × List Byte × Bool :=
  match ridIdx s.b.rh rid with
  | some j =>
    let r := s.b.rh.getD j dum
    ({ s with b := { s.b with rh := s.b.rh.set j { r with data := r.data.drop k } },
              got := fun n => if n = rid then s.got rid ++ r.data.take k else s.got n },
     r.data.take k, decide (r.data.length ≤ k))
  | none =>
    match ridIdx s.dead rid with
    | some j =>
      let r := s.dead.getD j dum
      ({ s with dead := s.dead.set j { r with data := r.data.drop k },
                got := fun n => if n = rid then s.got rid ++ r.data.take k else s.got n },
       r.data.take k, decide (r.data.length ≤ k))
    | none => (s, [], true)

/-- reader.Read from src/heap.go: fetch when the snapshot is drained, read
from the snapshot, then apply the io.EOF protocol (propagate when the
reader is closed, suppress while the buffer is alive, otherwise fetch once
more and suppress exactly when that yields bytes). -/
def readerRead (s : Sys) (rid k : Nat) : Sys × Option (List Byte × Bool) :=
  let r0 := rdRec s rid
  let f1 := if r0.data.length = 0 then fetchS s rid else (s, false)
  if f1.2 then (f1.1, none)
  else
    let res := dataRead f1.1 rid k
    let s2 := res.1
    let bytes := res.2.1
    let eofD := res.2.2
    if eofD then
      if r0.ralive = false then (s2, some (bytes, true))
      else if s2.b.balive then (s2, some (bytes, false))
      else
        let s3 := (fetchS s2 rid).1
        if 0 < (rdRec s3 rid).data.length then (s3, some (bytes, false))
        else (s3, some (bytes, true))
    else (s2, some (bytes, false))

/-- Buffer.NextReader: a reader over everything currently retained
(`size = b.buf.Len()`, `off = b.off`, full snapshot), pushed on the heap. -/
def joinF (s : Sys) (rid : Nat) : Sys :=
  let r : Rdr := { rid := rid, i := 0, off := s.b.off, size := bLen s.b,
                   data := s.b.content, ralive := true }
  { s with b := { s.b with rh := heapPush s.b.rh r },
           jof := fun n => if n = rid then s.b.off else s.jof n,
           got := fun n => if n = rid then [] else s.got n }

/-- Buffer.NextReaderFromNow: `off = b.off + b.buf.Len()`, zero size, and
the fresh snapshot immediately discarded by `Len`; note that no `shift` is
performed. -/
def joinNowF (s : Sys) (rid : Nat) : Sys :=
  let l := bLen s.b
  let r : Rdr := { rid := rid, i := 0, off := s.b.off + l, size := 0,
                   data := s.b.content.drop l, ralive := true }
  { s with b := { s.b with rh := heapPush s.b.rh r },
           jof := fun n => if n = rid then s.b.off + l else s.jof n,
           got := fun n => if n = rid then [] else s.got n }

/-- Buffer.drop's deferred actions: registration order is the conditional
callback, then `rwait.Broadcast`, then `mu.Unlock`; Go runs defers in
reverse. -/
def dropActs (fire : Bool) : List Act :=
  ((if fire then [Act.callback] else []) ++ [Act.broadcastR, Act.unlock]).reverse

/-- reader.Close: under `closeOnce`, kill the reader and run Buffer.drop
(remove from the heap, shift); a second Close is a no-op. -/
def rcloseF (s : Sys) (rid : Nat) : Sys × Out :=
  match ridIdx s.b.rh rid with
  | none => (s, Out.silent)
  | some j =>
    let r := s.b.rh.getD j dum
    let r1 := { r with ralive := false }
    let fire := s.b.rh.length = 1 && s.b.cb
    let b1 := shiftF { s.b with rh := heapRemove (s.b.rh.set j r1) j }
    ({ s with b := b1, dead := r1 :: s.dead }, Out.dropped (dropActs fire))

/-- The Write loop of Buffer.Write, entered with `n` bytes of `p` already
accepted: exit with nil error when nothing is left; block (recording the
pending call) while a positive cap is full and the buffer is alive; fail
with io.ErrClosedPipe once closed; write everything when it fits under the
cap (or there is none); otherwise write a cap-sized chunk and continue.
The fuel only bounds the recursion and never runs out on reachable states,
since each chunk is positive. -/
def wLoop : Nat → Sys → List Byte → Nat → List Byte → Sys × Out
  | 0, s, _, n, _ => (s, Out.wrote n false)
  | fuel + 1, s, p, n, base =>
    if p.length - n = 0 then (s, Out.wrote n false)
    else if 0 < s.b.cap ∧ bLen s.b = s.b.cap ∧ s.b.balive = true then
      ({ s with wr := some ⟨p, n, base⟩ }, Out.pendingW)
    else if s.b.balive = false then (s, Out.wrote n true)
    else if s.b.cap = 0 ∨ s.b.cap - bLen s.b > p.length - n then
      ({ s with b := { s.b with content := s.b.content ++ p.drop n },
                hist := s.hist ++ p.drop n }, Out.wrote p.length false)
    else
      let gap := s.b.cap - bLen s.b
      wLoop fuel
        { s with b := { s.b with content := s.b.content ++ (p.drop n).take gap },
                 hist := s.hist ++ (p.drop n).take gap }
        p (n + gap) base

/-- Buffer.Write: fail immediately on a closed buffer, then run the loop. -/
def bwriteF (s : Sys) (p : List Byte) : Sys × Out :=
  if s.b.balive = false then (s, Out.wrote 0 true)
  else wLoop (p.length + 1) s p 0 s.hist

/-- A `wwait` wakeup delivered to the blocked Write, which re-enters the
loop where it left off. -/
def wresumeF (s : Sys) : Sys × Out :=
  match s.wr with
  | none => (s, Out.silent)
  | some w => wLoop (w.orig.length + 1) { s with wr := none } w.orig w.acc w.base

/-- Buffer.Close: kill the buffer (readers and the blocked writer get
woken by the broadcasts, i.e. their events become schedulable). -/
def bcloseF (s : Sys) : Sys := { s with b := { s.b with balive := false } }

/-- Buffer.OnLastReaderClose: register the callback. -/
def onLastF (s : Sys) : Sys := { s with b := { s.b with cb := true } }

def rids (l : List Rdr) : List Nat := l.map (fun r => r.rid)

inductive Ev where
  | join (rid : Nat)
  | joinNow (rid : Nat)
  | read (rid k : Nat)
  | rclose (rid : Nat)
  | write (p : List Byte)
  | resume
  | close
  | onLast
  deriving Repr, DecidableEq

/-- One interleaved atomic step of the system.  `none` means the event is
not enabled: the handle does not exist (or is being created with a stale
id), the call would block on a condition variable, or a second writer
would contend with the pending one (the model serialises writers). -/
def step (s : Sys) (e : Ev) : Option (Sys × Out) :=
  match e with
  | .join rid =>
    if rid ∈ rids s.b.rh ++ rids s.dead then none else some (joinF s rid, Out.silent)
  | .joinNow rid =>
    if rid ∈ rids s.b.rh ++ rids s.dead then none else some (joinNowF s rid, Out.silent)
  | .read rid k =>
    if rid ∈ rids s.b.rh ++ rids s.dead then
      let rr := readerRead s rid k
      some (rr.1, match rr.2 with
        | some br => Out.read br.1 br.2
        | none => Out.readBlocked)
    else none
  | .rclose rid => some (rcloseF s rid)
  | .write p => if s.wr = none then some (bwriteF s p) else none
  | .resume => some (wresumeF s)
  | .close => some (bcloseF s, Out.silent)
  | .onLast => some (onLastF s, Out.silent)

/-- Run a trace; disabled events are skipped. -/
def run (s : Sys) : List Ev → Sys
  | [] => s
  | e :: es =>
    match step s e with
    | some r => run r.1 es
    | none => run s es

/-- NewCapped / New: empty store, empty heap, alive, no callback. -/
def initSys (cap : Nat) : Sys :=
  { b := { off := 0, rh := [], content := [], cap := cap, balive := true, cb := false },
    wr := none, dead := [], hist := [],
    jof := fun _ => 0, got := fun _ => [] }

/-- The absolute offset of the next byte the reader will deliver. -/
def posOf (r : Rdr) : Nat := r.off + r.size - r.data.length

/-! ### Lookup and bookkeeping lemmas for the orchestration model -/

instance (l : List Rdr) : Decidable (selfIdx l) := by
  unfold selfIdx
  exact Nat.decidableBallLT _ _

instance (l : List Rdr) (n : Nat) : Decidable (heapOrdN l n) :=
  decidable_of_iff
    (∀ c, c < n → 0 < c → (l.getD ((c - 1) / 2) dum).off ≤ (l.getD c dum).off) (by
      unfold heapOrdN
      constructor
      · intro h c hc0 hcn
        exact h c hcn hc0
      · intro h c hcn hc0
        exact h c hc0 hcn)

instance (l : List Rdr) : Decidable (heapOrd l) := by
  unfold heapOrd
  infer_instance

theorem ridIdx_lt (l : List Rdr) (rid j : Nat) (h : ridIdx l rid = some j) : j < l.length := by
  induction l generalizing j with
  | nil => simp [ridIdx] at h
  | cons r rs ih =>
    unfold ridIdx at h
    split at h
    · simp at h
      subst h
      simp
    · match hj : ridIdx rs rid with
      | some j0 =>
        rw [hj] at h
        simp at h
        have := ih j0 hj
        simp
        omega
      | none => rw [hj] at h; simp at h

theorem ridIdx_getD (l : List Rdr) (rid j : Nat) (h : ridIdx l rid = some j) :
    (l.getD j dum).rid = rid := by
  induction l generalizing j with
  | nil => simp [ridIdx] at h
  | cons r rs ih =>
    unfold ridIdx at h
    split at h
    · rename_i he
      simp at h
      rw [← h]
      simpa using he
    · match hj : ridIdx rs rid with
      | some j0 =>
        rw [hj] at h
        simp at h
        rw [← h]
        simpa using ih j0 hj
      | none => rw [hj] at h; simp at h

theorem rids_cons (r : Rdr) (rs : List Rdr) : rids (r :: rs) = r.rid :: rids rs := rfl

theorem ridIdx_none_iff (l : List Rdr) (rid : Nat) :
    ridIdx l rid = none ↔ rid ∉ rids l := by
  induction l with
  | nil => simp [ridIdx, rids]
  | cons r rs ih =>
    unfold ridIdx
    by_cases he : r.rid = rid
    · rw [if_pos he]
      simp [rids_cons, he]
    · rw [if_neg he, Option.map_eq_none', ih, rids_cons]
      simp only [List.mem_cons]
      constructor
      · intro h hm
        rcases hm with hm | hm
        · exact he hm.symm
        · exact h hm
      · intro h hm
        exact h (Or.inr hm)

theorem ridIdx_isSome_of_mem (l : List Rdr) (rid : Nat) (h : rid ∈ rids l) :
    ∃ j, ridIdx l rid = some j := by
  match hj : ridIdx l rid with
  | some j => exact ⟨j, rfl⟩
  | none => exact absurd h ((ridIdx_none_iff l rid).mp hj)

theorem cores_set (l : List Rdr) (j : Nat) (x : Rdr) :
    cores (l.set j x) = (cores l).set j (core x) := by
  simp [cores, List.map_set]

theorem cores_length (l : List Rdr) : (cores l).length = l.length := by
  simp [cores]

theorem cores_getD (l : List Rdr) (j : Nat) (hj : j < l.length) :
    (cores l).getD j (core dum) = core (l.getD j dum) := by
  unfold cores
  rw [List.getD_eq_getElem?_getD, List.getD_eq_getElem?_getD]
  rw [List.getElem?_map]
  rw [List.getElem?_eq_getElem hj]
  simp

theorem core_getD_mem (l : List Rdr) (j : Nat) (hj : j < l.length) :
    core (l.getD j dum) ∈ cores l := by
  rw [List.getD_eq_getElem?_getD, List.getElem?_eq_getElem hj]
  simp only [Option.getD_some]
  exact List.mem_map_of_mem _ (List.getElem_mem hj)

theorem mem_cores_set (l : List Rdr) (j : Nat) (x : Rdr) (c : CoreR)
    (h : c ∈ cores (l.set j x)) : c ∈ cores l ∨ c = core x := by
  rw [cores_set] at h
  exact List.mem_or_eq_of_mem_set h

theorem mem_cores_iff (l : List Rdr) (c : CoreR) :
    c ∈ cores l ↔ ∃ k, k < l.length ∧ core (l.getD k dum) = c := by
  constructor
  · intro h
    obtain ⟨r, hr, hc⟩ := List.mem_map.mp h
    obtain ⟨k, hk, he⟩ := List.mem_iff_getElem.mp hr
    refine ⟨k, hk, ?_⟩
    rw [List.getD_eq_getElem?_getD, List.getElem?_eq_getElem hk]
    simp [he, hc]
  · rintro ⟨k, hk, he⟩
    rw [← he]
    exact core_getD_mem l k hk

theorem rids_eq_cores_map (l : List Rdr) : rids l = (cores l).map CoreR.rid := by
  simp [rids, cores, core]

theorem rid_mem_of_cores (l : List Rdr) (c : CoreR) (h : c ∈ cores l) : c.rid ∈ rids l := by
  rw [rids_eq_cores_map]
  exact List.mem_map_of_mem _ h

theorem rids_perm_of_cores_perm (l m : List Rdr) (h : List.Perm (cores l) (cores m)) :
    List.Perm (rids l) (rids m) := by
  rw [rids_eq_cores_map, rids_eq_cores_map]
  exact h.map _

theorem rids_set_same (l : List Rdr) (j : Nat) (x : Rdr) (hj : j < l.length)
    (hx : x.rid = (l.getD j dum).rid) : rids (l.set j x) = rids l := by
  unfold rids
  rw [List.map_set, hx]
  apply List.ext_getElem (by simp)
  intro k hk1 hk2
  by_cases hkj : j = k
  · subst hkj
    rw [List.getElem_set_self hk1, List.getElem_map]
    congr 1
    rw [List.getD_eq_getElem?_getD, List.getElem?_eq_getElem (by simpa using hk2)]
    simp
  · rw [List.getElem_set_ne hkj]

theorem selfIdx_set (l : List Rdr) (j : Nat) (x : Rdr) (h : selfIdx l) (hx : x.i = j) :
    selfIdx (l.set j x) := by
  intro k hk
  simp only [List.length_set] at hk
  by_cases hkj : k = j
  · subst hkj
    rw [getD_set_self _ _ _ hk]
    exact hx
  · rw [getD_set_other _ _ _ _ hkj]
    exact h k hk

theorem heapOrd_set_same_off (l : List Rdr) (j : Nat) (x : Rdr) (h : heapOrd l)
    (hx : x.off = (l.getD j dum).off) : heapOrd (l.set j x) := by
  unfold heapOrd heapOrdN
  simp only [List.length_set]
  intro c hc0 hcn
  have hoff : ∀ k, ((l.set j x).getD k dum).off = (l.getD k dum).off := by
    intro k
    by_cases hkj : k = j
    · rw [hkj]
      by_cases hjl : j < l.length
      · rw [getD_set_self _ _ _ hjl, hx]
      · rw [List.set_eq_of_length_le (by omega)]
    · rw [getD_set_other _ _ _ _ hkj]
  rw [hoff, hoff]
  exact h c hc0 hcn

theorem heapFix_set_ord (l : List Rdr) (j : Nat) (x : Rdr) (hj : j < l.length)
    (h : heapOrd l) : heapOrd (heapFix (l.set j x) j) := by
  apply heapFix_ord _ _ (by simpa using hj)
  · intro c hc0 hcn hq hcj
    rw [getD_set_other _ _ _ _ hcj, getD_set_other _ _ _ _ hq]
    exact h c hc0 (by simpa using hcn)
  · intro c hc0 hcn hq hj0
    have hcj : c ≠ j := by omega
    have hpj : (j - 1) / 2 ≠ j := by omega
    rw [getD_set_other _ _ _ _ hcj, getD_set_other _ _ _ _ hpj]
    exact Nat.le_trans (h j (by omega) hj) (hq ▸ h c hc0 (by simpa using hcn))

/-! ### The reachable-state invariant of the orchestration -/

/-- The absolute offset of the next byte a reader (as a core record) will
deliver. -/
def posC (c : CoreR) : Nat := c.off + c.size - c.data.length

theorem posC_core (r : Rdr) : posC (core r) = posOf r := rfl

/-- Per-reader invariant: the cached snapshot is the slice of the write
history between the reader's position and the end of its last fetch, the
join offset is behind the position, and the ghost `got` is exactly the
history from the join offset to the position. -/
def RdInv (hist : List Byte) (jof : Nat → Nat) (got : Nat → List Byte) (c : CoreR) : Prop :=
  c.data.length ≤ c.size
  ∧ c.off + c.size ≤ hist.length
  ∧ c.data = (hist.take (c.off + c.size)).drop (posC c)
  ∧ jof c.rid ≤ posC c
  ∧ got c.rid = (hist.take (posC c)).drop (jof c.rid)

instance (hist : List Byte) (jof : Nat → Nat) (got : Nat → List Byte) (c : CoreR) :
    Decidable (RdInv hist jof got c) := by
  unfold RdInv
  infer_instance

/-- Pending-writer invariant: the history is the history at call time plus
the accepted prefix, and a blocked writer always has bytes left. -/
def WrInv (hist : List Byte) : Option WrState → Prop
  | none => True
  | some w => hist = w.base ++ w.orig.take w.acc ∧ w.acc < w.orig.length

instance (hist : List Byte) (o : Option WrState) : Decidable (WrInv hist o) :=
  match o with
  | none => isTrue trivial
  | some _ => inferInstanceAs (Decidable (_ ∧ _))

/-- The state invariant: retained content is the history past the discard
offset, the heap is a self-indexed min-heap of live readers with distinct
identities above the discard offset, closed readers keep consistent
snapshots, the cap bounds the retained length, and a pending write is
consistent with the history. -/
def Inv (s : Sys) : Prop :=
  s.b.off ≤ s.hist.length
  ∧ s.b.content = s.hist.drop s.b.off
  ∧ selfIdx s.b.rh
  ∧ heapOrd s.b.rh
  ∧ (rids s.b.rh ++ rids s.dead).Nodup
  ∧ (∀ c ∈ cores s.b.rh, c.ralive = true ∧ s.b.off ≤ c.off ∧ RdInv s.hist s.jof s.got c)
  ∧ (∀ c ∈ cores s.dead, c.ralive = false ∧ RdInv s.hist s.jof s.got c)
  ∧ (0 < s.b.cap → bLen s.b ≤ s.b.cap)
  ∧ WrInv s.hist s.wr

instance (s : Sys) : Decidable (Inv s) := by
  unfold Inv
  infer_instance

theorem Inv_initSys (cap : Nat) : Inv (initSys cap) := by
  refine ⟨Nat.le_refl _, rfl, ?_, ?_, ?_, ?_, ?_, ?_, trivial⟩
  · intro k hk
    simp [initSys] at hk
  · intro c hc0 hcn
    simp [initSys] at hcn
  · simp [initSys, rids]
  · intro c hc
    simp [initSys, cores] at hc
  · intro c hc
    simp [initSys, cores] at hc
  · intro _
    exact Nat.zero_le _

/-! ### Transfer lemmas for the per-reader invariant -/

theorem take_min_length (l : List Byte) (k : Nat) : l.take (min k l.length) = l.take k := by
  rcases Nat.le_total k l.length with h | h
  · rw [Nat.min_eq_left h]
  · rw [Nat.min_eq_right h, List.take_of_length_le h, List.take_of_length_le (by omega)]

theorem take_drop_self (l : List Byte) (m : Nat) : (l.take m).drop m = [] := by
  apply List.drop_eq_nil_of_le
  simp

theorem RdInv_append (hist q : List Byte) (jof : Nat → Nat) (got : Nat → List Byte)
    (c : CoreR) (h : RdInv hist jof got c) : RdInv (hist ++ q) jof got c := by
  obtain ⟨h1, h2, h3, h4, h5⟩ := h
  have hp : posC c ≤ hist.length := by unfold posC at *; omega
  refine ⟨h1, by simp; omega, ?_, h4, ?_⟩
  · rw [List.take_append_of_le_length h2]
    exact h3
  · rw [List.take_append_of_le_length hp]
    exact h5

theorem RdInv_ghost (hist : List Byte) (jof jof' : Nat → Nat) (got got' : Nat → List Byte)
    (c : CoreR) (h : RdInv hist jof got c) (hj : jof' c.rid = jof c.rid)
    (hg : got' c.rid = got c.rid) : RdInv hist jof' got' c := by
  obtain ⟨h1, h2, h3, h4, h5⟩ := h
  exact ⟨h1, h2, h3, by rw [hj]; exact h4, by rw [hg, hj]; exact h5⟩

/-- Identification of a reader record by its identity when identities are
distinct: any member core carrying the looked-up id is the record found. -/
theorem rdRec_core_live (s : Sys) (rid : Nat) (hn : (rids s.b.rh).Nodup)
    (hmem : rid ∈ rids s.b.rh) (c : CoreR) (hc : c ∈ cores s.b.rh) (hcr : c.rid = rid) :
    core (rdRec s rid) = c := by
  obtain ⟨j, hj⟩ := ridIdx_isSome_of_mem _ _ hmem
  have hlt := ridIdx_lt _ _ _ hj
  have hrid := ridIdx_getD _ _ _ hj
  have hrec : rdRec s rid = s.b.rh.getD j dum := by
    unfold rdRec
    rw [hj]
  rw [hrec]
  obtain ⟨k, hk, hke⟩ := (mem_cores_iff _ _).mp hc
  have hek : (s.b.rh.getD k dum).rid = rid := by
    have : (core (s.b.rh.getD k dum)).rid = c.rid := by rw [hke]
    simpa [core] using this.trans hcr
  have hmemj : s.b.rh.getD j dum ∈ s.b.rh := by
    rw [List.getD_eq_getElem?_getD, List.getElem?_eq_getElem hlt]
    simp only [Option.getD_some]
    exact List.getElem_mem hlt
  have hmemk : s.b.rh.getD k dum ∈ s.b.rh := by
    rw [List.getD_eq_getElem?_getD, List.getElem?_eq_getElem hk]
    simp only [Option.getD_some]
    exact List.getElem_mem hk
  have heq : s.b.rh.getD j dum = s.b.rh.getD k dum := by
    have hnd : (s.b.rh.map (fun r => r.rid)).Nodup := by
      unfold rids at hn
      exact hn
    exact List.inj_on_of_nodup_map hnd hmemj hmemk (by rw [hrid, hek])
  rw [heq, hke]

theorem rdRec_core_dead (s : Sys) (rid : Nat) (hn : (rids s.dead).Nodup)
    (hnm : rid ∉ rids s.b.rh) (hmem : rid ∈ rids s.dead) (c : CoreR)
    (hc : c ∈ cores s.dead) (hcr : c.rid = rid) : core (rdRec s rid) = c := by
  obtain ⟨j, hj⟩ := ridIdx_isSome_of_mem _ _ hmem
  have hlt := ridIdx_lt _ _ _ hj
  have hrid := ridIdx_getD _ _ _ hj
  have hrec : rdRec s rid = s.dead.getD j dum := by
    unfold rdRec
    rw [(ridIdx_none_iff _ _).mpr hnm, hj]
  rw [hrec]
  obtain ⟨k, hk, hke⟩ := (mem_cores_iff _ _).mp hc
  have hek : (s.dead.getD k dum).rid = rid := by
    have : (core (s.dead.getD k dum)).rid = c.rid := by rw [hke]
    simpa [core] using this.trans hcr
  have hmemj : s.dead.getD j dum ∈ s.dead := by
    rw [List.getD_eq_getElem?_getD, List.getElem?_eq_getElem hlt]
    simp only [Option.getD_some]
    exact List.getElem_mem hlt
  have hmemk : s.dead.getD k dum ∈ s.dead := by
    rw [List.getD_eq_getElem?_getD, List.getElem?_eq_getElem hk]
    simp only [Option.getD_some]
    exact List.getElem_mem hk
  have heq : s.dead.getD j dum = s.dead.getD k dum := by
    have hnd : (s.dead.map (fun r => r.rid)).Nodup := by
      unfold rids at hn
      exact hn
    exact List.inj_on_of_nodup_map hnd hmemj hmemk (by rw [hrid, hek])
  rw [heq, hke]

/-- `ridIdx` only looks at the identity fields. -/
theorem ridIdx_eq_of_rids (l m : List Rdr) (h : rids l = rids m) (rid : Nat) :
    ridIdx l rid = ridIdx m rid := by
  induction l generalizing m with
  | nil =>
    cases m with
    | nil => rfl
    | cons y ys => simp [rids] at h
  | cons x xs ih =>
    cases m with
    | nil => simp [rids] at h
    | cons y ys =>
      simp only [rids_cons, List.cons.injEq] at h
      unfold ridIdx
      rw [h.1, ih ys h.2]

/-! ### Buffer.shift -/

theorem shiftF_spec (b : MBuf) (hist : List Byte)
    (h1 : b.off ≤ hist.length) (h2 : b.content = hist.drop b.off)
    (hord : heapOrd b.rh)
    (hrd : ∀ c ∈ cores b.rh, b.off ≤ c.off ∧ c.off + c.size ≤ hist.length) :
    (shiftF b).rh = b.rh ∧ (shiftF b).cap = b.cap ∧ (shiftF b).balive = b.balive
    ∧ (shiftF b).cb = b.cb
    ∧ b.off ≤ (shiftF b).off ∧ (shiftF b).off ≤ hist.length
    ∧ (shiftF b).content = hist.drop (shiftF b).off
    ∧ (∀ c ∈ cores b.rh, (shiftF b).off ≤ c.off)
    ∧ (0 < b.rh.length → (shiftF b).off = (peek b.rh).off)
    ∧ bLen (shiftF b) ≤ bLen b := by
  unfold shiftF
  by_cases h0 : b.rh.length = 0
  · rw [if_pos h0]
    have hnil : cores b.rh = [] := by
      have : b.rh = [] := List.length_eq_zero.mp h0
      rw [this]
      rfl
    refine ⟨rfl, rfl, rfl, rfl, Nat.le_refl _, h1, h2, ?_, ?_, Nat.le_refl _⟩
    · intro c hc
      rw [hnil] at hc
      exact absurd hc (List.not_mem_nil c)
    · intro hp
      omega
  · rw [if_neg h0]
    have hpk : core (peek b.rh) ∈ cores b.rh := core_getD_mem b.rh 0 (by omega)
    obtain ⟨hpo, hps⟩ := hrd _ hpk
    have hpo' : b.off ≤ (peek b.rh).off := hpo
    have hph : (peek b.rh).off ≤ hist.length := by
      have hx : (peek b.rh).off + (peek b.rh).size ≤ hist.length := hps
      omega
    have hmin : ∀ c ∈ cores b.rh, (peek b.rh).off ≤ c.off := by
      intro c hc
      obtain ⟨k, hk, hke⟩ := (mem_cores_iff _ _).mp hc
      have := peek_min b.rh b.rh.length hord k hk
      rw [← hke]
      exact this
    by_cases hd : 0 < (peek b.rh).off - b.off
    · rw [if_pos hd]
      have hco : b.off + ((peek b.rh).off - b.off) = (peek b.rh).off := by omega
      refine ⟨rfl, rfl, rfl, rfl, ?_, ?_, ?_, ?_, ?_, ?_⟩
      · show b.off ≤ b.off + ((peek b.rh).off - b.off)
        omega
      · show b.off + ((peek b.rh).off - b.off) ≤ hist.length
        omega
      · show b.content.drop ((peek b.rh).off - b.off)
          = hist.drop (b.off + ((peek b.rh).off - b.off))
        rw [h2, List.drop_drop]
      · intro c hc
        show b.off + ((peek b.rh).off - b.off) ≤ c.off
        rw [hco]
        exact hmin c hc
      · intro hp
        exact hco
      · show (b.content.drop ((peek b.rh).off - b.off)).length ≤ bLen b
        unfold bLen
        simp
    · rw [if_neg hd]
      have heq : b.off = (peek b.rh).off := by omega
      refine ⟨rfl, rfl, rfl, rfl, Nat.le_refl _, h1, h2, ?_, fun _ => heq, Nat.le_refl _⟩
      intro c hc
      rw [heq]
      exact hmin c hc

theorem getD_mem_self (l : List Rdr) (j : Nat) (hj : j < l.length) : l.getD j dum ∈ l := by
  rw [List.getD_eq_getElem?_getD, List.getElem?_eq_getElem hj]
  simp only [Option.getD_some]
  exact List.getElem_mem hj

theorem core_eq_iff (r r' : Rdr) : core r = core r' ↔
    r.rid = r'.rid ∧ r.off = r'.off ∧ r.size = r'.size ∧ r.data = r'.data
    ∧ r.ralive = r'.ralive := by
  simp [core]

theorem core_getD_unique (l : List Rdr) (hn : (rids l).Nodup) (j1 : Nat) (hj1 : j1 < l.length)
    (c : CoreR) (hc : c ∈ cores l) (hrid : (l.getD j1 dum).rid = c.rid) :
    core (l.getD j1 dum) = c := by
  obtain ⟨k, hk, hke⟩ := (mem_cores_iff _ _).mp hc
  have hek : (l.getD k dum).rid = c.rid := by
    have hx : (core (l.getD k dum)).rid = c.rid := by rw [hke]
    exact hx
  have heq : l.getD j1 dum = l.getD k dum :=
    List.inj_on_of_nodup_map (by unfold rids at hn; exact hn)
      (getD_mem_self l j1 hj1) (getD_mem_self l k hk) (by rw [hrid, hek])
  rw [heq, hke]

theorem mem_cores_set_cases (l : List Rdr) (j : Nat) (x : Rdr) (c : CoreR)
    (hc : c ∈ cores (l.set j x)) :
    c = core x ∨ ∃ i, i < l.length ∧ i ≠ j ∧ core (l.getD i dum) = c := by
  obtain ⟨i, hi, he⟩ := (mem_cores_iff _ _).mp hc
  have hi' : i < l.length := by simpa using hi
  by_cases hij : i = j
  · left
    rw [hij] at he
    rw [getD_set_self _ _ _ (by simp only [List.length_set] at hi; omega)] at he
    exact he.symm
  · right
    rw [getD_set_other _ _ _ _ hij] at he
    exact ⟨i, hi', hij, he⟩

theorem rids_nodup_ne (l : List Rdr) (hn : (rids l).Nodup) (i j : Nat) (hi : i < l.length)
    (hj : j < l.length) (hij : i ≠ j) : (l.getD i dum).rid ≠ (l.getD j dum).rid := by
  intro he
  apply hij
  have hi2 : i < (rids l).length := by simpa [rids] using hi
  have hj2 : j < (rids l).length := by simpa [rids] using hj
  have hgi : (rids l)[i] = (l.getD i dum).rid := by
    unfold rids
    rw [List.getElem_map]
    congr 1
    rw [List.getD_eq_getElem?_getD, List.getElem?_eq_getElem hi]
    simp
  have hgj : (rids l)[j] = (l.getD j dum).rid := by
    unfold rids
    rw [List.getElem_map]
    congr 1
    rw [List.getD_eq_getElem?_getD, List.getElem?_eq_getElem hj]
    simp
  exact (List.Nodup.getElem_inj_iff hn).mp (by rw [hgi, hgj, he])

/-- The effect of `r.data.Read(p)` on the reader's own invariant: the
position advances by the delivered bytes, which are appended to `got`. -/
theorem fetchS_not_live (s : Sys) (rid : Nat) (hnm : rid ∉ rids s.b.rh) :
    fetchS s rid = (s, false) := by
  unfold fetchS
  rw [(ridIdx_none_iff _ _).mpr hnm]

/-- Full characterisation of a fetch for a live reader whose snapshot is
drained: the invariant is preserved, the ghosts and the other components
are untouched, the call parks exactly when the reader has consumed the
whole history and the buffer is alive, and otherwise the reader ends up
with the whole remaining history as its fresh snapshot. -/
theorem fetchS_spec (s : Sys) (rid : Nat) (h : Inv s) (hmem : rid ∈ rids s.b.rh)
    (hdata : (rdRec s rid).data = []) :
    Inv (fetchS s rid).1
    ∧ (fetchS s rid).1.hist = s.hist
    ∧ (fetchS s rid).1.jof = s.jof
    ∧ (fetchS s rid).1.got = s.got
    ∧ (fetchS s rid).1.dead = s.dead
    ∧ (fetchS s rid).1.wr = s.wr
    ∧ (fetchS s rid).1.b.cap = s.b.cap
    ∧ (fetchS s rid).1.b.balive = s.b.balive
    ∧ (fetchS s rid).1.b.cb = s.b.cb
    ∧ rid ∈ rids (fetchS s rid).1.b.rh
    ∧ (rids (fetchS s rid).1.b.rh).Perm (rids s.b.rh)
    ∧ (∀ c ∈ cores (fetchS s rid).1.b.rh, c ∈ cores s.b.rh ∨ c.rid = rid)
    ∧ ((fetchS s rid).2 = true ↔ posOf (rdRec s rid) = s.hist.length ∧ s.b.balive = true)
    ∧ ((fetchS s rid).2 = true →
        (rdRec (fetchS s rid).1 rid).data = []
        ∧ (rdRec (fetchS s rid).1 rid).ralive = true
        ∧ (rdRec (fetchS s rid).1 rid).off = posOf (rdRec s rid)
        ∧ posOf (rdRec (fetchS s rid).1 rid) = posOf (rdRec s rid))
    ∧ ((fetchS s rid).2 = false →
        (rdRec (fetchS s rid).1 rid).data = s.hist.drop (posOf (rdRec s rid))
        ∧ (rdRec (fetchS s rid).1 rid).off = posOf (rdRec s rid)
        ∧ (rdRec (fetchS s rid).1 rid).ralive = true
        ∧ posOf (rdRec (fetchS s rid).1 rid) = posOf (rdRec s rid)) := by
  obtain ⟨hOff, hCont, hSI, hOrd, hND, hLive, hDead, hCap, hWr⟩ := h
  obtain ⟨j, hj⟩ := ridIdx_isSome_of_mem _ _ hmem
  have hjl := ridIdx_lt _ _ _ hj
  have hjr := ridIdx_getD _ _ _ hj
  have hrrec : rdRec s rid = s.b.rh.getD j dum := by
    unfold rdRec
    rw [hj]
  have hrd0 : (s.b.rh.getD j dum).data = [] := by
    rw [← hrrec]
    exact hdata
  have hcr : core (s.b.rh.getD j dum) ∈ cores s.b.rh := core_getD_mem _ _ hjl
  obtain ⟨hral, hboff, hrinv⟩ := hLive _ hcr
  have hral' : (s.b.rh.getD j dum).ralive = true := hral
  obtain ⟨hds, hub, hslice, hjle, hgot⟩ := hrinv
  have hub' : (s.b.rh.getD j dum).off + (s.b.rh.getD j dum).size ≤ s.hist.length := hub
  have hboff' : s.b.off ≤ (s.b.rh.getD j dum).off := hboff
  have hposCr : posC (core (s.b.rh.getD j dum))
      = (s.b.rh.getD j dum).off + (s.b.rh.getD j dum).size := by
    unfold posC
    have hz : (core (s.b.rh.getD j dum)).data.length = 0 := by
      show (s.b.rh.getD j dum).data.length = 0
      rw [hrd0]
      rfl
    rw [hz]
    rfl
  have hpos : posOf (rdRec s rid)
      = (s.b.rh.getD j dum).off + (s.b.rh.getD j dum).size := by
    rw [hrrec]
    unfold posOf
    rw [hrd0]
    rfl
  have hjle' : s.jof rid ≤ (s.b.rh.getD j dum).off + (s.b.rh.getD j dum).size := by
    have hx := hjle
    rw [hposCr] at hx
    have he : (core (s.b.rh.getD j dum)).rid = rid := hjr
    rw [he] at hx
    exact hx
  have hgot' : s.got rid
      = (s.hist.take ((s.b.rh.getD j dum).off + (s.b.rh.getD j dum).size)).drop (s.jof rid) := by
    have hx := hgot
    rw [hposCr] at hx
    have he : (core (s.b.rh.getD j dum)).rid = rid := hjr
    rw [he] at hx
    exact hx
  -- phase 1: advance the offset and re-heapify
  set r1 : Rdr := { s.b.rh.getD j dum with
    off := (s.b.rh.getD j dum).off + (s.b.rh.getD j dum).size, size := 0 } with hr1def
  set l2 : List Rdr := heapFix (s.b.rh.set j r1) j with hl2def
  have hsetlen : (s.b.rh.set j r1).length = s.b.rh.length := by simp
  have hl1si : selfIdx (s.b.rh.set j r1) := selfIdx_set _ _ _ hSI (hSI j hjl)
  have hl1rids : rids (s.b.rh.set j r1) = rids s.b.rh := rids_set_same _ _ _ hjl rfl
  have hl2si : selfIdx l2 := heapFix_selfIdx _ _ (by rw [hsetlen]; exact hjl) hl1si
  have hl2ord : heapOrd l2 := heapFix_set_ord _ _ _ hjl hOrd
  have hl2perm : (cores l2).Perm (cores (s.b.rh.set j r1)) :=
    heapFix_cores_perm _ _ (by rw [hsetlen]; exact hjl)
  have hl2rids : (rids l2).Perm (rids s.b.rh) := by
    have hx := rids_perm_of_cores_perm _ _ hl2perm
    rw [hl1rids] at hx
    exact hx
  have hl2nd : (rids l2).Nodup :=
    hl2rids.nodup_iff.mpr hND.of_append_left
  have hndmid : (rids l2 ++ rids s.dead).Nodup :=
    ((hl2rids.append_right (rids s.dead)).nodup_iff).mpr hND
  have hr1core : core r1 ∈ cores l2 := by
    apply hl2perm.mem_iff.mpr
    have hx : core ((s.b.rh.set j r1).getD j dum) = core r1 := by
      rw [getD_set_self _ _ _ (by rw [hsetlen] at *; exact hjl)]
    rw [← hx]
    exact core_getD_mem _ _ (by rw [hsetlen]; exact hjl)
  have hl2mem : ∀ c ∈ cores l2, c ∈ cores s.b.rh ∨ c = core r1 := by
    intro c hc
    exact mem_cores_set _ _ _ _ (hl2perm.mem_iff.mp hc)
  have hr1inv : RdInv s.hist s.jof s.got (core r1) := by
    have hpc : posC (core r1)
        = (s.b.rh.getD j dum).off + (s.b.rh.getD j dum).size := by
      unfold posC
      show (s.b.rh.getD j dum).off + (s.b.rh.getD j dum).size + 0
          - (s.b.rh.getD j dum).data.length = _
      rw [hrd0]
      rfl
    refine ⟨?_, ?_, ?_, ?_, ?_⟩
    · show (s.b.rh.getD j dum).data.length ≤ 0
      rw [hrd0]
      exact Nat.le_refl _
    · show (s.b.rh.getD j dum).off + (s.b.rh.getD j dum).size + 0 ≤ s.hist.length
      omega
    · show (s.b.rh.getD j dum).data
        = (s.hist.take ((s.b.rh.getD j dum).off + (s.b.rh.getD j dum).size + 0)).drop
            (posC (core r1))
      rw [hpc, hrd0, Nat.add_zero]
      exact (take_drop_self _ _).symm
    · show s.jof (s.b.rh.getD j dum).rid ≤ posC (core r1)
      rw [hpc, hjr]
      exact hjle'
    · show s.got (s.b.rh.getD j dum).rid
        = (s.hist.take (posC (core r1))).drop (s.jof (s.b.rh.getD j dum).rid)
      rw [hpc, hjr]
      exact hgot'
  have hl2live : ∀ c ∈ cores l2,
      c.ralive = true ∧ s.b.off ≤ c.off ∧ RdInv s.hist s.jof s.got c := by
    intro c hc
    rcases hl2mem c hc with hold | hnew
    · exact hLive c hold
    · subst hnew
      refine ⟨hral', ?_, hr1inv⟩
      show s.b.off ≤ (s.b.rh.getD j dum).off + (s.b.rh.getD j dum).size
      omega
  -- shift
  have hsh := shiftF_spec { s.b with rh := l2 } s.hist hOff hCont hl2ord
    (fun c hc => ⟨(hl2live c hc).2.1, ((hl2live c hc).2.2).2.1⟩)
  obtain ⟨hshrh, hshcap, hshal, hshcb, hshle, hshb, hshcont, hshall, hshpk, hshlen⟩ := hsh
  set b1 : MBuf := shiftF { s.b with rh := l2 } with hb1def
  have hb1rh : b1.rh = l2 := hshrh
  have hb1cap : b1.cap = s.b.cap := hshcap
  have hb1al : b1.balive = s.b.balive := hshal
  have hb1cb : b1.cb = s.b.cb := hshcb
  have hInvMid : Inv { s with b := b1 } := by
    refine ⟨hshb, hshcont, ?_, ?_, ?_, ?_, ?_, ?_, hWr⟩
    · show selfIdx b1.rh
      rw [hb1rh]
      exact hl2si
    · show heapOrd b1.rh
      rw [hb1rh]
      exact hl2ord
    · show (rids b1.rh ++ rids s.dead).Nodup
      rw [hb1rh]
      exact hndmid
    · intro c hc
      rw [hb1rh] at hc
      exact ⟨(hl2live c hc).1, hshall c hc, (hl2live c hc).2.2⟩
    · intro c hc
      exact hDead c hc
    · intro hc0
      have hc0' : 0 < b1.cap := hc0
      rw [hb1cap] at hc0'
      show bLen b1 ≤ b1.cap
      rw [hb1cap]
      exact Nat.le_trans hshlen (hCap hc0')
  have hb1len : b1.off + bLen b1 = s.hist.length := by
    have hx : bLen b1 = (s.hist.drop b1.off).length := by
      unfold bLen
      rw [hshcont]
    rw [hx]
    simp only [List.length_drop]
    omega
  have hmemb1 : rid ∈ rids b1.rh := by
    rw [hb1rh]
    exact hl2rids.mem_iff.mpr hmem
  have hpermb1 : (rids b1.rh).Perm (rids s.b.rh) := by
    rw [hb1rh]
    exact hl2rids
  have hr1rid : r1.rid = rid := hjr
  have hfe : fetchS s rid = ({ s with b := (fetchF s.b j).1 }, (fetchF s.b j).2) := by
    unfold fetchS
    rw [hj]
  have hguard_or : fetchF s.b j
      = if r1.off = b1.off + bLen b1 ∧ b1.balive = true then (b1, true)
        else
          (match ridIdx b1.rh (s.b.rh.getD j dum).rid with
           | some j1 => ({ b1 with rh := b1.rh.set j1 ({ b1.rh.getD j1 dum with
                 data := b1.content.drop (r1.off - b1.off),
                 size := (b1.content.drop (r1.off - b1.off)).length }) }, false)
           | none => (b1, false)) := by
    show fetchF s.b j = _
    rw [fetchF]
    rw [if_pos hral']
  by_cases hg : r1.off = b1.off + bLen b1 ∧ b1.balive = true
  · -- the fetch parks in the wait loop
    have hres : fetchS s rid = ({ s with b := b1 }, true) := by
      rw [hfe, hguard_or, if_pos hg]
    rw [hres]
    have hrec1 : core (rdRec { s with b := b1 } rid) = core r1 := by
      apply rdRec_core_live
      · show (rids b1.rh).Nodup
        rw [hb1rh]
        exact hl2nd
      · exact hmemb1
      · show core r1 ∈ cores b1.rh
        rw [hb1rh]
        exact hr1core
      · exact hr1rid
    obtain ⟨hcid, hcoff, hcsize, hcdata, hcal⟩ := (core_eq_iff _ _).mp hrec1
    refine ⟨hInvMid, rfl, rfl, rfl, rfl, rfl, hb1cap, hb1al, hb1cb, hmemb1, hpermb1,
      ?_, ?_, ?_, ?_⟩
    · intro c hc
      rw [hb1rh] at hc
      rcases hl2mem c hc with hold | hnew
      · exact Or.inl hold
      · right
        rw [hnew]
        exact hr1rid
    · constructor
      · intro _
        obtain ⟨hg1, hg2⟩ := hg
        have hg1' : (s.b.rh.getD j dum).off + (s.b.rh.getD j dum).size
            = b1.off + bLen b1 := hg1
        rw [hpos, ← hb1al]
        exact ⟨by omega, hg2⟩
      · intro _
        rfl
    · intro _
      refine ⟨?_, ?_, ?_, ?_⟩
      · rw [hcdata]
        show (s.b.rh.getD j dum).data = []
        exact hrd0
      · rw [hcal]
        exact hral'
      · rw [hcoff, hpos]
      · show (rdRec { s with b := b1 } rid).off + (rdRec { s with b := b1 } rid).size
            - (rdRec { s with b := b1 } rid).data.length = posOf (rdRec s rid)
        rw [hcoff, hcsize, hcdata, hpos]
        show (s.b.rh.getD j dum).off + (s.b.rh.getD j dum).size + 0
            - (s.b.rh.getD j dum).data.length = _
        rw [hrd0]
        rfl
    · intro hcontra
      exact absurd hcontra (by simp)
  · -- the fetch proceeds to take a fresh snapshot
    obtain ⟨j1, hj1⟩ := ridIdx_isSome_of_mem _ _ hmemb1
    have hj1' : ridIdx l2 rid = some j1 := by
      rw [← hb1rh]
      exact hj1
    have hj1l : j1 < l2.length := ridIdx_lt _ _ _ hj1'
    have hj1r : (l2.getD j1 dum).rid = rid := ridIdx_getD _ _ _ hj1'
    have hcoree : core (l2.getD j1 dum) = core r1 :=
      core_getD_unique l2 hl2nd j1 hj1l (core r1) hr1core (by rw [hj1r]; exact hjr.symm)
    obtain ⟨heid, heoff, hesize, hedata, heal⟩ := (core_eq_iff _ _).mp hcoree
    have heoff' : (l2.getD j1 dum).off
        = (s.b.rh.getD j dum).off + (s.b.rh.getD j dum).size := heoff
    have hesize' : (l2.getD j1 dum).size = 0 := hesize
    have hedata' : (l2.getD j1 dum).data = (s.b.rh.getD j dum).data := hedata
    have heal' : (l2.getD j1 dum).ralive = true := by rw [heal]; exact hral'
    have hres : fetchS s rid
        = ({ s with b := { b1 with rh := b1.rh.set j1 ({ b1.rh.getD j1 dum with
              data := b1.content.drop (r1.off - b1.off),
              size := (b1.content.drop (r1.off - b1.off)).length }) } }, false) := by
      have hj1x : ridIdx b1.rh (s.b.rh.getD j dum).rid = some j1 := by
        rw [hjr]
        exact hj1
      rw [hfe, hguard_or, if_neg hg, hj1x]
    have hble : b1.off ≤ (s.b.rh.getD j dum).off + (s.b.rh.getD j dum).size := by
      have hx := hshall (core r1) hr1core
      exact hx
    have hdval : b1.content.drop (r1.off - b1.off)
        = s.hist.drop ((s.b.rh.getD j dum).off + (s.b.rh.getD j dum).size) := by
      rw [hshcont]
      rw [List.drop_drop]
      congr 1
      have hr1off : r1.off = (s.b.rh.getD j dum).off + (s.b.rh.getD j dum).size := rfl
      omega
    have hdlen : (b1.content.drop (r1.off - b1.off)).length
        = s.hist.length - ((s.b.rh.getD j dum).off + (s.b.rh.getD j dum).size) := by
      rw [hdval]
      simp
    rw [hres]
    -- the updated heap entry
    set e2 : Rdr := { b1.rh.getD j1 dum with data := b1.content.drop (r1.off - b1.off), size := (b1.content.drop (r1.off - b1.off)).length } with he2def
    have he2rid : e2.rid = rid := by
      show (b1.rh.getD j1 dum).rid = rid
      rw [hb1rh]
      exact hj1r
    have he2off : e2.off = (s.b.rh.getD j dum).off + (s.b.rh.getD j dum).size := by
      show (b1.rh.getD j1 dum).off = _
      rw [hb1rh]
      exact heoff'
    have he2al : e2.ralive = true := by
      show (b1.rh.getD j1 dum).ralive = true
      rw [hb1rh]
      exact heal'
    have hrh2si : selfIdx (b1.rh.set j1 e2) := by
      rw [hb1rh]
      apply selfIdx_set _ _ _ hl2si
      show (b1.rh.getD j1 dum).i = j1
      rw [hb1rh]
      exact hl2si j1 hj1l
    have hrh2ord : heapOrd (b1.rh.set j1 e2) := by
      rw [hb1rh]
      apply heapOrd_set_same_off _ _ _ hl2ord
      show (b1.rh.getD j1 dum).off = (l2.getD j1 dum).off
      rw [hb1rh]
    have hrh2rids : rids (b1.rh.set j1 e2) = rids l2 := by
      rw [hb1rh]
      apply rids_set_same _ _ _ hj1l
      show (b1.rh.getD j1 dum).rid = (l2.getD j1 dum).rid
      rw [hb1rh]
    have he2mem : core e2 ∈ cores (b1.rh.set j1 e2) := by
      have hx : core ((b1.rh.set j1 e2).getD j1 dum) = core e2 := by
        rw [getD_set_self _ _ _ (by rw [hb1rh] at *; simpa using hj1l)]
      rw [← hx]
      exact core_getD_mem _ _ (by rw [hb1rh] at *; simpa using hj1l)
    have hp'le : (s.b.rh.getD j dum).off + (s.b.rh.getD j dum).size ≤ s.hist.length := hub'
    have he2inv : RdInv s.hist s.jof s.got (core e2) := by
      have hpc : posC (core e2)
          = (s.b.rh.getD j dum).off + (s.b.rh.getD j dum).size := by
        unfold posC
        show e2.off + e2.size - e2.data.length = _
        have h1 : e2.size = (b1.content.drop (r1.off - b1.off)).length := rfl
        have h2 : e2.data = b1.content.drop (r1.off - b1.off) := rfl
        rw [h1, h2, he2off]
        omega
      refine ⟨?_, ?_, ?_, ?_, ?_⟩
      · show e2.data.length ≤ e2.size
        exact Nat.le_refl _
      · show e2.off + e2.size ≤ s.hist.length
        have h1 : e2.size = (b1.content.drop (r1.off - b1.off)).length := rfl
        rw [h1, he2off, hdlen]
        omega
      · show e2.data = (s.hist.take (e2.off + e2.size)).drop (posC (core e2))
        have h1 : e2.size = (b1.content.drop (r1.off - b1.off)).length := rfl
        have h2 : e2.data = b1.content.drop (r1.off - b1.off) := rfl
        rw [hpc, h1, h2, he2off, hdlen, hdval]
        rw [show (s.b.rh.getD j dum).off + (s.b.rh.getD j dum).size
            + (s.hist.length - ((s.b.rh.getD j dum).off + (s.b.rh.getD j dum).size))
            = s.hist.length from by omega]
        rw [List.take_length]
      · show s.jof e2.rid ≤ posC (core e2)
        rw [hpc, he2rid]
        exact hjle'
      · show s.got e2.rid = (s.hist.take (posC (core e2))).drop (s.jof e2.rid)
        rw [hpc, he2rid]
        exact hgot'
    have hrh2live : ∀ c ∈ cores (b1.rh.set j1 e2),
        c.ralive = true ∧ b1.off ≤ c.off ∧ RdInv s.hist s.jof s.got c := by
      intro c hc
      rcases mem_cores_set _ _ _ _ hc with hold | hnew
      · rw [hb1rh] at hold
        exact ⟨(hl2live c hold).1, hshall c hold, (hl2live c hold).2.2⟩
      · subst hnew
        refine ⟨he2al, ?_, he2inv⟩
        show b1.off ≤ e2.off
        rw [he2off]
        exact hble
    have hInvEnd : Inv { s with b := { b1 with rh := b1.rh.set j1 e2 } } := by
      refine ⟨hshb, hshcont, hrh2si, hrh2ord, ?_, ?_, ?_, ?_, hWr⟩
      · show (rids (b1.rh.set j1 e2) ++ rids s.dead).Nodup
        rw [hrh2rids]
        exact hndmid
      · intro c hc
        exact ⟨(hrh2live c hc).1, (hrh2live c hc).2.1, (hrh2live c hc).2.2⟩
      · intro c hc
        exact hDead c hc
      · intro hc0
        have hc0' : 0 < b1.cap := hc0
        rw [hb1cap] at hc0'
        show bLen b1 ≤ b1.cap
        rw [hb1cap]
        exact Nat.le_trans hshlen (hCap hc0')
    have hrecend : core (rdRec { s with b := { b1 with rh := b1.rh.set j1 e2 } } rid)
        = core e2 := by
      apply rdRec_core_live
      · show (rids (b1.rh.set j1 e2)).Nodup
        rw [hrh2rids]
        exact hl2nd
      · show rid ∈ rids (b1.rh.set j1 e2)
        rw [hrh2rids, ← hb1rh]
        exact hmemb1
      · exact he2mem
      · exact he2rid
    obtain ⟨hfid, hfoff, hfsize, hfdata, hfal⟩ := (core_eq_iff _ _).mp hrecend
    refine ⟨hInvEnd, rfl, rfl, rfl, rfl, rfl, hb1cap, hb1al, hb1cb, ?_, ?_, ?_, ?_, ?_, ?_⟩
    · show rid ∈ rids (b1.rh.set j1 e2)
      rw [hrh2rids, ← hb1rh]
      exact hmemb1
    · show (rids (b1.rh.set j1 e2)).Perm (rids s.b.rh)
      rw [hrh2rids]
      exact hl2rids
    · intro c hc
      rcases mem_cores_set_cases _ _ _ _ hc with hce | ⟨i, hi, hij, hie⟩
      · right
        rw [hce]
        exact he2rid
      · rw [hb1rh] at hie
        rcases hl2mem c (hie ▸ core_getD_mem _ _ (by rw [hb1rh] at hi; exact hi)) with hold | hnew
      
        · exact Or.inl hold
        · right
          rw [hnew]
          exact hr1rid
    · constructor
      · intro hcontra
        exact absurd hcontra (by simp)
      · intro hx
        exfalso
        apply hg
        obtain ⟨hx1, hx2⟩ := hx
        rw [hpos] at hx1
        refine ⟨?_, by rw [hb1al]; exact hx2⟩
        show (s.b.rh.getD j dum).off + (s.b.rh.getD j dum).size = b1.off + bLen b1
        omega
    · intro hcontra
      exact absurd hcontra (by simp)
    · intro _
      refine ⟨?_, ?_, ?_, ?_⟩
      · rw [hfdata, hpos]
        show b1.content.drop (r1.off - b1.off) = _
        exact hdval
      · rw [hfoff, hpos]
        exact he2off
      · rw [hfal]
        exact he2al
      · show (rdRec { s with b := { b1 with rh := b1.rh.set j1 e2 } } rid).off
            + (rdRec { s with b := { b1 with rh := b1.rh.set j1 e2 } } rid).size
            - (rdRec { s with b := { b1 with rh := b1.rh.set j1 e2 } } rid).data.length
            = posOf (rdRec s rid)
        rw [hfoff, hfsize, hfdata, hpos]
        show e2.off + (b1.content.drop (r1.off - b1.off)).length
            - (b1.content.drop (r1.off - b1.off)).length = _
        rw [he2off]
        omega

theorem RdInv_after_read (hist : List Byte) (jof : Nat → Nat) (got got' : Nat → List Byte)
    (c : CoreR) (k : Nat) (h : RdInv hist jof got c)
    (hg : got' c.rid = got c.rid ++ c.data.take k) :
    RdInv hist jof got' ⟨c.rid, c.off, c.size, c.data.drop k, c.ralive⟩ := by
  obtain ⟨h1, h2, h3, h4, h5⟩ := h
  have hpc : posC c = c.off + c.size - c.data.length := rfl
  have hlen : c.data.length = c.off + c.size - posC c := by
    unfold posC
    omega
  have hple : posC c ≤ c.off + c.size := by
    unfold posC
    omega
  set pos' : Nat := c.off + c.size - (c.data.length - k) with hpos'
  have hpc' : posC ⟨c.rid, c.off, c.size, c.data.drop k, c.ralive⟩ = pos' := by
    show c.off + c.size - (c.data.drop k).length = pos'
    simp only [List.length_drop]
  have hp'ge : posC c ≤ pos' := by
    rw [hpos']
    unfold posC
    omega
  have hp'le : pos' ≤ c.off + c.size := by
    rw [hpos']
    omega
  refine ⟨?_, h2, ?_, ?_, ?_⟩
  · show (c.data.drop k).length ≤ c.size
    simp only [List.length_drop]
    omega
  · show c.data.drop k
      = (hist.take (c.off + c.size)).drop (posC ⟨c.rid, c.off, c.size, c.data.drop k, c.ralive⟩)
    rw [hpc', h3, List.drop_drop]
    by_cases hk : k ≤ c.data.length
    · congr 1
      rw [hpos']
      unfold posC
      omega
    · rw [List.drop_eq_nil_of_le (by simp only [List.length_take]; omega)]
      symm
      apply List.drop_eq_nil_of_le
      simp only [List.length_take]
      omega
  · show jof c.rid ≤ posC ⟨c.rid, c.off, c.size, c.data.drop k, c.ralive⟩
    rw [hpc']
    omega
  · show got' c.rid
      = (hist.take (posC ⟨c.rid, c.off, c.size, c.data.drop k, c.ralive⟩)).drop (jof c.rid)
    rw [hpc', hg, h5, h3]
    have hsplit : hist.take pos'
        = (hist.take pos').take (posC c) ++ (hist.take pos').drop (posC c) :=
      (List.take_append_drop _ _).symm
    have htt : (hist.take pos').take (posC c) = hist.take (posC c) := by
      rw [List.take_take, Nat.min_eq_left hp'ge]
    have hlenpp : ((hist.take pos').take (posC c)).length = posC c := by
      rw [htt]
      simp only [List.length_take]
      have : posC c ≤ hist.length := by omega
      omega
    rw [hsplit, List.drop_append_of_le_length (by rw [hlenpp]; exact h4), htt]
    congr 1
    rw [List.drop_take, List.drop_take, List.take_take]
    congr 1
    rw [hpos']
    unfold posC
    omega

/-- Characterisation of `r.data.Read(p)`: returns the next `k` cached
bytes with io.EOF exactly when it reaches the snapshot's end, consumes
them, appends them to the ghost `got`, and touches nothing else. -/
theorem dataRead_spec (s : Sys) (rid k : Nat) (h : Inv s)
    (hmem : rid ∈ rids s.b.rh ++ rids s.dead) :
    Inv (dataRead s rid k).1
    ∧ (dataRead s rid k).2.1 = (rdRec s rid).data.take k
    ∧ (dataRead s rid k).2.2 = decide ((rdRec s rid).data.length ≤ k)
    ∧ (dataRead s rid k).1.hist = s.hist
    ∧ (dataRead s rid k).1.jof = s.jof
    ∧ (dataRead s rid k).1.wr = s.wr
    ∧ (dataRead s rid k).1.b.off = s.b.off
    ∧ (dataRead s rid k).1.b.content = s.b.content
    ∧ (dataRead s rid k).1.b.cap = s.b.cap
    ∧ (dataRead s rid k).1.b.balive = s.b.balive
    ∧ (dataRead s rid k).1.b.cb = s.b.cb
    ∧ rids (dataRead s rid k).1.b.rh = rids s.b.rh
    ∧ rids (dataRead s rid k).1.dead = rids s.dead
    ∧ (rdRec (dataRead s rid k).1 rid).off = (rdRec s rid).off
    ∧ (rdRec (dataRead s rid k).1 rid).size = (rdRec s rid).size
    ∧ (rdRec (dataRead s rid k).1 rid).data = (rdRec s rid).data.drop k
    ∧ (rdRec (dataRead s rid k).1 rid).ralive = (rdRec s rid).ralive
    ∧ (dataRead s rid k).1.got rid = s.got rid ++ (rdRec s rid).data.take k
    ∧ (∀ c ∈ cores (dataRead s rid k).1.b.rh, c ∈ cores s.b.rh ∨ c.rid = rid)
    ∧ (∀ c ∈ cores (dataRead s rid k).1.dead, c ∈ cores s.dead ∨ c.rid = rid) := by
  obtain ⟨hOff, hCont, hSI, hOrd, hND, hLive, hDead, hCap, hWr⟩ := h
  have hndl : (rids s.b.rh).Nodup := hND.of_append_left
  have hdisj : ∀ x ∈ rids s.b.rh, x ∉ rids s.dead := by
    intro x hx
    exact (List.nodup_append.mp hND).2.2 hx
  have hndd : (rids s.dead).Nodup := (List.nodup_append.mp hND).2.1
  by_cases hml : rid ∈ rids s.b.rh
  · obtain ⟨j, hj⟩ := ridIdx_isSome_of_mem _ _ hml
    have hjl := ridIdx_lt _ _ _ hj
    have hjr := ridIdx_getD _ _ _ hj
    have hrrec : rdRec s rid = s.b.rh.getD j dum := by
      unfold rdRec
      rw [hj]
    have hres : dataRead s rid k
        = ({ s with
             b := { s.b with rh := s.b.rh.set j ({ s.b.rh.getD j dum with data := (s.b.rh.getD j dum).data.drop k }) },
             got := fun n => if n = rid then s.got rid ++ (s.b.rh.getD j dum).data.take k
               else s.got n },
           (s.b.rh.getD j dum).data.take k,
           decide ((s.b.rh.getD j dum).data.length ≤ k)) := by
      unfold dataRead
      rw [hj]
    set e : Rdr := { s.b.rh.getD j dum with data := (s.b.rh.getD j dum).data.drop k } with hedef
    have herid : e.rid = rid := hjr
    have hridsnew : rids (s.b.rh.set j e) = rids s.b.rh := rids_set_same _ _ _ hjl rfl
    have hIdxnew : ridIdx (s.b.rh.set j e) rid = some j := by
      rw [ridIdx_eq_of_rids _ s.b.rh hridsnew]
      exact hj
    have hgetnew : (s.b.rh.set j e).getD j dum = e := getD_set_self _ _ _ hjl
    obtain ⟨hral, hboff, hrinv⟩ := hLive _ (core_getD_mem _ _ hjl)
    rw [hres, hrrec]
    have hrecnew : rdRec ({ s with
        b := { s.b with rh := s.b.rh.set j e },
        got := fun n => if n = rid then s.got rid ++ (s.b.rh.getD j dum).data.take k
          else s.got n }) rid = e := by
      unfold rdRec
      rw [hIdxnew]
      exact hgetnew
    refine ⟨?_, rfl, rfl, rfl, rfl, rfl, rfl, rfl, rfl, rfl, rfl, hridsnew, rfl, ?_, ?_, ?_, ?_, ?_,
      ?_, fun c hc => Or.inl hc⟩
    · -- the invariant
      refine ⟨hOff, hCont, ?_, ?_, ?_, ?_, ?_, hCap, hWr⟩
      · exact selfIdx_set _ _ _ hSI (hSI j hjl)
      · exact heapOrd_set_same_off _ _ _ hOrd rfl
      · show (rids (s.b.rh.set j e) ++ rids s.dead).Nodup
        rw [hridsnew]
        exact hND
      · intro c hc
        rcases mem_cores_set_cases _ _ _ _ hc with hce | ⟨i, hi, hij, hie⟩
        · subst hce
          refine ⟨hral, hboff, ?_⟩
          have hx := RdInv_after_read s.hist s.jof s.got
            (fun n => if n = rid then s.got rid ++ (s.b.rh.getD j dum).data.take k else s.got n)
            (core (s.b.rh.getD j dum)) k hrinv (by
              show (if (core (s.b.rh.getD j dum)).rid = rid then _ else _) = _
              rw [show (core (s.b.rh.getD j dum)).rid = rid from hjr, if_pos rfl]
              rfl)
          exact hx
        · subst hie
          have hrne : (s.b.rh.getD i dum).rid ≠ rid := by
            rw [← hjr]
            exact rids_nodup_ne _ hndl i j hi hjl hij
          obtain ⟨hal2, hoff2, hinv2⟩ := hLive _ (core_getD_mem _ _ hi)
          refine ⟨hal2, hoff2, RdInv_ghost _ _ _ _ _ _ hinv2 rfl ?_⟩
          show (if (core (s.b.rh.getD i dum)).rid = rid then _ else _) = _
          rw [if_neg (show ¬ (core (s.b.rh.getD i dum)).rid = rid from hrne)]
      · intro c hc
        have hcd := hDead c hc
        have hrne : c.rid ≠ rid := by
          intro hx
          exact hdisj rid hml (hx ▸ rid_mem_of_cores _ _ hc)
        exact ⟨hcd.1, RdInv_ghost _ _ _ _ _ _ hcd.2 rfl (by
          show (if c.rid = rid then _ else _) = _
          rw [if_neg hrne])⟩
    · rw [hrecnew]
    · rw [hrecnew]
    · rw [hrecnew]
    · rw [hrecnew]
    · show (if rid = rid then s.got rid ++ (s.b.rh.getD j dum).data.take k else s.got rid) = _
      rw [if_pos rfl]
    · intro c hc
      rcases mem_cores_set_cases _ _ _ _ hc with hce | ⟨i, hi, hij, hie⟩
      · right
        rw [hce]
        exact herid
      · exact Or.inl (hie ▸ core_getD_mem _ _ hi)
  · have hmd : rid ∈ rids s.dead := by
      rcases List.mem_append.mp hmem with hx | hx
      · exact absurd hx hml
      · exact hx
    have hnone : ridIdx s.b.rh rid = none := (ridIdx_none_iff _ _).mpr hml
    obtain ⟨j, hj⟩ := ridIdx_isSome_of_mem _ _ hmd
    have hjl := ridIdx_lt _ _ _ hj
    have hjr := ridIdx_getD _ _ _ hj
    have hrrec : rdRec s rid = s.dead.getD j dum := by
      unfold rdRec
      rw [hnone, hj]
    have hres : dataRead s rid k
        = ({ s with
             dead := s.dead.set j ({ s.dead.getD j dum with data := (s.dead.getD j dum).data.drop k }),
             got := fun n => if n = rid then s.got rid ++ (s.dead.getD j dum).data.take k
               else s.got n },
           (s.dead.getD j dum).data.take k,
           decide ((s.dead.getD j dum).data.length ≤ k)) := by
      unfold dataRead
      rw [hnone, hj]
    set e : Rdr := { s.dead.getD j dum with data := (s.dead.getD j dum).data.drop k } with hedef
    have herid : e.rid = rid := hjr
    have hridsnew : rids (s.dead.set j e) = rids s.dead := rids_set_same _ _ _ hjl rfl
    have hIdxnew : ridIdx (s.dead.set j e) rid = some j := by
      rw [ridIdx_eq_of_rids _ s.dead hridsnew]
      exact hj
    have hgetnew : (s.dead.set j e).getD j dum = e := getD_set_self _ _ _ hjl
    obtain ⟨hral, hrinv⟩ := hDead _ (core_getD_mem _ _ hjl)
    rw [hres, hrrec]
    have hrecnew : rdRec ({ s with
        dead := s.dead.set j e,
        got := fun n => if n = rid then s.got rid ++ (s.dead.getD j dum).data.take k
          else s.got n }) rid = e := by
      unfold rdRec
      rw [hnone, hIdxnew]
      exact hgetnew
    refine ⟨?_, rfl, rfl, rfl, rfl, rfl, rfl, rfl, rfl, rfl, rfl, rfl, hridsnew, ?_, ?_, ?_, ?_, ?_,
      fun c hc => Or.inl hc, ?_⟩
    · refine ⟨hOff, hCont, hSI, hOrd, ?_, ?_, ?_, hCap, hWr⟩
      · show (rids s.b.rh ++ rids (s.dead.set j e)).Nodup
        rw [hridsnew]
        exact hND
      · intro c hc
        have hcl := hLive c hc
        have hrne : c.rid ≠ rid := by
          intro hx
          exact hdisj c.rid (rid_mem_of_cores _ _ hc) (hx ▸ hmd)
        exact ⟨hcl.1, hcl.2.1, RdInv_ghost _ _ _ _ _ _ hcl.2.2 rfl (by
          show (if c.rid = rid then _ else _) = _
          rw [if_neg hrne])⟩
      · intro c hc
        rcases mem_cores_set_cases _ _ _ _ hc with hce | ⟨i, hi, hij, hie⟩
        · subst hce
          refine ⟨hral, ?_⟩
          exact RdInv_after_read s.hist s.jof s.got
            (fun n => if n = rid then s.got rid ++ (s.dead.getD j dum).data.take k else s.got n)
            (core (s.dead.getD j dum)) k hrinv (by
              show (if (core (s.dead.getD j dum)).rid = rid then _ else _) = _
              rw [show (core (s.dead.getD j dum)).rid = rid from hjr, if_pos rfl]
              rfl)
        · subst hie
          have hrne : (s.dead.getD i dum).rid ≠ rid := by
            rw [← hjr]
            exact rids_nodup_ne _ hndd i j hi hjl hij
          have hcd := hDead _ (core_getD_mem _ _ hi)
          exact ⟨hcd.1, RdInv_ghost _ _ _ _ _ _ hcd.2 rfl (by
            show (if (core (s.dead.getD i dum)).rid = rid then _ else _) = _
            rw [if_neg (show ¬ (core (s.dead.getD i dum)).rid = rid from hrne)])⟩
    · rw [hrecnew]
    · rw [hrecnew]
    · rw [hrecnew]
    · rw [hrecnew]
    · show (if rid = rid then s.got rid ++ (s.dead.getD j dum).data.take k else s.got rid) = _
      rw [if_pos rfl]
    · intro c hc
      rcases mem_cores_set_cases _ _ _ _ hc with hce | ⟨i, hi, hij, hie⟩
      · right
        rw [hce]
        exact herid
      · exact Or.inl (hie ▸ core_getD_mem _ _ hi)

theorem rdRec_rid (s : Sys) (rid : Nat) (hmem : rid ∈ rids s.b.rh ++ rids s.dead) :
    (rdRec s rid).rid = rid := by
  by_cases hml : rid ∈ rids s.b.rh
  · obtain ⟨j, hj⟩ := ridIdx_isSome_of_mem _ _ hml
    have hx := ridIdx_getD _ _ _ hj
    unfold rdRec
    rw [hj]
    exact hx
  · have hmd : rid ∈ rids s.dead := by
      rcases List.mem_append.mp hmem with hx | hx
      · exact absurd hx hml
      · exact hx
    obtain ⟨j, hj⟩ := ridIdx_isSome_of_mem _ _ hmd
    have hx := ridIdx_getD _ _ _ hj
    unfold rdRec
    rw [(ridIdx_none_iff _ _).mpr hml, hj]
    exact hx

theorem rdRec_core_mem (s : Sys) (rid : Nat) (hmem : rid ∈ rids s.b.rh ++ rids s.dead) :
    core (rdRec s rid) ∈ cores s.b.rh ∨ core (rdRec s rid) ∈ cores s.dead := by
  by_cases hml : rid ∈ rids s.b.rh
  · obtain ⟨j, hj⟩ := ridIdx_isSome_of_mem _ _ hml
    left
    have hrec : rdRec s rid = s.b.rh.getD j dum := by
      unfold rdRec
      rw [hj]
    rw [hrec]
    exact core_getD_mem _ _ (ridIdx_lt _ _ _ hj)
  · have hmd : rid ∈ rids s.dead := by
      rcases List.mem_append.mp hmem with hx | hx
      · exact absurd hx hml
      · exact hx
    obtain ⟨j, hj⟩ := ridIdx_isSome_of_mem _ _ hmd
    right
    have hrec : rdRec s rid = s.dead.getD j dum := by
      unfold rdRec
      rw [(ridIdx_none_iff _ _).mpr hml, hj]
    rw [hrec]
    exact core_getD_mem _ _ (ridIdx_lt _ _ _ hj)

/-- The per-reader invariant holds of the looked-up record. -/
theorem rdRec_rdinv (s : Sys) (rid : Nat) (h : Inv s)
    (hmem : rid ∈ rids s.b.rh ++ rids s.dead) :
    RdInv s.hist s.jof s.got (core (rdRec s rid)) := by
  obtain ⟨_, _, _, _, _, hLive, hDead, _, _⟩ := h
  rcases rdRec_core_mem s rid hmem with hx | hx
  · exact (hLive _ hx).2.2
  · exact (hDead _ hx).2

theorem rdRec_off_le_posOf (s : Sys) (rid : Nat) (h : Inv s)
    (hmem : rid ∈ rids s.b.rh ++ rids s.dead) :
    (rdRec s rid).off ≤ posOf (rdRec s rid) := by
  have hx := (rdRec_rdinv s rid h hmem).1
  have hx' : (rdRec s rid).data.length ≤ (rdRec s rid).size := hx
  unfold posOf
  omega

theorem rdRec_ralive_of_live (s : Sys) (rid : Nat) (h : Inv s)
    (hml : rid ∈ rids s.b.rh) : (rdRec s rid).ralive = true := by
  obtain ⟨_, _, _, _, _, hLive, _, _, _⟩ := h
  obtain ⟨j, hj⟩ := ridIdx_isSome_of_mem _ _ hml
  have hrec : rdRec s rid = s.b.rh.getD j dum := by
    unfold rdRec
    rw [hj]
  rw [hrec]
  exact (hLive _ (core_getD_mem _ _ (ridIdx_lt _ _ _ hj))).1

theorem rdRec_ralive_of_dead (s : Sys) (rid : Nat) (h : Inv s)
    (hml : rid ∉ rids s.b.rh) (hmd : rid ∈ rids s.dead) :
    (rdRec s rid).ralive = false := by
  obtain ⟨_, _, _, _, _, _, hDead, _, _⟩ := h
  obtain ⟨j, hj⟩ := ridIdx_isSome_of_mem _ _ hmd
  have hrec : rdRec s rid = s.dead.getD j dum := by
    unfold rdRec
    rw [(ridIdx_none_iff _ _).mpr hml, hj]
  rw [hrec]
  exact (hDead _ (core_getD_mem _ _ (ridIdx_lt _ _ _ hj))).1

/-! ### Per-event effect summary: what every atomic step preserves -/

/-- What holds between a state and any state a single event produces from
it: the invariant, history extension, a constant cap, and per-reader
persistence (identity stays registered, its join offset is fixed, and its
registered offset never decreases). -/
def StepOK (s t : Sys) : Prop :=
  Inv t
  ∧ List.IsPrefix s.hist t.hist
  ∧ t.b.cap = s.b.cap
  ∧ ∀ x, x ∈ rids s.b.rh ++ rids s.dead →
      (x ∈ rids t.b.rh ++ rids t.dead
       ∧ t.jof x = s.jof x
       ∧ (rdRec s x).off ≤ (rdRec t x).off)

theorem stepOK_refl (s : Sys) (h : Inv s) : StepOK s s :=
  ⟨h, List.prefix_refl _, rfl, fun x hx => ⟨hx, rfl, Nat.le_refl _⟩⟩

theorem stepOK_trans (s t u : Sys) (h1 : StepOK s t) (h2 : StepOK t u) : StepOK s u := by
  obtain ⟨hI1, hp1, hc1, hx1⟩ := h1
  obtain ⟨hI2, hp2, hc2, hx2⟩ := h2
  refine ⟨hI2, hp1.trans hp2, hc2.trans hc1, fun x hx => ?_⟩
  obtain ⟨hm1, hj1, ho1⟩ := hx1 x hx
  obtain ⟨hm2, hj2, ho2⟩ := hx2 x hm1
  exact ⟨hm2, hj2.trans hj1, Nat.le_trans ho1 ho2⟩

/-- An event that only touches the reader `rid` leaves every other
reader's record (up to heap position) unchanged. -/
theorem rdRec_core_stable (s t : Sys) (rid x : Nat) (hx : x ≠ rid)
    (hnds : (rids s.b.rh ++ rids s.dead).Nodup)
    (hmemx : x ∈ rids t.b.rh ++ rids t.dead)
    (hsubL : ∀ c ∈ cores t.b.rh, c ∈ cores s.b.rh ∨ c.rid = rid)
    (hsubD : ∀ c ∈ cores t.dead, c ∈ cores s.dead ∨ c.rid = rid) :
    core (rdRec t x) = core (rdRec s x) := by
  have hrid : (rdRec t x).rid = x := rdRec_rid t x hmemx
  have hcrid : (core (rdRec t x)).rid = x := hrid
  have hmem2 : core (rdRec t x) ∈ cores s.b.rh ∨ core (rdRec t x) ∈ cores s.dead := by
    rcases rdRec_core_mem t x hmemx with hm | hm
    · rcases hsubL _ hm with h1 | h1
      · exact Or.inl h1
      · exact absurd (hcrid ▸ h1 : x = rid) hx
    · rcases hsubD _ hm with h1 | h1
      · exact Or.inr h1
      · exact absurd (hcrid ▸ h1 : x = rid) hx
  rcases hmem2 with hm | hm
  · exact (rdRec_core_live s x hnds.of_append_left
      (hcrid ▸ rid_mem_of_cores _ _ hm) _ hm hcrid).symm
  · have hmd : x ∈ rids s.dead := hcrid ▸ rid_mem_of_cores _ _ hm
    have hml : x ∉ rids s.b.rh := by
      intro hc
      exact (List.nodup_append.mp hnds).2.2 hc hmd
    exact (rdRec_core_dead s x (List.nodup_append.mp hnds).2.1 hml hmd _ hm hcrid).symm

theorem core_off_eq (r r2 : Rdr) (h : core r = core r2) : r.off = r2.off :=
  ((core_eq_iff _ _).mp h).2.1

/-! ### NextReader and NextReaderFromNow -/

theorem join_ok (s : Sys) (rid : Nat) (h : Inv s)
    (hfresh : rid ∉ rids s.b.rh ++ rids s.dead) :
    StepOK s (joinF s rid)
    ∧ (joinF s rid).jof rid = s.b.off
    ∧ rid ∈ rids (joinF s rid).b.rh
    ∧ (joinF s rid).hist = s.hist
    ∧ (joinF s rid).b.off = s.b.off
    ∧ (joinF s rid).b.content = s.b.content
    ∧ (joinF s rid).b.balive = s.b.balive := by
  obtain ⟨hOff, hCont, hSI, hOrd, hND, hLive, hDead, hCap, hWr⟩ := h
  have hfr1 : rid ∉ rids s.b.rh := fun hc => hfresh (List.mem_append.mpr (Or.inl hc))
  have hfr2 : rid ∉ rids s.dead := fun hc => hfresh (List.mem_append.mpr (Or.inr hc))
  set r : Rdr := { rid := rid, i := 0, off := s.b.off, size := bLen s.b,
                   data := s.b.content, ralive := true } with hrdef
  have hperm : (cores (heapPush s.b.rh r)).Perm (core r :: cores s.b.rh) :=
    heapPush_cores_perm _ _
  have hridsperm : (rids (heapPush s.b.rh r)).Perm (rid :: rids s.b.rh) := by
    have hx := hperm.map CoreR.rid
    rw [← rids_eq_cores_map] at hx
    exact hx.trans (by rw [List.map_cons, ← rids_eq_cores_map]; exact List.Perm.refl _)
  have hmemnew : rid ∈ rids (heapPush s.b.rh r) :=
    hridsperm.mem_iff.mpr (List.mem_cons_self _ _)
  have hrinv : RdInv s.hist s.jof s.got (core r) → True := fun _ => trivial
  have hEnd : s.b.off + bLen s.b = s.hist.length := by
    have hx : bLen s.b = (s.hist.drop s.b.off).length := by
      unfold bLen
      rw [hCont]
    rw [hx]
    simp only [List.length_drop]
    omega
  have hrinvnew : RdInv s.hist (fun n => if n = rid then s.b.off else s.jof n)
      (fun n => if n = rid then [] else s.got n) (core r) := by
    have hpc : posC (core r) = s.b.off := by
      unfold posC
      show s.b.off + bLen s.b - s.b.content.length = s.b.off
      unfold bLen
      omega
    refine ⟨?_, ?_, ?_, ?_, ?_⟩
    · show s.b.content.length ≤ bLen s.b
      exact Nat.le_refl _
    · show s.b.off + bLen s.b ≤ s.hist.length
      omega
    · show s.b.content = (s.hist.take (s.b.off + bLen s.b)).drop (posC (core r))
      rw [hpc, hEnd, List.take_length, hCont]
    · show (if rid = rid then s.b.off else s.jof rid) ≤ posC (core r)
      rw [hpc, if_pos rfl]
    · show (if rid = rid then [] else s.got rid)
        = (s.hist.take (posC (core r))).drop (if rid = rid then s.b.off else s.jof rid)
      rw [hpc, if_pos rfl, if_pos rfl]
      symm
      apply List.drop_eq_nil_of_le
      simp only [List.length_take]
      omega
  have hInvNew : Inv (joinF s rid) := by
    refine ⟨hOff, hCont, ?_, ?_, ?_, ?_, ?_, hCap, hWr⟩
    · exact heapPush_selfIdx _ _ hSI
    · exact heapPush_ord _ _ hOrd
    · show (rids (heapPush s.b.rh r) ++ rids s.dead).Nodup
      apply ((hridsperm.append_right (rids s.dead)).nodup_iff).mpr
      rw [List.cons_append]
      exact List.nodup_cons.mpr ⟨hfresh, hND⟩
    · intro c hc
      rcases List.mem_cons.mp (hperm.mem_iff.mp hc) with hc1 | hc1
      · subst hc1
        exact ⟨rfl, Nat.le_refl _, hrinvnew⟩
      · have hx := hLive c hc1
        have hcrid : c.rid ≠ rid := by
          intro he
          exact hfr1 (he ▸ rid_mem_of_cores _ _ hc1)
        refine ⟨hx.1, hx.2.1, RdInv_ghost _ _ _ _ _ _ hx.2.2 ?_ ?_⟩
        · show (if c.rid = rid then s.b.off else s.jof c.rid) = s.jof c.rid
          rw [if_neg hcrid]
        · show (if c.rid = rid then [] else s.got c.rid) = s.got c.rid
          rw [if_neg hcrid]
    · intro c hc
      have hx := hDead c hc
      have hcrid : c.rid ≠ rid := by
        intro he
        exact hfr2 (he ▸ rid_mem_of_cores _ _ hc)
      refine ⟨hx.1, RdInv_ghost _ _ _ _ _ _ hx.2 ?_ ?_⟩
      · show (if c.rid = rid then s.b.off else s.jof c.rid) = s.jof c.rid
        rw [if_neg hcrid]
      · show (if c.rid = rid then [] else s.got c.rid) = s.got c.rid
        rw [if_neg hcrid]
  refine ⟨⟨hInvNew, List.prefix_refl _, rfl, ?_⟩, ?_, hmemnew, rfl, rfl, rfl, rfl⟩
  · intro x hx
    have hxr : x ≠ rid := by
      intro he
      exact hfresh (he ▸ hx)
    have hmemx : x ∈ rids (joinF s rid).b.rh ++ rids (joinF s rid).dead := by
      show x ∈ rids (heapPush s.b.rh r) ++ rids s.dead
      rcases List.mem_append.mp hx with h1 | h1
      · exact List.mem_append.mpr (Or.inl (hridsperm.mem_iff.mpr (List.mem_cons_of_mem _ h1)))
      · exact List.mem_append.mpr (Or.inr h1)
    refine ⟨hmemx, ?_, ?_⟩
    · show (if x = rid then s.b.off else s.jof x) = s.jof x
      rw [if_neg hxr]
    · have hstab := rdRec_core_stable s (joinF s rid) rid x hxr hND hmemx ?_ ?_
      · rw [core_off_eq _ _ hstab]
      · intro c hc
        rcases List.mem_cons.mp (hperm.mem_iff.mp hc) with h1 | h1
        · right
          rw [h1]
          rfl
        · exact Or.inl h1
      · intro c hc
        exact Or.inl hc
  · show (if rid = rid then s.b.off else s.jof rid) = s.b.off
    rw [if_pos rfl]

theorem joinNow_ok (s : Sys) (rid : Nat) (h : Inv s)
    (hfresh : rid ∉ rids s.b.rh ++ rids s.dead) :
    StepOK s (joinNowF s rid)
    ∧ (joinNowF s rid).jof rid = s.b.off + bLen s.b
    ∧ rid ∈ rids (joinNowF s rid).b.rh
    ∧ (joinNowF s rid).hist = s.hist
    ∧ (joinNowF s rid).b.off = s.b.off
    ∧ (rdRec (joinNowF s rid) rid).off = s.b.off + bLen s.b
    ∧ posOf (rdRec (joinNowF s rid) rid) = s.hist.length := by
  obtain ⟨hOff, hCont, hSI, hOrd, hND, hLive, hDead, hCap, hWr⟩ := h
  have hfr1 : rid ∉ rids s.b.rh := fun hc => hfresh (List.mem_append.mpr (Or.inl hc))
  have hfr2 : rid ∉ rids s.dead := fun hc => hfresh (List.mem_append.mpr (Or.inr hc))
  set r : Rdr := { rid := rid, i := 0, off := s.b.off + bLen s.b, size := 0,
                   data := s.b.content.drop (bLen s.b), ralive := true } with hrdef
  have hdnil : s.b.content.drop (bLen s.b) = [] := List.drop_length _
  have hEnd : s.b.off + bLen s.b = s.hist.length := by
    have hx : bLen s.b = (s.hist.drop s.b.off).length := by
      unfold bLen
      rw [hCont]
    rw [hx]
    simp only [List.length_drop]
    omega
  have hperm : (cores (heapPush s.b.rh r)).Perm (core r :: cores s.b.rh) :=
    heapPush_cores_perm _ _
  have hridsperm : (rids (heapPush s.b.rh r)).Perm (rid :: rids s.b.rh) := by
    have hx := hperm.map CoreR.rid
    rw [← rids_eq_cores_map] at hx
    exact hx.trans (by rw [List.map_cons, ← rids_eq_cores_map]; exact List.Perm.refl _)
  have hmemnew : rid ∈ rids (heapPush s.b.rh r) :=
    hridsperm.mem_iff.mpr (List.mem_cons_self _ _)
  have hpc : posC (core r) = s.b.off + bLen s.b := by
    unfold posC
    show s.b.off + bLen s.b + 0 - (s.b.content.drop (bLen s.b)).length = _
    rw [hdnil]
    rfl
  have hrinvnew : RdInv s.hist (fun n => if n = rid then s.b.off + bLen s.b else s.jof n)
      (fun n => if n = rid then [] else s.got n) (core r) := by
    refine ⟨?_, ?_, ?_, ?_, ?_⟩
    · show (s.b.content.drop (bLen s.b)).length ≤ 0
      rw [hdnil]
      exact Nat.le_refl _
    · show s.b.off + bLen s.b + 0 ≤ s.hist.length
      omega
    · show s.b.content.drop (bLen s.b)
        = (s.hist.take (s.b.off + bLen s.b + 0)).drop (posC (core r))
      rw [hpc, hdnil, Nat.add_zero, hEnd, List.take_length]
      symm
      apply List.drop_eq_nil_of_le
      exact Nat.le_refl _
    · show (if rid = rid then s.b.off + bLen s.b else s.jof rid) ≤ posC (core r)
      rw [hpc, if_pos rfl]
    · show (if rid = rid then [] else s.got rid)
        = (s.hist.take (posC (core r))).drop
            (if rid = rid then s.b.off + bLen s.b else s.jof rid)
      rw [hpc, if_pos rfl, if_pos rfl]
      symm
      apply List.drop_eq_nil_of_le
      simp only [List.length_take]
      omega
  have hInvNew : Inv (joinNowF s rid) := by
    refine ⟨hOff, hCont, ?_, ?_, ?_, ?_, ?_, hCap, hWr⟩
    · exact heapPush_selfIdx _ _ hSI
    · exact heapPush_ord _ _ hOrd
    · show (rids (heapPush s.b.rh r) ++ rids s.dead).Nodup
      apply ((hridsperm.append_right (rids s.dead)).nodup_iff).mpr
      rw [List.cons_append]
      exact List.nodup_cons.mpr ⟨hfresh, hND⟩
    · intro c hc
      rcases List.mem_cons.mp (hperm.mem_iff.mp hc) with hc1 | hc1
      · subst hc1
        refine ⟨rfl, ?_, hrinvnew⟩
        show s.b.off ≤ s.b.off + bLen s.b
        omega
      · have hx := hLive c hc1
        have hcrid : c.rid ≠ rid := by
          intro he
          exact hfr1 (he ▸ rid_mem_of_cores _ _ hc1)
        refine ⟨hx.1, hx.2.1, RdInv_ghost _ _ _ _ _ _ hx.2.2 ?_ ?_⟩
        · show (if c.rid = rid then s.b.off + bLen s.b else s.jof c.rid) = s.jof c.rid
          rw [if_neg hcrid]
        · show (if c.rid = rid then [] else s.got c.rid) = s.got c.rid
          rw [if_neg hcrid]
    · intro c hc
      have hx := hDead c hc
      have hcrid : c.rid ≠ rid := by
        intro he
        exact hfr2 (he ▸ rid_mem_of_cores _ _ hc)
      refine ⟨hx.1, RdInv_ghost _ _ _ _ _ _ hx.2 ?_ ?_⟩
      · show (if c.rid = rid then s.b.off + bLen s.b else s.jof c.rid) = s.jof c.rid
        rw [if_neg hcrid]
      · show (if c.rid = rid then [] else s.got c.rid) = s.got c.rid
        rw [if_neg hcrid]
  have hrecnew : core (rdRec (joinNowF s rid) rid) = core r := by
    apply rdRec_core_live
    · show (rids (heapPush s.b.rh r)).Nodup
      apply hridsperm.nodup_iff.mpr
      exact List.nodup_cons.mpr ⟨hfr1, hND.of_append_left⟩
    · exact hmemnew
    · show core r ∈ cores (heapPush s.b.rh r)
      exact hperm.mem_iff.mpr (List.mem_cons_self _ _)
    · rfl
  obtain ⟨hfid, hfoff, hfsize, hfdata, hfal⟩ := (core_eq_iff _ _).mp hrecnew
  refine ⟨⟨hInvNew, List.prefix_refl _, rfl, ?_⟩, ?_, hmemnew, rfl, rfl, ?_, ?_⟩
  · intro x hx
    have hxr : x ≠ rid := by
      intro he
      exact hfresh (he ▸ hx)
    have hmemx : x ∈ rids (joinNowF s rid).b.rh ++ rids (joinNowF s rid).dead := by
      show x ∈ rids (heapPush s.b.rh r) ++ rids s.dead
      rcases List.mem_append.mp hx with h1 | h1
      · exact List.mem_append.mpr (Or.inl (hridsperm.mem_iff.mpr (List.mem_cons_of_mem _ h1)))
      · exact List.mem_append.mpr (Or.inr h1)
    refine ⟨hmemx, ?_, ?_⟩
    · show (if x = rid then s.b.off + bLen s.b else s.jof x) = s.jof x
      rw [if_neg hxr]
    · have hstab := rdRec_core_stable s (joinNowF s rid) rid x hxr hND hmemx ?_ ?_
      · rw [core_off_eq _ _ hstab]
      · intro c hc
        rcases List.mem_cons.mp (hperm.mem_iff.mp hc) with h1 | h1
        · right
          rw [h1]
          rfl
        · exact Or.inl h1
      · intro c hc
        exact Or.inl hc
  · show (if rid = rid then s.b.off + bLen s.b else s.jof rid) = s.b.off + bLen s.b
    rw [if_pos rfl]
  · rw [hfoff]
  · show (rdRec (joinNowF s rid) rid).off + (rdRec (joinNowF s rid) rid).size
      - (rdRec (joinNowF s rid) rid).data.length = s.hist.length
    rw [hfoff, hfsize, hfdata]
    show s.b.off + bLen s.b + 0 - (s.b.content.drop (bLen s.b)).length = _
    rw [hdnil]
    show s.b.off + bLen s.b + 0 - 0 = _
    omega

theorem dataRead_stepok (s : Sys) (rid k : Nat) (h : Inv s)
    (hmem : rid ∈ rids s.b.rh ++ rids s.dead) : StepOK s (dataRead s rid k).1 := by
  obtain ⟨hI, _, _, hhist, hjof, _, _, _, hcap, _, _, hrh, hdd, hoffe, _, _, _, _, hsubL, hsubD⟩ :=
    dataRead_spec s rid k h hmem
  refine ⟨hI, by rw [hhist], by rw [hcap], fun x hx => ?_⟩
  have hmemx : x ∈ rids (dataRead s rid k).1.b.rh ++ rids (dataRead s rid k).1.dead := by
    rw [hrh, hdd]
    exact hx
  refine ⟨hmemx, by rw [hjof], ?_⟩
  by_cases hxr : x = rid
  · subst hxr
    rw [hoffe]
  · have hstab := rdRec_core_stable s (dataRead s rid k).1 rid x hxr h.2.2.2.2.1 hmemx
      hsubL hsubD
    rw [core_off_eq _ _ hstab]

theorem fetchS_stepok (s : Sys) (rid : Nat) (h : Inv s) (hml : rid ∈ rids s.b.rh)
    (hdata : (rdRec s rid).data = []) : StepOK s (fetchS s rid).1 := by
  obtain ⟨hI, hhist, hjof, _, hdd, _, hcap, _, _, hmemn, hperm, hsubL, _, hblk, hunb⟩ :=
    fetchS_spec s rid h hml hdata
  have hge := rdRec_off_le_posOf s rid h (List.mem_append.mpr (Or.inl hml))
  refine ⟨hI, by rw [hhist], by rw [hcap], fun x hx => ?_⟩
  have hmemx : x ∈ rids (fetchS s rid).1.b.rh ++ rids (fetchS s rid).1.dead := by
    rw [hdd]
    rcases List.mem_append.mp hx with h1 | h1
    · exact List.mem_append.mpr (Or.inl (hperm.mem_iff.mpr h1))
    · exact List.mem_append.mpr (Or.inr h1)
  refine ⟨hmemx, by rw [hjof], ?_⟩
  by_cases hxr : x = rid
  · subst hxr
    cases hfl : (fetchS s x).2 with
    | true =>
      obtain ⟨_, _, hofq, _⟩ := hblk hfl
      rw [hofq]
      exact hge
    | false =>
      obtain ⟨_, hofq, _, _⟩ := hunb hfl
      rw [hofq]
      exact hge
  · have hstab := rdRec_core_stable s (fetchS s rid).1 rid x hxr h.2.2.2.2.1 hmemx
      hsubL (by rw [hdd]; exact fun c hc => Or.inl hc)
    rw [core_off_eq _ _ hstab]

theorem readerRead_ok (s : Sys) (rid k : Nat) (h : Inv s)
    (hmem : rid ∈ rids s.b.rh ++ rids s.dead) :
    StepOK s (readerRead s rid k).1 := by
  by_cases hml : rid ∈ rids s.b.rh
  · by_cases hd : (rdRec s rid).data.length = 0
    · -- live reader with a drained snapshot: fetch first
      have hdata : (rdRec s rid).data = [] := List.length_eq_zero.mp hd
      have hok1 := fetchS_stepok s rid h hml hdata
      obtain ⟨hI, hhist, hjof, hgot, hdd, hwr, hcap, hal, hcb, hmemn, hperm, hsubL, hiff,
        hblk, hunb⟩ := fetchS_spec s rid h hml hdata
      cases hfl : (fetchS s rid).2 with
      | true =>
        have hE : readerRead s rid k = ((fetchS s rid).1, none) := by
          rw [readerRead, if_pos hd, hfl]
          rfl
        rw [hE]
        exact hok1
      | false =>
        have hmem1 : rid ∈ rids (fetchS s rid).1.b.rh ++ rids (fetchS s rid).1.dead :=
          List.mem_append.mpr (Or.inl hmemn)
        have hok2 := dataRead_stepok (fetchS s rid).1 rid k hI hmem1
        obtain ⟨hI2, _, heofq, hhist2, hjof2, hwr2, _, _, hcap2, hal2, _, hrh2, hdd2,
          hoff2, hsize2, hdata2, hral2, hgot2, hsubL2, hsubD2⟩ :=
          dataRead_spec (fetchS s rid).1 rid k hI hmem1
        have hok12 := stepOK_trans _ _ _ hok1 hok2
        have hral0 : (rdRec s rid).ralive = true := rdRec_ralive_of_live s rid h hml
        cases heof : (dataRead (fetchS s rid).1 rid k).2.2 with
        | false =>
          have hE : readerRead s rid k
              = ((dataRead (fetchS s rid).1 rid k).1,
                 some ((dataRead (fetchS s rid).1 rid k).2.1, false)) := by
            rw [readerRead, if_pos hd, hfl]
            dsimp only
            rw [heof]
            rfl
          rw [hE]
          exact hok12
        | true =>
          cases hbal : (dataRead (fetchS s rid).1 rid k).1.b.balive with
          | true =>
            have hE : readerRead s rid k
                = ((dataRead (fetchS s rid).1 rid k).1,
                   some ((dataRead (fetchS s rid).1 rid k).2.1, false)) := by
              rw [readerRead, if_pos hd, hfl]
              dsimp only
              rw [heof, hral0, hbal]
              rfl
            rw [hE]
            exact hok12
          | false =>
            have hmem2 : rid ∈ rids (dataRead (fetchS s rid).1 rid k).1.b.rh := by
              rw [hrh2]
              exact hmemn
            have hdata2nil : (rdRec (dataRead (fetchS s rid).1 rid k).1 rid).data = [] := by
              rw [hdata2]
              apply List.drop_eq_nil_of_le
              have hx : decide ((rdRec (fetchS s rid).1 rid).data.length ≤ k) = true := by
                rw [← heofq]
                exact heof
              exact of_decide_eq_true hx
            have hok3 := fetchS_stepok (dataRead (fetchS s rid).1 rid k).1 rid hI2
              hmem2 hdata2nil
            have hE : readerRead s rid k
                = (if 0 < (rdRec (fetchS (dataRead (fetchS s rid).1 rid k).1 rid).1
                       rid).data.length
                   then ((fetchS (dataRead (fetchS s rid).1 rid k).1 rid).1,
                         some ((dataRead (fetchS s rid).1 rid k).2.1, false))
                   else ((fetchS (dataRead (fetchS s rid).1 rid k).1 rid).1,
                         some ((dataRead (fetchS s rid).1 rid k).2.1, true))) := by
              rw [readerRead, if_pos hd, hfl]
              dsimp only
              rw [heof, hral0, hbal]
              rfl
            rw [hE]
            split
            · exact stepOK_trans _ _ _ hok12 hok3
            · exact stepOK_trans _ _ _ hok12 hok3
    · -- live reader with cached bytes: no initial fetch
      have hok2 := dataRead_stepok s rid k h hmem
      obtain ⟨hI2, _, heofq, hhist2, hjof2, hwr2, _, _, hcap2, hal2, _, hrh2, hdd2,
        hoff2, hsize2, hdata2, hral2, hgot2, hsubL2, hsubD2⟩ := dataRead_spec s rid k h hmem
      have hral0 : (rdRec s rid).ralive = true := rdRec_ralive_of_live s rid h hml
      cases heof : (dataRead s rid k).2.2 with
      | false =>
        have hE : readerRead s rid k
            = ((dataRead s rid k).1, some ((dataRead s rid k).2.1, false)) := by
          rw [readerRead, if_neg hd]
          dsimp only
          rw [heof]
          rfl
        rw [hE]
        exact hok2
      | true =>
        cases hbal : (dataRead s rid k).1.b.balive with
        | true =>
          have hE : readerRead s rid k
              = ((dataRead s rid k).1, some ((dataRead s rid k).2.1, false)) := by
            rw [readerRead, if_neg hd]
            dsimp only
            rw [heof, hral0, hbal]
            rfl
          rw [hE]
          exact hok2
        | false =>
          have hmem2 : rid ∈ rids (dataRead s rid k).1.b.rh := by
            rw [hrh2]
            exact hml
          have hdata2nil : (rdRec (dataRead s rid k).1 rid).data = [] := by
            rw [hdata2]
            apply List.drop_eq_nil_of_le
            have hx : decide ((rdRec s rid).data.length ≤ k) = true := by
              rw [← heofq]
              exact heof
            exact of_decide_eq_true hx
          have hok3 := fetchS_stepok (dataRead s rid k).1 rid hI2 hmem2 hdata2nil
          have hE : readerRead s rid k
              = (if 0 < (rdRec (fetchS (dataRead s rid k).1 rid).1 rid).data.length
                 then ((fetchS (dataRead s rid k).1 rid).1,
                       some ((dataRead s rid k).2.1, false))
                 else ((fetchS (dataRead s rid k).1 rid).1,
                       some ((dataRead s rid k).2.1, true))) := by
            rw [readerRead, if_neg hd]
            dsimp only
            rw [heof, hral0, hbal]
            rfl
          rw [hE]
          split
          · exact stepOK_trans _ _ _ hok2 hok3
          · exact stepOK_trans _ _ _ hok2 hok3
  · -- closed reader: the fetch is a no-op and the buffer is untouched
    have hmd : rid ∈ rids s.dead := by
      rcases List.mem_append.mp hmem with hx | hx
      · exact absurd hx hml
      · exact hx
    have hf : fetchS s rid = (s, false) := fetchS_not_live s rid hml
    have hok2 := dataRead_stepok s rid k h hmem
    have hral0 : (rdRec s rid).ralive = false := rdRec_ralive_of_dead s rid h hml hmd
    have hE1 : readerRead s rid k
        = (if (dataRead s rid k).2.2 = true
           then ((dataRead s rid k).1, some ((dataRead s rid k).2.1, true))
           else ((dataRead s rid k).1, some ((dataRead s rid k).2.1, false))) := by
      rw [readerRead]
      by_cases hd : (rdRec s rid).data.length = 0
      · rw [if_pos hd, hf]
        dsimp only
        cases heof : (dataRead s rid k).2.2 with
        | false => rfl
        | true =>
          rw [hral0]
          rfl
      · rw [if_neg hd]
        dsimp only
        cases heof : (dataRead s rid k).2.2 with
        | false => rfl
        | true =>
          rw [hral0]
          rfl
    rw [hE1]
    split
    · exact hok2
    · exact hok2

theorem rclose_ok (s : Sys) (rid : Nat) (h : Inv s) :
    StepOK s (rcloseF s rid).1
    ∧ (rid ∈ rids s.b.rh →
        (rcloseF s rid).2 = Out.dropped (dropActs (s.b.rh.length = 1 && s.b.cb))
        ∧ rid ∉ rids (rcloseF s rid).1.b.rh
        ∧ rid ∈ rids (rcloseF s rid).1.dead)
    ∧ (rid ∉ rids s.b.rh → rcloseF s rid = (s, Out.silent)) := by
  obtain ⟨hOff, hCont, hSI, hOrd, hND, hLive, hDead, hCap, hWr⟩ := h
  by_cases hml : rid ∈ rids s.b.rh
  · obtain ⟨j, hj⟩ := ridIdx_isSome_of_mem _ _ hml
    have hjl := ridIdx_lt _ _ _ hj
    have hjr := ridIdx_getD _ _ _ hj
    have hrrec : rdRec s rid = s.b.rh.getD j dum := by
      unfold rdRec
      rw [hj]
    set r1 : Rdr := { s.b.rh.getD j dum with ralive := false } with hr1def
    have hr1i : r1.i = j := hSI j hjl
    have hsetlen : (s.b.rh.set j r1).length = s.b.rh.length := by simp
    have hsetsi : selfIdx (s.b.rh.set j r1) := selfIdx_set _ _ _ hSI hr1i
    have hsetord : heapOrd (s.b.rh.set j r1) := heapOrd_set_same_off _ _ _ hOrd rfl
    have hsetrids : rids (s.b.rh.set j r1) = rids s.b.rh := rids_set_same _ _ _ hjl rfl
    set rh2 : List Rdr := heapRemove (s.b.rh.set j r1) j with hrh2def
    have hrh2si : selfIdx rh2 := heapRemove_selfIdx _ _ (by rw [hsetlen]; exact hjl) hsetsi
    have hrh2ord : heapOrd rh2 := heapRemove_ord _ _ (by rw [hsetlen]; exact hjl) hsetord
    have hgetset : (s.b.rh.set j r1).getD j dum = r1 := getD_set_self _ _ _ hjl
    have hperm : (core r1 :: cores rh2).Perm (cores (s.b.rh.set j r1)) := by
      have hx := heapRemove_cores_perm (s.b.rh.set j r1) j (by rw [hsetlen]; exact hjl)
      rw [hgetset] at hx
      exact hx
    have hridsperm : (rid :: rids rh2).Perm (rids s.b.rh) := by
      have hx := hperm.map CoreR.rid
      rw [List.map_cons, ← rids_eq_cores_map, ← rids_eq_cores_map, hsetrids] at hx
      have hz : (core r1).rid = rid := hjr
      rw [hz] at hx
      exact hx
    have hndl : (rids s.b.rh).Nodup := hND.of_append_left
    have hridnot : rid ∉ rids rh2 := by
      have hx : (rid :: rids rh2).Nodup := hridsperm.nodup_iff.mpr hndl
      exact (List.nodup_cons.mp hx).1
    have hmemrh2 : ∀ c ∈ cores rh2, c ∈ cores s.b.rh := by
      intro c hc
      have hc2 : c ∈ cores (s.b.rh.set j r1) :=
        hperm.mem_iff.mp (List.mem_cons_of_mem _ hc)
      rcases mem_cores_set_cases _ _ _ _ hc2 with hce | ⟨i, hi, hij, hie⟩
      · exfalso
        apply hridnot
        have hx : c.rid = rid := by
          rw [hce]
          exact hjr
        exact hx ▸ rid_mem_of_cores _ _ hc
      · exact hie ▸ core_getD_mem _ _ hi
    have hlive2 : ∀ c ∈ cores rh2,
        c.ralive = true ∧ s.b.off ≤ c.off ∧ RdInv s.hist s.jof s.got c :=
      fun c hc => hLive c (hmemrh2 c hc)
    have hsh := shiftF_spec { s.b with rh := rh2 } s.hist hOff hCont hrh2ord
      (fun c hc => ⟨(hlive2 c hc).2.1, ((hlive2 c hc).2.2).2.1⟩)
    obtain ⟨hshrh, hshcap, hshal, hshcb, hshle, hshb, hshcont, hshall, hshpk, hshlen⟩ := hsh
    set b1 : MBuf := shiftF { s.b with rh := rh2 } with hb1def
    have hb1rh : b1.rh = rh2 := hshrh
    have hb1cap : b1.cap = s.b.cap := hshcap
    -- the record moved to the closed list keeps its invariant
    obtain ⟨hral, hboff, hrinv⟩ := hLive _ (core_getD_mem _ _ hjl)
    have hr1inv : RdInv s.hist s.jof s.got (core r1) := by
      obtain ⟨h1, h2, h3, h4, h5⟩ := hrinv
      have hpc : posC (core r1) = posC (core (s.b.rh.getD j dum)) := rfl
      exact ⟨h1, h2, by rw [hpc]; exact h3, by rw [hpc]; exact h4, by rw [hpc]; exact h5⟩
    have hres : rcloseF s rid
        = ({ s with
             b := b1,
             dead := r1 :: s.dead },
           Out.dropped (dropActs (s.b.rh.length = 1 && s.b.cb))) := by
      rw [rcloseF, hj]
    have hInvNew : Inv ({ s with b := b1, dead := r1 :: s.dead } : Sys) := by
      refine ⟨hshb, hshcont, ?_, ?_, ?_, ?_, ?_, ?_, hWr⟩
      · show selfIdx b1.rh
        rw [hb1rh]
        exact hrh2si
      · show heapOrd b1.rh
        rw [hb1rh]
        exact hrh2ord
      · show (rids b1.rh ++ rids (r1 :: s.dead)).Nodup
        rw [hb1rh]
        have hx : (rids (r1 :: s.dead)) = rid :: rids s.dead := by
          rw [rids_cons, hr1def]
          show (s.b.rh.getD j dum).rid :: rids s.dead = _
          rw [hjr]
        rw [hx]
        apply List.perm_middle.nodup_iff.mpr
        show (rid :: (rids rh2 ++ rids s.dead)).Nodup
        apply List.nodup_cons.mpr
        constructor
        · intro hc
          rcases List.mem_append.mp hc with h1 | h1
          · exact hridnot h1
          · exact (List.nodup_append.mp hND).2.2 hml h1
        · apply ((hridsperm.nodup_iff.mpr hndl).of_cons).append (List.nodup_append.mp hND).2.1
          intro x hx1 hx2
          have hx3 : x ∈ rids s.b.rh := hridsperm.mem_iff.mp (List.mem_cons_of_mem _ hx1)
          exact (List.nodup_append.mp hND).2.2 hx3 hx2
      · intro c hc
        rw [hb1rh] at hc
        exact ⟨(hlive2 c hc).1, hshall c hc, (hlive2 c hc).2.2⟩
      · intro c hc
        rcases List.mem_cons.mp hc with hce | hce
        · subst hce
          exact ⟨rfl, hr1inv⟩
        · exact hDead c hce
      · intro hc0
        have hc0' : 0 < b1.cap := hc0
        rw [hb1cap] at hc0'
        show bLen b1 ≤ b1.cap
        rw [hb1cap]
        exact Nat.le_trans hshlen (hCap hc0')
    have hmemd : rid ∈ rids (r1 :: s.dead) := by
      rw [rids_cons]
      exact List.mem_cons.mpr (Or.inl hjr.symm)
    refine ⟨⟨?_, ?_, ?_, ?_⟩, fun _ => ⟨?_, ?_, ?_⟩, fun hc => absurd hml hc⟩
    · rw [hres]
      exact hInvNew
    · rw [hres]
    · rw [hres]
      exact hb1cap
    · intro x hx
      rw [hres]
      have hmemx : x ∈ rids b1.rh ++ rids (r1 :: s.dead) := by
        rw [hb1rh]
        rcases List.mem_append.mp hx with h1 | h1
        · by_cases hxr : x = rid
          · subst hxr
            exact List.mem_append.mpr (Or.inr hmemd)
          · rcases List.mem_cons.mp (hridsperm.mem_iff.mpr h1) with h2 | h2
            · exact absurd h2 hxr
            · exact List.mem_append.mpr (Or.inl h2)
        · exact List.mem_append.mpr (Or.inr (List.mem_cons_of_mem _ h1))
      refine ⟨hmemx, rfl, ?_⟩
      by_cases hxr : x = rid
      · subst hxr
        have hrecnew : core (rdRec ({ s with b := b1, dead := r1 :: s.dead } : Sys) x)
            = core r1 := by
          apply rdRec_core_dead
          · show (rids (r1 :: s.dead)).Nodup
            rw [rids_cons]
            apply List.nodup_cons.mpr
            refine ⟨?_, (List.nodup_append.mp hND).2.1⟩
            show (s.b.rh.getD j dum).rid ∉ rids s.dead
            rw [hjr]
            exact (List.nodup_append.mp hND).2.2 hml
          · show x ∉ rids b1.rh
            rw [hb1rh]
            exact hridnot
          · exact hmemd
          · show core r1 ∈ cores (r1 :: s.dead)
            exact List.mem_cons_self _ _
          · exact hjr
        rw [core_off_eq _ _ hrecnew, hrrec]
      · have hstab := rdRec_core_stable s ({ s with b := b1, dead := r1 :: s.dead } : Sys)
          rid x hxr hND hmemx ?_ ?_
        · rw [core_off_eq _ _ hstab]
        · intro c hc
          have hc2 : c ∈ cores b1.rh := hc
          rw [hb1rh] at hc2
          exact Or.inl (hmemrh2 c hc2)
        · intro c hc
          rcases List.mem_cons.mp hc with hce | hce
          · right
            rw [hce]
            exact hjr
          · exact Or.inl hce
    · rw [hres]
    · rw [hres]
      show rid ∉ rids b1.rh
      rw [hb1rh]
      exact hridnot
    · rw [hres]
      exact hmemd
  · have hnone : ridIdx s.b.rh rid = none := (ridIdx_none_iff _ _).mpr hml
    have hres : rcloseF s rid = (s, Out.silent) := by
      rw [rcloseF, hnone]
    refine ⟨?_, fun hc => absurd hc hml, fun _ => hres⟩
    rw [hres]
    exact stepOK_refl s ⟨hOff, hCont, hSI, hOrd, hND, hLive, hDead, hCap, hWr⟩

/-! ### Write, resume, Close and OnLastReaderClose -/

/-- Appending freshly written bytes to the retained content and the
history in lock step preserves the invariant and every reader record. -/
theorem append_content_stepok (s : Sys) (q : List Byte) (h : Inv s) (hw : s.wr = none)
    (hcap : 0 < s.b.cap → bLen s.b + q.length ≤ s.b.cap) :
    StepOK s { s with
      b := { s.b with content := s.b.content ++ q },
      hist := s.hist ++ q } := by
  obtain ⟨hOff, hCont, hSI, hOrd, hND, hLive, hDead, hCap, hWr⟩ := h
  have hInvNew : Inv { s with
      b := { s.b with content := s.b.content ++ q },
      hist := s.hist ++ q } := by
    refine ⟨?_, ?_, hSI, hOrd, hND, ?_, ?_, ?_, ?_⟩
    · show s.b.off ≤ (s.hist ++ q).length
      simp only [List.length_append]
      omega
    · show s.b.content ++ q = (s.hist ++ q).drop s.b.off
      rw [List.drop_append_of_le_length hOff, hCont]
    · intro c hc
      exact ⟨(hLive c hc).1, (hLive c hc).2.1, RdInv_append _ _ _ _ _ (hLive c hc).2.2⟩
    · intro c hc
      exact ⟨(hDead c hc).1, RdInv_append _ _ _ _ _ (hDead c hc).2⟩
    · intro hc0
      show (s.b.content ++ q).length ≤ s.b.cap
      simp only [List.length_append]
      exact hcap hc0
    · show WrInv (s.hist ++ q) s.wr
      rw [hw]
      trivial
  exact ⟨hInvNew, List.prefix_append _ _, rfl, fun x hx => ⟨hx, rfl, Nat.le_refl _⟩⟩

/-- Every pass through the Write loop preserves the invariant, extends the
history, and leaves every registered reader in place. -/
theorem wLoop_ok (fuel : Nat) : ∀ (s : Sys) (p : List Byte) (n : Nat) (base : List Byte),
    Inv s → s.wr = none → s.hist = base ++ p.take n → n ≤ p.length →
    StepOK s (wLoop fuel s p n base).1 := by
  induction fuel with
  | zero =>
    intro s p n base h _ _ _
    exact stepOK_refl s h
  | succ fuel ih =>
    intro s p n base h hw hh hn
    rw [wLoop]
    by_cases h1 : p.length - n = 0
    · rw [if_pos h1]
      exact stepOK_refl s h
    · rw [if_neg h1]
      by_cases h2 : 0 < s.b.cap ∧ bLen s.b = s.b.cap ∧ s.b.balive = true
      · rw [if_pos h2]
        obtain ⟨hOff, hCont, hSI, hOrd, hND, hLive, hDead, hCap, _⟩ := h
        refine ⟨⟨hOff, hCont, hSI, hOrd, hND, hLive, hDead, hCap, ?_⟩,
          List.prefix_refl _, rfl, fun x hx => ⟨hx, rfl, Nat.le_refl _⟩⟩
        show s.hist = base ++ p.take n ∧ n < p.length
        exact ⟨hh, by omega⟩
      · rw [if_neg h2]
        by_cases h3 : s.b.balive = false
        · rw [if_pos h3]
          exact stepOK_refl s h
        · rw [if_neg h3]
          by_cases h4 : s.b.cap = 0 ∨ s.b.cap - bLen s.b > p.length - n
          · rw [if_pos h4]
            apply append_content_stepok s (p.drop n) h hw
            intro hc0
            rcases h4 with h4 | h4
            · omega
            · simp only [List.length_drop]
              omega
          · rw [if_neg h4]
            have hcapnz : s.b.cap ≠ 0 := fun hc => h4 (Or.inl hc)
            have hgle : s.b.cap - bLen s.b ≤ p.length - n := by
              by_contra hc
              exact h4 (Or.inr (by omega))
            have hblen : bLen s.b ≤ s.b.cap := h.2.2.2.2.2.2.2.1 (by omega)
            have hok1 := append_content_stepok s ((p.drop n).take (s.b.cap - bLen s.b)) h hw
              (by
                intro _
                simp only [List.length_take, List.length_drop]
                omega)
            dsimp only
            refine stepOK_trans _ _ _ hok1 (ih _ p (n + (s.b.cap - bLen s.b)) base
              hok1.1 hw ?_ (by omega))
            show s.hist ++ (p.drop n).take (s.b.cap - bLen s.b)
              = base ++ p.take (n + (s.b.cap - bLen s.b))
            rw [hh, List.append_assoc, ← List.take_add]

theorem bwrite_ok (s : Sys) (p : List Byte) (h : Inv s) (hw : s.wr = none) :
    StepOK s (bwriteF s p).1 := by
  unfold bwriteF
  by_cases hb : s.b.balive = false
  · rw [if_pos hb]
    exact stepOK_refl s h
  · rw [if_neg hb]
    exact wLoop_ok (p.length + 1) s p 0 s.hist h hw (by simp) (Nat.zero_le _)

theorem wresume_ok (s : Sys) (h : Inv s) : StepOK s (wresumeF s).1 := by
  unfold wresumeF
  cases hwr : s.wr with
  | none => exact stepOK_refl s h
  | some w =>
    obtain ⟨hOff, hCont, hSI, hOrd, hND, hLive, hDead, hCap, hWr⟩ := h
    rw [hwr] at hWr
    have hWr2 : s.hist = w.base ++ w.orig.take w.acc ∧ w.acc < w.orig.length := hWr
    have hInv2 : Inv { s with wr := none } :=
      ⟨hOff, hCont, hSI, hOrd, hND, hLive, hDead, hCap, trivial⟩
    have hok1 : StepOK s { s with wr := none } :=
      ⟨hInv2, List.prefix_refl _, rfl, fun x hx => ⟨hx, rfl, Nat.le_refl _⟩⟩
    refine stepOK_trans _ _ _ hok1 ?_
    exact wLoop_ok (w.orig.length + 1) { s with wr := none } w.orig w.acc w.base
      hInv2 rfl hWr2.1 (Nat.le_of_lt hWr2.2)

theorem close_ok (s : Sys) (h : Inv s) : StepOK s (bcloseF s) := by
  obtain ⟨hOff, hCont, hSI, hOrd, hND, hLive, hDead, hCap, hWr⟩ := h
  exact ⟨⟨hOff, hCont, hSI, hOrd, hND, hLive, hDead, hCap, hWr⟩,
    List.prefix_refl _, rfl, fun x hx => ⟨hx, rfl, Nat.le_refl _⟩⟩

theorem onLast_ok (s : Sys) (h : Inv s) : StepOK s (onLastF s) := by
  obtain ⟨hOff, hCont, hSI, hOrd, hND, hLive, hDead, hCap, hWr⟩ := h
  exact ⟨⟨hOff, hCont, hSI, hOrd, hND, hLive, hDead, hCap, hWr⟩,
    List.prefix_refl _, rfl, fun x hx => ⟨hx, rfl, Nat.le_refl _⟩⟩

/-! ### Whole-step and whole-trace soundness -/

/-- Every enabled event takes an invariant state to a state related to it
by StepOK. -/
theorem step_ok (s : Sys) (e : Ev) (s2 : Sys) (o : Out) (h : Inv s)
    (he : step s e = some (s2, o)) : StepOK s s2 := by
  cases e with
  | join rid =>
    by_cases hm : rid ∈ rids s.b.rh ++ rids s.dead
    · rw [step, if_pos hm] at he
      exact absurd he (by simp)
    · rw [step, if_neg hm] at he
      simp only [Option.some.injEq, Prod.mk.injEq] at he
      rw [← he.1]
      exact (join_ok s rid h hm).1
  | joinNow rid =>
    by_cases hm : rid ∈ rids s.b.rh ++ rids s.dead
    · rw [step, if_pos hm] at he
      exact absurd he (by simp)
    · rw [step, if_neg hm] at he
      simp only [Option.some.injEq, Prod.mk.injEq] at he
      rw [← he.1]
      exact (joinNow_ok s rid h hm).1
  | read rid k =>
    by_cases hm : rid ∈ rids s.b.rh ++ rids s.dead
    · rw [step, if_pos hm] at he
      simp only [Option.some.injEq, Prod.mk.injEq] at he
      rw [← he.1]
      exact readerRead_ok s rid k h hm
    · rw [step, if_neg hm] at he
      exact absurd he (by simp)
  | rclose rid =>
    rw [step] at he
    simp only [Option.some.injEq] at he
    have hs2 : s2 = (rcloseF s rid).1 := by rw [he]
    rw [hs2]
    exact (rclose_ok s rid h).1
  | write p =>
    by_cases hw : s.wr = none
    · rw [step, if_pos hw] at he
      simp only [Option.some.injEq] at he
      have hs2 : s2 = (bwriteF s p).1 := by rw [he]
      rw [hs2]
      exact bwrite_ok s p h hw
    · rw [step, if_neg hw] at he
      exact absurd he (by simp)
  | resume =>
    rw [step] at he
    simp only [Option.some.injEq] at he
    have hs2 : s2 = (wresumeF s).1 := by rw [he]
    rw [hs2]
    exact wresume_ok s h
  | close =>
    rw [step] at he
    simp only [Option.some.injEq, Prod.mk.injEq] at he
    rw [← he.1]
    exact close_ok s h
  | onLast =>
    rw [step] at he
    simp only [Option.some.injEq, Prod.mk.injEq] at he
    rw [← he.1]
    exact onLast_ok s h

/-- A whole trace takes an invariant state to a state related to it by
StepOK: the invariant is inductive and per-reader facts persist. -/
theorem run_ok (t : List Ev) : ∀ (s : Sys), Inv s → StepOK s (run s t) := by
  induction t with
  | nil =>
    intro s h
    exact stepOK_refl s h
  | cons e es ih =>
    intro s h
    rw [run]
    cases hst : step s e with
    | none => exact ih s h
    | some r =>
      have hok1 : StepOK s r.1 := step_ok s e r.1 r.2 h hst
      exact stepOK_trans _ _ _ hok1 (ih r.1 hok1.1)

theorem run_inv (cap : Nat) (t : List Ev) : Inv (run (initSys cap) t) :=
  (run_ok t (initSys cap) (Inv_initSys cap)).1

theorem run_append (s : Sys) (t1 t2 : List Ev) :
    run s (t1 ++ t2) = run (run s t1) t2 := by
  induction t1 generalizing s with
  | nil => rfl
  | cons e es ih =>
    rw [List.cons_append]
    cases hst : step s e with
    | none =>
      simp only [run, hst]
      exact ih s
    | some r =>
      simp only [run, hst]
      exact ih r.1

theorem run_cons_enabled (s : Sys) (e : Ev) (t : List Ev) (r : Sys × Out)
    (h : step s e = some r) : run s (e :: t) = run r.1 t := by
  simp only [run, h]

theorem drop_take_append_drop (l : List Byte) (j m : Nat) (h : j ≤ m) :
    (l.take m).drop j ++ l.drop m = l.drop j := by
  have h1 : (l.take m).drop j = (l.drop j).take (m - j) := List.drop_take ..
  have h2 : (l.drop j).drop (m - j) = l.drop m := by
    rw [List.drop_drop]
    congr 1
    omega
  rw [h1, ← h2, List.take_append_drop]

/-- Sifting up from the root is the identity (`i == j` fires at `j = 0`). -/
theorem hup_zero (l : List Rdr) : hup l 0 = l := by
  rw [hup]
  rw [if_pos (Or.inl rfl)]

/-! ### Concrete states used to exercise the claim theorems -/

/-- A three-element self-indexed min-heap of readers. -/
def rhEx : List Rdr :=
  [⟨1, 0, 5, 0, [], true⟩, ⟨2, 1, 7, 0, [], true⟩, ⟨3, 2, 6, 0, [], true⟩]

/-- A fresh reader to push on `rhEx`. -/
def rdEx : Rdr := ⟨4, 0, 4, 0, [], true⟩

/-- A closed capped buffer holding a blocked writer: cap 1, so `Write [1, 2]`
accepts one byte and parks, then `Close` kills the buffer. -/
def sClosedEx : Sys := run (initSys 1) [Ev.write [1, 2], Ev.close]

/-- A buffer with a registered callback and a single live reader holding the
one retained byte. -/
def sCbEx : Sys :=
  { b := { off := 0, rh := [⟨1, 0, 0, 1, [1], true⟩], content := [1], cap := 0,
           balive := true, cb := true },
    wr := none, dead := [], hist := [1],
    jof := fun _ => 0, got := fun _ => [] }

/-- A buffer retaining two bytes with no reader registered yet. -/
def sPreEx : Sys :=
  { b := { off := 0, rh := [], content := [9, 9], cap := 0,
           balive := true, cb := false },
    wr := none, dead := [], hist := [9, 9],
    jof := fun _ => 0, got := fun _ => [] }

/-- A buffer whose single reader has been closed while still holding the
two cached bytes 6, 7 (position 1 of the three-byte history). -/
def sDeadEx : Sys :=
  { b := { off := 3, rh := [], content := [], cap := 0,
           balive := true, cb := false },
    wr := none, dead := [⟨1, 0, 0, 3, [6, 7], false⟩], hist := [5, 6, 7],
    jof := fun _ => 0, got := fun n => if n = 1 then [5] else [] }

/-- A ring writer of capacity 4 retaining the two bytes 10, 20. -/
def wEx : Wring := (wWrite (newWriter [] 4) [10, 20]).1

/-- A buffer with one registered reader parked one byte behind the end. -/
def mbEx : MBuf :=
  { off := 0, rh := [⟨1, 0, 1, 0, [], true⟩], content := [5, 6], cap := 0,
    balive := true, cb := false }

/-- The write history matching `mbEx`. -/
def histEx : List Byte := [5, 6]

/-! ### Snapshot aliasing: the array a value-copied cursor shares -/

/-- The `m` bytes of a circular array starting at offset `roff`. -/
def readFrom (arr : List Byte) (roff m : Nat) : List Byte :=
  (arr.drop roff ++ arr.take roff).take m

/-- Iterated store writes, as performed while a snapshot cursor is held. -/
def worldWrites (world : SnapWorld) : List (List Byte) → SnapWorld
  | [] => world
  | p :: ps => worldWrites (worldWrite world p).1 ps

/-- Iterated store discards; a panicking discard is skipped. -/
def worldDiscards (world : SnapWorld) : List Nat → SnapWorld
  | [] => world
  | n :: ns =>
    match worldDiscard world n with
    | some r => worldDiscards r.1 ns
    | none => worldDiscards world ns

/-- While the snapshot still shares the writer's array, it trails the
writer: same array, same discard offset, no more bytes, and its content is
the matching prefix of the writer's. -/
def SInv (world : SnapWorld) : Prop :=
  world.shared = true →
    wWF world.w ∧ wWF world.s
    ∧ world.s.data = world.w.data ∧ world.s.roff = world.w.roff
    ∧ wLen world.s ≤ wLen world.w
    ∧ contentOf world.s = (contentOf world.w).take (wLen world.s)

theorem readFrom_take (arr : List Byte) (roff m M : Nat) (h : m ≤ M) :
    readFrom arr roff m = (readFrom arr roff M).take m := by
  unfold readFrom
  rw [List.take_take, Nat.min_eq_left h]

theorem contentOf_eq_readFrom (w : Wring) (h : wWF w) :
    contentOf w = readFrom w.data w.roff (wLen w) := by
  by_cases he : w.empty = true
  · unfold contentOf wLen readFrom
    rw [if_pos he, if_pos he]
    simp
  · have he' : w.empty = false := by
      cases hh : w.empty
      · rfl
      · exact absurd hh he
    have hc0 : 0 < w.data.length := by
      by_contra hc
      have h0 : w.data.length = 0 := by omega
      have hx := (h.1 h0).2.2
      rw [he'] at hx
      exact Bool.false_ne_true hx
    obtain ⟨hrb, hob⟩ := h.2.1 hc0
    unfold contentOf wLen readFrom splitSeg
    rw [if_neg he, if_neg he]
    by_cases hro : w.roff < w.off
    · rw [if_pos hro, if_pos hro]
      dsimp only
      have hlen1 : w.off - w.roff ≤ (w.data.drop w.roff).length := by
        rw [List.length_drop]
        omega
      rw [List.append_nil, List.take_append_of_le_length hlen1]
    · rw [if_neg hro, if_neg hro]
      dsimp only
      have h1 : (w.data.drop w.roff ++ w.data.take w.roff).take
            (w.data.length - w.roff + w.off)
          = (w.data.drop w.roff).take (w.data.length - w.roff + w.off)
            ++ (w.data.take w.roff).take
              (w.data.length - w.roff + w.off - (w.data.drop w.roff).length) :=
        List.take_append_eq_append_take ..
      have hlen2 : (w.data.drop w.roff).length ≤ w.data.length - w.roff + w.off := by
        rw [List.length_drop]
        omega
      rw [h1,
        List.take_of_length_le hlen2,
        show w.data.length - w.roff + w.off - (w.data.drop w.roff).length = w.off by
          rw [List.length_drop]
          omega,
        List.take_take, Nat.min_eq_left (by omega)]

theorem wLen_data_irrel (s : Wring) (arr : List Byte) (h : arr.length = s.data.length) :
    wLen { s with data := arr } = wLen s := by
  unfold wLen
  dsimp only
  rw [h]

theorem wWF_data_irrel (s : Wring) (arr : List Byte) (h : arr.length = s.data.length)
    (hwf : wWF s) : wWF { s with data := arr } := by
  unfold wWF at *
  dsimp only
  rw [h]
  exact hwf

theorem SInv_mkSnap (w : Wring) (h : wWF w) : SInv (mkSnap w) := by
  intro _
  refine ⟨h, h, rfl, rfl, Nat.le_refl _, ?_⟩
  show contentOf w = (contentOf w).take (wLen w)
  rw [← contentOf_length w h, List.take_length]

theorem worldWrite_snap (world : SnapWorld) (p : List Byte) (h : SInv world) :
    SInv (worldWrite world p).1
    ∧ contentOf (worldWrite world p).1.s = contentOf world.s := by
  by_cases hfit : p.length ≤ wCap world.w - wLen world.w
  · cases hsh : world.shared with
    | false =>
      have hE : (worldWrite world p).1
          = { w := (wWrite world.w p).1, s := world.s, shared := false } := by
        unfold worldWrite
        rw [if_pos hfit, hsh]
        rfl
      rw [hE]
      refine ⟨?_, rfl⟩
      intro hc
      exact absurd hc (Bool.false_ne_true)
    | true =>
      have hE : (worldWrite world p).1
          = { w := (wWrite world.w p).1,
              s := { world.s with data := (wWrite world.w p).1.data },
              shared := true } := by
        unfold worldWrite
        rw [if_pos hfit, hsh]
        rfl
      obtain ⟨hwfw, hwfs, hdata, hroff, hlen_le, hcnt⟩ := h hsh
      have hraw : wWrite world.w p = wWriteRaw world.w p := wWrite_eq_raw_of_fits _ _ hfit
      have hwfw2 : wWF (wWrite world.w p).1 := by
        rw [hraw]
        exact wWriteRaw_wf _ _ hwfw hfit
      have hc2 : contentOf (wWrite world.w p).1 = contentOf world.w ++ p := by
        rw [hraw]
        exact wWriteRaw_content _ _ hwfw hfit
      have hroff2 : (wWrite world.w p).1.roff = world.w.roff := by
        rw [hraw]
        exact wWriteRaw_roff _ _
      have hlen2 : (wWrite world.w p).1.data.length = world.w.data.length := by
        rw [hraw]
        exact wWriteRaw_length _ _
      have hwlen2 : wLen (wWrite world.w p).1 = wLen world.w + p.length := by
        rw [← contentOf_length _ hwfw2, hc2, List.length_append, contentOf_length _ hwfw]
      have hdlen : (wWrite world.w p).1.data.length = world.s.data.length := by
        rw [hdata]
        exact hlen2
      have hwfs2 : wWF { world.s with data := (wWrite world.w p).1.data } :=
        wWF_data_irrel _ _ hdlen hwfs
      have hwlens2 : wLen { world.s with data := (wWrite world.w p).1.data }
          = wLen world.s :=
        wLen_data_irrel _ _ hdlen
      have hcs2 : contentOf { world.s with data := (wWrite world.w p).1.data }
          = contentOf world.s := by
        rw [contentOf_eq_readFrom _ hwfs2]
        show readFrom (wWrite world.w p).1.data world.s.roff
          (wLen { world.s with data := (wWrite world.w p).1.data }) = _
        rw [hwlens2, hroff,
          readFrom_take _ _ _ (wLen (wWrite world.w p).1) (by omega),
          ← hroff2, ← contentOf_eq_readFrom _ hwfw2, hc2,
          List.take_append_of_le_length
            (by rw [contentOf_length _ hwfw]; exact hlen_le),
          ← hcnt]
      rw [hE]
      refine ⟨?_, hcs2⟩
      intro _
      refine ⟨hwfw2, hwfs2, rfl, ?_, ?_, ?_⟩
      · show world.s.roff = (wWrite world.w p).1.roff
        rw [hroff2, hroff]
      · show wLen { world.s with data := (wWrite world.w p).1.data }
          ≤ wLen (wWrite world.w p).1
        rw [hwlens2, hwlen2]
        omega
      · show contentOf { world.s with data := (wWrite world.w p).1.data }
          = (contentOf (wWrite world.w p).1).take
            (wLen { world.s with data := (wWrite world.w p).1.data })
        rw [hcs2, hwlens2, hc2,
          List.take_append_of_le_length
            (by rw [contentOf_length _ hwfw]; exact hlen_le),
          ← hcnt]
  · have hE : (worldWrite world p).1
        = { w := (wWrite world.w p).1, s := world.s, shared := false } := by
      unfold worldWrite
      rw [if_neg hfit]
    rw [hE]
    refine ⟨?_, rfl⟩
    intro hc
    exact absurd hc (Bool.false_ne_true)

theorem worldWrites_snap (ps : List (List Byte)) : ∀ world, SInv world →
    contentOf (worldWrites world ps).s = contentOf world.s := by
  induction ps with
  | nil =>
    intro world _
    rfl
  | cons p ps ih =>
    intro world h
    obtain ⟨h1, h2⟩ := worldWrite_snap world p h
    have hE : worldWrites world (p :: ps) = worldWrites (worldWrite world p).1 ps := rfl
    rw [hE, ih _ h1, h2]

theorem worldDiscards_snap (ns : List Nat) : ∀ world,
    (worldDiscards world ns).s = world.s := by
  induction ns with
  | nil =>
    intro world
    rfl
  | cons n ns ih =>
    intro world
    cases hd : wDiscard world.w n with
    | none =>
      have hE : worldDiscards world (n :: ns) = worldDiscards world ns := by
        simp only [worldDiscards, worldDiscard, hd]
      rw [hE, ih]
    | some r =>
      obtain ⟨⟨m, eof⟩, w2⟩ := r
      have hE : worldDiscards world (n :: ns)
          = worldDiscards { world with w := w2 } ns := by
        simp only [worldDiscards, worldDiscard, hd]
      rw [hE, ih]

/-! ### The claims -/

/-- C3: Capacity backpressure. With a positive capacity bound, the retained
length after any trace never exceeds the bound; a Write pass that finds a
positive cap full parks the writer and appends nothing; a pass whose
remainder fits under the cap (or faces no cap) appends it all; otherwise a
pass appends exactly the free gap `cap - Len` and loops, waking readers
between slices. -/
theorem claim_C3 (cap : Nat) (t : List Ev) (s : Sys) (p base : List Byte) (n fuel : Nat)
    (hb : s.b.balive = true) (hn : n < p.length) :
    (0 < cap → bLen (run (initSys cap) t).b ≤ cap)
    ∧ (0 < s.b.cap → bLen s.b = s.b.cap →
        wLoop (fuel + 1) s p n base = ({ s with wr := some ⟨p, n, base⟩ }, Out.pendingW))
    ∧ (s.b.cap = 0 ∨ s.b.cap - bLen s.b > p.length - n →
        wLoop (fuel + 1) s p n base
          = ({ s with b := { s.b with content := s.b.content ++ p.drop n },
                      hist := s.hist ++ p.drop n }, Out.wrote p.length false))
    ∧ (s.b.cap ≠ 0 → bLen s.b ≠ s.b.cap → s.b.cap - bLen s.b ≤ p.length - n →
        wLoop (fuel + 1) s p n base
          = wLoop fuel
              { s with
                b := { s.b with content := s.b.content ++ (p.drop n).take (s.b.cap - bLen s.b) },
                hist := s.hist ++ (p.drop n).take (s.b.cap - bLen s.b) }
              p (n + (s.b.cap - bLen s.b)) base) := by
  refine ⟨?_, ?_, ?_, ?_⟩
  · intro hc
    have hrun := run_ok t (initSys cap) (Inv_initSys cap)
    have hcap : (run (initSys cap) t).b.cap = cap := hrun.2.2.1
    have hx := hrun.1.2.2.2.2.2.2.2.1
    rw [hcap] at hx
    exact hx hc
  · intro hc0 hfull
    rw [wLoop, if_neg (by omega : ¬ p.length - n = 0), if_pos ⟨hc0, hfull, hb⟩]
  · intro hd
    have hnful : ¬ (0 < s.b.cap ∧ bLen s.b = s.b.cap ∧ s.b.balive = true) := by
      rcases hd with hd | hd
      · intro hc
        omega
      · intro hc
        omega
    rw [wLoop, if_neg (by omega : ¬ p.length - n = 0), if_neg hnful,
      if_neg (by rw [hb]; simp), if_pos hd]
  · intro hcnz hnfull hgap
    have hnful : ¬ (0 < s.b.cap ∧ bLen s.b = s.b.cap ∧ s.b.balive = true) := by
      intro hc
      exact hnfull hc.2.1
    have hnd : ¬ (s.b.cap = 0 ∨ s.b.cap - bLen s.b > p.length - n) := by
      intro hc
      rcases hc with hc | hc
      · exact hcnz hc
      · omega
    rw [wLoop, if_neg (by omega : ¬ p.length - n = 0), if_neg hnful,
      if_neg (by rw [hb]; simp), if_neg hnd]

theorem claim_C3_witness :
    (initSys 2).b.balive = true ∧ 0 < ([1, 2] : List Byte).length
    ∧ bLen (run (initSys 2) [Ev.write [1, 2, 3]]).b ≤ 2 :=
  ⟨rfl, by decide,
    (claim_C3 2 [Ev.write [1, 2, 3]] (initSys 2) [1, 2] [] 0 3 rfl (by decide)).1 (by decide)⟩

/-- C4: Write after close. A Write on a closed buffer returns `(0, error)`
and leaves the state — in particular the retained bytes — untouched; a
capacity-blocked Write woken by Close returns the count it had already
accepted together with the error, and those accepted bytes are exactly the
suffix the history gained since the call began. -/
theorem claim_C4 (s : Sys) (p : List Byte) (w : WrState) (h : Inv s)
    (hb : s.b.balive = false) :
    bwriteF s p = (s, Out.wrote 0 true)
    ∧ (s.wr = some w →
        wresumeF s = ({ s with wr := none }, Out.wrote w.acc true)
        ∧ s.hist = w.base ++ w.orig.take w.acc) := by
  have hWr := h.2.2.2.2.2.2.2.2
  constructor
  · unfold bwriteF
    rw [if_pos hb]
  · intro hw
    rw [hw] at hWr
    have hWr2 : s.hist = w.base ++ w.orig.take w.acc ∧ w.acc < w.orig.length := hWr
    refine ⟨?_, hWr2.1⟩
    simp only [wresumeF, hw]
    rw [wLoop, if_neg (by omega : ¬ w.orig.length - w.acc = 0),
      if_neg (fun hc => by
        have hx : s.b.balive = true := hc.2.2
        rw [hb] at hx
        exact Bool.false_ne_true hx),
      if_pos (show ({ s with wr := none } : Sys).b.balive = false from hb)]

theorem claim_C4_witness :
    Inv sClosedEx ∧ sClosedEx.b.balive = false
    ∧ bwriteF sClosedEx [7] = (sClosedEx, Out.wrote 0 true) :=
  ⟨by decide, by decide,
    (claim_C4 sClosedEx [7] ⟨[1, 2], 1, []⟩ (by decide) (by decide)).1⟩

/-- C8 (amended): Discard semantics of the default store. For `n` within
the retained length, `Discard n` returns `n` as the count, reports io.EOF
exactly when a positive `n` consumes everything, and drops the first `n`
retained bytes, shrinking `Len` by `n`. (Discarding past `Len` does NOT
signal end-of-data in general, and panics on a zero-capacity store: see the
counterexample.) -/
theorem claim_C8 (w : Wring) (n : Nat) (h : wWF w) (hn : n ≤ wLen w) :
    ∃ w' eof, wDiscard w n = some ((n, eof), w')
      ∧ (eof = true ↔ (0 < n ∧ n = wLen w))
      ∧ wWF w'
      ∧ contentOf w' = (contentOf w).drop n
      ∧ wLen w' = wLen w - n := by
  obtain ⟨w', eof, h1, h2, h3, h4, _, _⟩ := wDiscard_spec w n h hn
  refine ⟨w', eof, h1, h2, h3, h4, ?_⟩
  rw [← contentOf_length w' h3, h4, List.length_drop, contentOf_length w h]

theorem claim_C8_witness :
    wWF wEx ∧ 2 ≤ wLen wEx
    ∧ ∃ w' eof, wDiscard wEx 2 = some ((2, eof), w')
      ∧ (eof = true ↔ (0 < 2 ∧ 2 = wLen wEx))
      ∧ wWF w'
      ∧ contentOf w' = (contentOf wEx).drop 2
      ∧ wLen w' = wLen wEx - 2 :=
  ⟨by decide, by decide, claim_C8 wEx 2 (by decide) (by decide)⟩

/-- C8, counterexample to the frozen wording: on a store retaining 2 bytes,
`Discard 3` overshoots `Len` yet returns `(3, no-error)` — no end-of-data
condition is signalled (the new discard offset simply wraps past the write
offset) — and on a zero-capacity store `Discard 1` hits the `% 0` panic
rather than any error return. -/
theorem claim_C8_counterexample :
    wLen wEx = 2
    ∧ wDiscard wEx 3 = some ((3, false), ⟨false, 2, 3, [10, 20, 0, 0]⟩)
    ∧ wDiscard (newWriter [] 0) 1 = none := by
  decide

/-- C9: Last-reader callback. Closing a live reader emits the drop
actions; when the closed reader is the last one and a callback is
registered the action list is `unlock`, then `rwait.Broadcast`, then the
callback — the callback runs after the lock is released — and when other
readers remain the callback is absent; a second Close of the same reader
is silent, so the callback fires at most once per reader-count transition
to zero. -/
theorem claim_C9 (s : Sys) (rid : Nat) (h : Inv s) (hml : rid ∈ rids s.b.rh) :
    (rcloseF s rid).2 = Out.dropped (dropActs (s.b.rh.length = 1 && s.b.cb))
    ∧ (s.b.rh.length = 1 → s.b.cb = true →
        dropActs (s.b.rh.length = 1 && s.b.cb)
          = [Act.unlock, Act.broadcastR, Act.callback])
    ∧ (s.b.rh.length ≠ 1 →
        Act.callback ∉ dropActs (s.b.rh.length = 1 && s.b.cb))
    ∧ (rcloseF (rcloseF s rid).1 rid).2 = Out.silent := by
  obtain ⟨hok, hlive, hdead⟩ := rclose_ok s rid h
  obtain ⟨hout, hgone, _⟩ := hlive hml
  refine ⟨hout, ?_, ?_, ?_⟩
  · intro h1 h2
    rw [h1, h2]
    decide
  · intro hne
    have hd : decide (s.b.rh.length = 1) = false := decide_eq_false hne
    rw [hd, Bool.false_and]
    decide
  · obtain ⟨_, _, hdead2⟩ := rclose_ok (rcloseF s rid).1 rid hok.1
    rw [hdead2 hgone]

theorem claim_C9_witness :
    Inv sCbEx ∧ 1 ∈ rids sCbEx.b.rh
    ∧ (rcloseF sCbEx 1).2 = Out.dropped (dropActs (sCbEx.b.rh.length = 1 && sCbEx.b.cb)) :=
  ⟨by decide, by decide, (claim_C9 sCbEx 1 (by decide) (by decide)).1⟩

/-- C10: Heap self-index invariant. Push, Pop, Swap, Fix and Remove all
preserve the property that each stored reader's index field equals its
heap position, Push/Fix/Remove preserve the heap order, and Peek returns a
reader whose registered offset is a lower bound for every element. -/
theorem claim_C10 (l : List Rdr) (r : Rdr) (i j k : Nat)
    (hSI : selfIdx l) (hOrd : heapOrd l)
    (hi : i < l.length) (hj : j < l.length) (hk : k < l.length) :
    selfIdx (heapPush l r)
    ∧ heapOrd (heapPush l r)
    ∧ selfIdx (popRaw l)
    ∧ selfIdx (hswap l i j)
    ∧ selfIdx (heapFix l i)
    ∧ selfIdx (heapRemove l i)
    ∧ heapOrd (heapRemove l i)
    ∧ (peek l).off ≤ (l.getD k dum).off :=
  ⟨heapPush_selfIdx l r hSI, heapPush_ord l r hOrd, popRaw_selfIdx l hSI,
   hswap_selfIdx l i j hi hj hSI, heapFix_selfIdx l i hi hSI,
   heapRemove_selfIdx l i hi hSI, heapRemove_ord l i hi hOrd,
   peek_min l l.length hOrd k hk⟩

/-- C1: Broadcast completeness. For any trace, a reader joined by
NextReader at any point accumulates (in `got`, the ghost log of bytes its
Read calls returned) together with the part of the history it has not yet
consumed exactly the bytes retained at its join point followed by every
byte written afterwards, in order; once it has consumed up to end-of-data
its returned bytes are exactly that concatenation. -/
theorem claim_C1 (cap rid : Nat) (t1 t2 : List Ev) (u s : Sys)
    (hu : u = run (initSys cap) t1)
    (hs : s = run (initSys cap) (t1 ++ Ev.join rid :: t2))
    (hfresh : rid ∉ rids u.b.rh ++ rids u.dead) :
    s.got rid ++ s.hist.drop (posOf (rdRec s rid))
      = u.b.content ++ s.hist.drop u.hist.length
    ∧ (posOf (rdRec s rid) = s.hist.length →
        s.got rid = u.b.content ++ s.hist.drop u.hist.length) := by
  have hInvU : Inv u := by
    rw [hu]
    exact run_inv cap t1
  have hstep : step u (Ev.join rid) = some (joinF u rid, Out.silent) := by
    simp only [step]
    rw [if_neg hfresh]
  have hsE : s = run (joinF u rid) t2 := by
    rw [hs, run_append, ← hu, run_cons_enabled u (Ev.join rid) t2 _ hstep]
  obtain ⟨hok1, hjof, hmem1, hhist1, hoff1, hcont1, _⟩ := join_ok u rid hInvU hfresh
  have hrun2 := run_ok t2 (joinF u rid) hok1.1
  rw [← hsE] at hrun2
  have hmemv : rid ∈ rids (joinF u rid).b.rh ++ rids (joinF u rid).dead :=
    List.mem_append.mpr (Or.inl hmem1)
  obtain ⟨hmems, hjofs, _⟩ := hrun2.2.2.2 rid hmemv
  have hInvS : Inv s := hrun2.1
  obtain ⟨hd1, hd2, hd3, hd4, hd5⟩ := rdRec_rdinv s rid hInvS hmems
  have hcrid : (core (rdRec s rid)).rid = rid := rdRec_rid s rid hmems
  rw [hcrid] at hd4 hd5
  rw [posC_core] at hd4 hd5
  have hjval : s.jof rid = u.b.off := by
    rw [hjofs, hjof]
  rw [hjval] at hd4 hd5
  have hA : s.got rid ++ s.hist.drop (posOf (rdRec s rid)) = s.hist.drop u.b.off := by
    rw [hd5]
    exact drop_take_append_drop s.hist u.b.off (posOf (rdRec s rid)) hd4
  have hpre : List.IsPrefix (joinF u rid).hist s.hist := hrun2.2.1
  rw [hhist1] at hpre
  obtain ⟨rest, hrest⟩ := hpre
  have hB : s.hist.drop u.b.off = u.b.content ++ s.hist.drop u.hist.length := by
    rw [← hrest, List.drop_append_of_le_length hInvU.1, List.drop_left, hInvU.2.1]
  refine ⟨hA.trans hB, ?_⟩
  intro hposend
  have hnil : s.hist.drop (posOf (rdRec s rid)) = [] := by
    rw [hposend]
    exact List.drop_length _
  have hx := hA.trans hB
  rw [hnil, List.append_nil] at hx
  exact hx

theorem claim_C1_witness :
    (1 ∉ rids (initSys 0).b.rh ++ rids (initSys 0).dead)
    ∧ ((run (initSys 0) ([] ++ Ev.join 1 :: [Ev.write [1, 2]])).got 1
        ++ (run (initSys 0) ([] ++ Ev.join 1 :: [Ev.write [1, 2]])).hist.drop
            (posOf (rdRec (run (initSys 0) ([] ++ Ev.join 1 :: [Ev.write [1, 2]])) 1))
      = (initSys 0).b.content
        ++ (run (initSys 0) ([] ++ Ev.join 1 :: [Ev.write [1, 2]])).hist.drop
            (initSys 0).hist.length) :=
  ⟨by decide,
    (claim_C1 0 1 [] [Ev.write [1, 2]] (initSys 0)
      (run (initSys 0) ([] ++ Ev.join 1 :: [Ev.write [1, 2]])) rfl rfl (by decide)).1⟩

/-- Buffer.fetch runs shift before re-snapshotting: afterwards the discard
offset equals the offset of the heap minimum, and Peek returns a reader
whose offset bounds every registered offset from below. -/
theorem fetch_min_off (s : Sys) (rid : Nat) (h : Inv s) (hml : rid ∈ rids s.b.rh) :
    (fetchS s rid).1.b.off = (peek (fetchS s rid).1.b.rh).off
    ∧ ∀ k, k < (fetchS s rid).1.b.rh.length →
        (peek (fetchS s rid).1.b.rh).off ≤ ((fetchS s rid).1.b.rh.getD k dum).off := by
  obtain ⟨hOff, hCont, hSI, hOrd, hND, hLive, hDead, hCap, hWr⟩ := h
  obtain ⟨j, hj⟩ := ridIdx_isSome_of_mem _ _ hml
  have hjl := ridIdx_lt _ _ _ hj
  have hcr : core (s.b.rh.getD j dum) ∈ cores s.b.rh := core_getD_mem _ _ hjl
  have hral' : (s.b.rh.getD j dum).ralive = true := (hLive _ hcr).1
  have hboff' : s.b.off ≤ (s.b.rh.getD j dum).off := (hLive _ hcr).2.1
  have hub' : (s.b.rh.getD j dum).off + (s.b.rh.getD j dum).size ≤ s.hist.length :=
    (hLive _ hcr).2.2.2.1
  set r1 : Rdr := { s.b.rh.getD j dum with
    off := (s.b.rh.getD j dum).off + (s.b.rh.getD j dum).size, size := 0 } with hr1def
  set l2 : List Rdr := heapFix (s.b.rh.set j r1) j with hl2def
  have hsetlen : (s.b.rh.set j r1).length = s.b.rh.length := by simp
  have hl2ord : heapOrd l2 := heapFix_set_ord _ _ _ hjl hOrd
  have hl2len : l2.length = s.b.rh.length := by
    rw [hl2def, heapFix_length, hsetlen]
  have hl2perm : (cores l2).Perm (cores (s.b.rh.set j r1)) :=
    heapFix_cores_perm _ _ (by rw [hsetlen]; exact hjl)
  have hl2bound : ∀ c ∈ cores l2, s.b.off ≤ c.off ∧ c.off + c.size ≤ s.hist.length := by
    intro c hc
    rcases mem_cores_set _ _ _ _ (hl2perm.mem_iff.mp hc) with hold | hnew
    · exact ⟨(hLive c hold).2.1, (hLive c hold).2.2.2.1⟩
    · rw [hnew]
      constructor
      · show s.b.off ≤ (s.b.rh.getD j dum).off + (s.b.rh.getD j dum).size
        omega
      · show (s.b.rh.getD j dum).off + (s.b.rh.getD j dum).size + 0 ≤ s.hist.length
        omega
  have hsh := shiftF_spec { s.b with rh := l2 } s.hist hOff hCont hl2ord hl2bound
  obtain ⟨hshrh, _, _, _, _, _, _, _, hshpk, _⟩ := hsh
  set b1 : MBuf := shiftF { s.b with rh := l2 } with hb1def
  have hb1rh : b1.rh = l2 := hshrh
  have h0 : 0 < l2.length := by
    rw [hl2len]
    omega
  have hoffpk : b1.off = (peek b1.rh).off := by
    rw [hb1rh]
    exact hshpk h0
  have hb1ord : heapOrd b1.rh := by
    rw [hb1rh]
    exact hl2ord
  have hfe : (fetchS s rid).1.b = (fetchF s.b j).1 := by
    unfold fetchS
    rw [hj]
  have hguard_or : fetchF s.b j
      = if r1.off = b1.off + bLen b1 ∧ b1.balive = true then (b1, true)
        else
          (match ridIdx b1.rh (s.b.rh.getD j dum).rid with
           | some j1 => ({ b1 with rh := b1.rh.set j1 ({ b1.rh.getD j1 dum with
                 data := b1.content.drop (r1.off - b1.off),
                 size := (b1.content.drop (r1.off - b1.off)).length }) }, false)
           | none => (b1, false)) := by
    show fetchF s.b j = _
    rw [fetchF]
    rw [if_pos hral']
  by_cases hg : r1.off = b1.off + bLen b1 ∧ b1.balive = true
  · have hres : (fetchS s rid).1.b = b1 := by
      rw [hfe, hguard_or, if_pos hg]
    rw [hres]
    refine ⟨hoffpk, ?_⟩
    intro k hk
    exact peek_min b1.rh b1.rh.length hb1ord k hk
  · cases hj1m : ridIdx b1.rh (s.b.rh.getD j dum).rid with
    | none =>
      have hres : (fetchS s rid).1.b = b1 := by
        rw [hfe, hguard_or, if_neg hg, hj1m]
      rw [hres]
      refine ⟨hoffpk, ?_⟩
      intro k hk
      exact peek_min b1.rh b1.rh.length hb1ord k hk
    | some j1 =>
      have hj1l : j1 < b1.rh.length := ridIdx_lt _ _ _ hj1m
      have hres : (fetchS s rid).1.b = { b1 with rh := b1.rh.set j1 ({ b1.rh.getD j1 dum with
            data := b1.content.drop (r1.off - b1.off),
            size := (b1.content.drop (r1.off - b1.off)).length }) } := by
        rw [hfe, hguard_or, if_neg hg, hj1m]
      rw [hres]
      set e2 : Rdr := { b1.rh.getD j1 dum with data := b1.content.drop (r1.off - b1.off), size := (b1.content.drop (r1.off - b1.off)).length } with he2def
      have he2off : e2.off = (b1.rh.getD j1 dum).off := rfl
      have hordset : heapOrd (b1.rh.set j1 e2) :=
        heapOrd_set_same_off _ _ _ hb1ord he2off
      have hpeekeq : (peek (b1.rh.set j1 e2)).off = (peek b1.rh).off := by
        unfold peek
        by_cases hj10 : j1 = 0
        · subst hj10
          rw [getD_set_self _ _ _ hj1l]
        · rw [getD_set_other _ _ _ _ (fun hc => hj10 hc.symm)]
      constructor
      · show b1.off = (peek (b1.rh.set j1 e2)).off
        rw [hpeekeq]
        exact hoffpk
      · intro k hk
        exact peek_min (b1.rh.set j1 e2) (b1.rh.set j1 e2).length hordset k hk

/-- Buffer.drop (reader.Close) runs shift after removing the reader: when
any reader remains registered the discard offset equals the offset of the
heap minimum, which Peek returns. -/
theorem rclose_min_off (s : Sys) (rid : Nat) (h : Inv s) (hml : rid ∈ rids s.b.rh)
    (hlen : 0 < (rcloseF s rid).1.b.rh.length) :
    (rcloseF s rid).1.b.off = (peek (rcloseF s rid).1.b.rh).off
    ∧ ∀ k, k < (rcloseF s rid).1.b.rh.length →
        (peek (rcloseF s rid).1.b.rh).off ≤ ((rcloseF s rid).1.b.rh.getD k dum).off := by
  obtain ⟨hOff, hCont, hSI, hOrd, hND, hLive, hDead, hCap, hWr⟩ := h
  obtain ⟨j, hj⟩ := ridIdx_isSome_of_mem _ _ hml
  have hjl := ridIdx_lt _ _ _ hj
  set r1 : Rdr := { s.b.rh.getD j dum with ralive := false } with hr1def
  set rh2 : List Rdr := heapRemove (s.b.rh.set j r1) j with hrh2def
  have hsetlen : (s.b.rh.set j r1).length = s.b.rh.length := by simp
  have hsetord : heapOrd (s.b.rh.set j r1) := heapOrd_set_same_off _ _ _ hOrd rfl
  have hrh2ord : heapOrd rh2 := heapRemove_ord _ _ (by rw [hsetlen]; exact hjl) hsetord
  have hres : (rcloseF s rid).1.b = shiftF { s.b with rh := rh2 } := by
    unfold rcloseF
    rw [hj]
  have hperm : (core ((s.b.rh.set j r1).getD j dum) :: cores rh2).Perm
      (cores (s.b.rh.set j r1)) :=
    heapRemove_cores_perm _ _ (by rw [hsetlen]; exact hjl)
  have hbound : ∀ c ∈ cores rh2, s.b.off ≤ c.off ∧ c.off + c.size ≤ s.hist.length := by
    intro c hc
    have hc2 : c ∈ cores (s.b.rh.set j r1) :=
      hperm.mem_iff.mp (List.mem_cons.mpr (Or.inr hc))
    rcases mem_cores_set _ _ _ _ hc2 with hold | hnew
    · exact ⟨(hLive c hold).2.1, (hLive c hold).2.2.2.1⟩
    · rw [hnew]
      have hcr : core (s.b.rh.getD j dum) ∈ cores s.b.rh := core_getD_mem _ _ hjl
      constructor
      · show s.b.off ≤ (s.b.rh.getD j dum).off
        exact (hLive _ hcr).2.1
      · show (s.b.rh.getD j dum).off + (s.b.rh.getD j dum).size ≤ s.hist.length
        exact (hLive _ hcr).2.2.2.1
  have hsh := shiftF_spec { s.b with rh := rh2 } s.hist hOff hCont hrh2ord hbound
  obtain ⟨hshrh, _, _, _, _, _, _, _, hshpk, _⟩ := hsh
  have hrhE : (rcloseF s rid).1.b.rh = rh2 := by
    rw [hres]
    exact hshrh
  have h0 : 0 < rh2.length := by
    rw [← hrhE]
    exact hlen
  constructor
  · rw [hres, hshrh]
    exact hshpk h0
  · intro k hk
    rw [hrhE] at hk
    rw [hrhE]
    exact peek_min rh2 rh2.length hrh2ord k hk

/-- C2 (amended): Offset invariant. In every reachable state the discard
offset bounds every registered reader's offset from below and each reader
stays within the write offset (`off + size ≤ |hist|`); a reader's
registered offset never decreases across any further trace; `shift`
itself always establishes `off = Peek().off`, the heap minimum; and after
the two operations that run shift — fetch and drop (reader Close) — the
discard offset equals the minimum registered offset whenever a reader
remains. The other operations do not run shift, and NextReaderFromNow can
leave the discard offset strictly below the minimum with a live reader
present: see the counterexample. -/
theorem claim_C2 (cap : Nat) (t t2 : List Ev) (s s2 : Sys) (b : MBuf) (hist : List Byte)
    (rid1 rid2 : Nat)
    (hs : s = run (initSys cap) t) (hs2 : s2 = run s t2)
    (h1 : b.off ≤ hist.length) (h2 : b.content = hist.drop b.off)
    (hord : heapOrd b.rh)
    (hrd : ∀ c ∈ cores b.rh, b.off ≤ c.off ∧ c.off + c.size ≤ hist.length) :
    (∀ c ∈ cores s.b.rh, s.b.off ≤ c.off ∧ c.off + c.size ≤ s.hist.length)
    ∧ (∀ x, x ∈ rids s.b.rh ++ rids s.dead → (rdRec s x).off ≤ (rdRec s2 x).off)
    ∧ (∀ c ∈ cores b.rh, (shiftF b).off ≤ c.off)
    ∧ (0 < b.rh.length → (shiftF b).off = (peek b.rh).off)
    ∧ (∀ k, k < b.rh.length → (peek b.rh).off ≤ (b.rh.getD k dum).off)
    ∧ (rid1 ∈ rids s.b.rh →
        (fetchS s rid1).1.b.off = (peek (fetchS s rid1).1.b.rh).off
        ∧ ∀ k, k < (fetchS s rid1).1.b.rh.length →
            (peek (fetchS s rid1).1.b.rh).off ≤ ((fetchS s rid1).1.b.rh.getD k dum).off)
    ∧ (rid2 ∈ rids s.b.rh → 0 < (rcloseF s rid2).1.b.rh.length →
        (rcloseF s rid2).1.b.off = (peek (rcloseF s rid2).1.b.rh).off
        ∧ ∀ k, k < (rcloseF s rid2).1.b.rh.length →
            (peek (rcloseF s rid2).1.b.rh).off
              ≤ ((rcloseF s rid2).1.b.rh.getD k dum).off) := by
  have hInv : Inv s := by
    rw [hs]
    exact run_inv cap t
  have hsp := shiftF_spec b hist h1 h2 hord hrd
  refine ⟨?_, ?_, hsp.2.2.2.2.2.2.2.1, hsp.2.2.2.2.2.2.2.2.1, ?_, ?_, ?_⟩
  · intro c hc
    exact ⟨(hInv.2.2.2.2.2.1 c hc).2.1, (hInv.2.2.2.2.2.1 c hc).2.2.2.1⟩
  · intro x hx
    rw [hs2]
    exact ((run_ok t2 s hInv).2.2.2 x hx).2.2
  · intro k hk
    exact peek_min b.rh b.rh.length hord k hk
  · intro hml1
    exact fetch_min_off s rid1 hInv hml1
  · intro hml2 hlen2
    exact rclose_min_off s rid2 hInv hml2 hlen2

theorem claim_C2_witness :
    mbEx.off ≤ histEx.length
    ∧ mbEx.content = histEx.drop mbEx.off
    ∧ heapOrd mbEx.rh
    ∧ (∀ c ∈ cores mbEx.rh, mbEx.off ≤ c.off ∧ c.off + c.size ≤ histEx.length)
    ∧ (0 < mbEx.rh.length → (shiftF mbEx).off = (peek mbEx.rh).off) :=
  ⟨by decide, by decide, by decide, by decide,
    (claim_C2 0 [] [] (run (initSys 0) []) (run (run (initSys 0) []) []) mbEx histEx
      1 1 rfl rfl (by decide) (by decide) (by decide) (by decide)).2.2.2.1⟩

/-- C2, counterexample to the frozen wording: NextReaderFromNow performs
no `shift`, so on a buffer retaining bytes it registers a live reader at
offset 2 while the discard offset stays 0 — with a live reader present,
the discard offset differs from the minimum registered offset. -/
theorem claim_C2_counterexample :
    Inv sPreEx
    ∧ 0 < (joinNowF sPreEx 2).b.rh.length
    ∧ (∀ c ∈ cores (joinNowF sPreEx 2).b.rh, c.ralive = true)
    ∧ (joinNowF sPreEx 2).b.off ≠ (peek (joinNowF sPreEx 2).b.rh).off := by
  have hrh : (joinNowF sPreEx 2).b.rh = [⟨2, 0, 2, 0, [], true⟩] := hup_zero _
  refine ⟨by decide, ?_, ?_, ?_⟩
  · rw [hrh]
    decide
  · rw [hrh]
    decide
  · rw [hrh]
    decide

/-- reader.Read with the first fetch resolved to a non-parking step that
leaves the state at `u`: the remaining control flow, written out. -/
theorem readerRead_flat (s u : Sys) (rid k : Nat)
    (hflat : (if (rdRec s rid).data.length = 0 then fetchS s rid else (s, false))
      = (u, false)) :
    readerRead s rid k
      = (if (dataRead u rid k).2.2 = true then
           if (rdRec s rid).ralive = false then
             ((dataRead u rid k).1, some ((dataRead u rid k).2.1, true))
           else if (dataRead u rid k).1.b.balive = true then
             ((dataRead u rid k).1, some ((dataRead u rid k).2.1, false))
           else if 0 < (rdRec (fetchS (dataRead u rid k).1 rid).1 rid).data.length then
             ((fetchS (dataRead u rid k).1 rid).1, some ((dataRead u rid k).2.1, false))
           else
             ((fetchS (dataRead u rid k).1 rid).1, some ((dataRead u rid k).2.1, true))
         else ((dataRead u rid k).1, some ((dataRead u rid k).2.1, false))) := by
  rw [readerRead, hflat]
  rfl

/-- The end-of-data protocol of reader.Read, given a resolved first fetch:
an open reader on an open buffer never sees io.EOF; a closed reader drains
its cache with io.EOF exactly when the cache is exhausted; an open reader
on a closed buffer gets an answer whose io.EOF flag matches whether its
snapshot ends up empty. -/
theorem readerRead_proto (s u : Sys) (rid k : Nat) (hu : Inv u)
    (hmemu : rid ∈ rids u.b.rh ++ rids u.dead)
    (hflat : (if (rdRec s rid).data.length = 0 then fetchS s rid else (s, false))
      = (u, false))
    (hbalu : u.b.balive = s.b.balive) :
    (s.b.balive = true → (rdRec s rid).ralive = true →
       ∃ bs, (readerRead s rid k).2 = some (bs, false))
    ∧ ((rdRec s rid).ralive = false →
       readerRead s rid k
         = ((dataRead u rid k).1,
            some ((rdRec u rid).data.take k, decide ((rdRec u rid).data.length ≤ k))))
    ∧ (s.b.balive = false → (rdRec s rid).ralive = true →
       ∃ s2 bs eof, readerRead s rid k = (s2, some (bs, eof))
         ∧ (eof = true ↔ (rdRec s2 rid).data.length = 0)) := by
  have hQ := readerRead_flat s u rid k hflat
  obtain ⟨hI2, hb1, hb2, _, _, _, _, _, _, hal2, _, hrh2, _, _, _, hdata2, _, _, _, _⟩ :=
    dataRead_spec u rid k hu hmemu
  refine ⟨?_, ?_, ?_⟩
  · intro hbal hral
    cases heof : (dataRead u rid k).2.2 with
    | false =>
      rw [heof, if_neg Bool.false_ne_true] at hQ
      exact ⟨(dataRead u rid k).2.1, by rw [hQ]⟩
    | true =>
      rw [heof, if_pos rfl, if_neg (by rw [hral]; simp),
        if_pos (by rw [hal2, hbalu, hbal])] at hQ
      exact ⟨(dataRead u rid k).2.1, by rw [hQ]⟩
  · intro hral
    cases heof : (dataRead u rid k).2.2 with
    | false =>
      rw [heof, if_neg Bool.false_ne_true] at hQ
      rw [hQ, hb1, ← hb2, heof]
    | true =>
      rw [heof, if_pos rfl, if_pos hral] at hQ
      rw [hQ, hb1, ← hb2, heof]
  · intro hbal hral
    cases heof : (dataRead u rid k).2.2 with
    | false =>
      rw [heof, if_neg Bool.false_ne_true] at hQ
      have hd2 : decide ((rdRec u rid).data.length ≤ k) = false := by
        rw [← hb2]
        exact heof
      have hke := of_decide_eq_false hd2
      refine ⟨_, _, _, hQ, iff_of_false Bool.false_ne_true ?_⟩
      rw [hdata2, List.length_drop]
      omega
    | true =>
      rw [heof, if_pos rfl, if_neg (by rw [hral]; simp),
        if_neg (by rw [hal2, hbalu, hbal]; exact Bool.false_ne_true)] at hQ
      by_cases hlen3 : 0 < (rdRec (fetchS (dataRead u rid k).1 rid).1 rid).data.length
      · rw [if_pos hlen3] at hQ
        exact ⟨_, _, _, hQ, iff_of_false Bool.false_ne_true (by omega)⟩
      · rw [if_neg hlen3] at hQ
        exact ⟨_, _, _, hQ, iff_of_true rfl (by omega)⟩

/-- C5 (amended): Reader end-of-data protocol. (i) A closed reader's Read
still drains its cached snapshot — it returns the next `k` cached bytes
with io.EOF exactly when at most `k` remained, not io.EOF unconditionally
(see the counterexample) — and the reader stays closed. (ii) While the
buffer is alive an open reader never sees io.EOF: Read parks or returns
bytes with no error. (iii) On a closed buffer an open reader's Read never
parks, a final re-fetch is folded in, and io.EOF is reported exactly when
the snapshot it is left with is empty. -/
theorem claim_C5 (s : Sys) (rid k : Nat) (h : Inv s)
    (hmem : rid ∈ rids s.b.rh ++ rids s.dead) :
    (rid ∉ rids s.b.rh →
        readerRead s rid k
          = ((dataRead s rid k).1,
             some ((rdRec s rid).data.take k, decide ((rdRec s rid).data.length ≤ k)))
        ∧ rid ∉ rids (readerRead s rid k).1.b.rh)
    ∧ (rid ∈ rids s.b.rh → s.b.balive = true →
        (readerRead s rid k).2 = none
        ∨ ∃ bs, (readerRead s rid k).2 = some (bs, false))
    ∧ (rid ∈ rids s.b.rh → s.b.balive = false →
        ∃ s2 bs eof, readerRead s rid k = (s2, some (bs, eof))
          ∧ (eof = true ↔ (rdRec s2 rid).data.length = 0)) := by
  refine ⟨?_, ?_, ?_⟩
  · intro hml
    have hmd : rid ∈ rids s.dead := by
      rcases List.mem_append.mp hmem with hx | hx
      · exact absurd hx hml
      · exact hx
    have hral : (rdRec s rid).ralive = false := rdRec_ralive_of_dead s rid h hml hmd
    have hfet := fetchS_not_live s rid hml
    have hflat : (if (rdRec s rid).data.length = 0 then fetchS s rid else (s, false))
        = (s, false) := by
      by_cases hd : (rdRec s rid).data.length = 0
      · rw [if_pos hd, hfet]
      · rw [if_neg hd]
    have hproto := (readerRead_proto s s rid k h hmem hflat rfl).2.1 hral
    refine ⟨hproto, ?_⟩
    rw [hproto]
    show rid ∉ rids (dataRead s rid k).1.b.rh
    rw [(dataRead_spec s rid k h hmem).2.2.2.2.2.2.2.2.2.2.2.1]
    exact hml
  · intro hml hbal
    have hral := rdRec_ralive_of_live s rid h hml
    by_cases hd : (rdRec s rid).data.length = 0
    · have hdata : (rdRec s rid).data = [] := List.length_eq_zero.mp hd
      obtain ⟨hI, _, _, _, _, _, _, hal, _, hmemn, _, _, hiff, _, _⟩ :=
        fetchS_spec s rid h hml hdata
      cases hfl : (fetchS s rid).2 with
      | true =>
        left
        have hE : readerRead s rid k = ((fetchS s rid).1, none) := by
          rw [readerRead, if_pos hd, hfl]
          rfl
        rw [hE]
      | false =>
        right
        have hflat : (if (rdRec s rid).data.length = 0 then fetchS s rid else (s, false))
            = ((fetchS s rid).1, false) := by
          rw [if_pos hd, ← hfl]
        have hmemu : rid ∈ rids (fetchS s rid).1.b.rh ++ rids (fetchS s rid).1.dead :=
          List.mem_append.mpr (Or.inl hmemn)
        exact (readerRead_proto s (fetchS s rid).1 rid k hI hmemu hflat hal).1 hbal hral
    · right
      have hflat : (if (rdRec s rid).data.length = 0 then fetchS s rid else (s, false))
          = (s, false) := by
        rw [if_neg hd]
      exact (readerRead_proto s s rid k h hmem hflat rfl).1 hbal hral
  · intro hml hbal
    have hral := rdRec_ralive_of_live s rid h hml
    by_cases hd : (rdRec s rid).data.length = 0
    · have hdata : (rdRec s rid).data = [] := List.length_eq_zero.mp hd
      obtain ⟨hI, _, _, _, _, _, _, hal, _, hmemn, _, _, hiff, _, _⟩ :=
        fetchS_spec s rid h hml hdata
      have hfl : (fetchS s rid).2 = false := by
        cases hx : (fetchS s rid).2
        · rfl
        · exfalso
          have hy := (hiff.mp hx).2
          rw [hbal] at hy
          exact Bool.false_ne_true hy
      have hflat : (if (rdRec s rid).data.length = 0 then fetchS s rid else (s, false))
          = ((fetchS s rid).1, false) := by
        rw [if_pos hd, ← hfl]
      have hmemu : rid ∈ rids (fetchS s rid).1.b.rh ++ rids (fetchS s rid).1.dead :=
        List.mem_append.mpr (Or.inl hmemn)
      exact (readerRead_proto s (fetchS s rid).1 rid k hI hmemu hflat hal).2.2 hbal hral
    · have hflat : (if (rdRec s rid).data.length = 0 then fetchS s rid else (s, false))
          = (s, false) := by
        rw [if_neg hd]
      exact (readerRead_proto s s rid k h hmem hflat rfl).2.2 hbal hral

theorem claim_C5_witness :
    Inv sCbEx ∧ (1 ∈ rids sCbEx.b.rh ++ rids sCbEx.dead)
    ∧ ((readerRead sCbEx 1 1).2 = none
       ∨ ∃ bs, (readerRead sCbEx 1 1).2 = some (bs, false)) :=
  ⟨by decide, by decide,
    (claim_C5 sCbEx 1 1 (by decide) (by decide)).2.1 (by decide) (by decide)⟩

/-- C5, counterexample to the frozen wording: in an invariant state whose
reader 1 has been closed while two bytes sat in its cache, a Read of one
byte returns the byte `6` with NO end-of-data — a closed reader's Read
does not return io.EOF while cached data remains. -/
theorem claim_C5_counterexample :
    Inv sDeadEx
    ∧ 1 ∉ rids sDeadEx.b.rh
    ∧ 1 ∈ rids sDeadEx.dead
    ∧ (readerRead sDeadEx 1 1).2 = some ([6], false) := by
  decide

/-- C6: Late-join skip. A reader created by NextReaderFromNow registers at
the current write offset (`b.off + Len`, which equals the history length),
its join offset records that point, and every byte its Read calls ever
return lies in the history past that point: `got` is a prefix of the
post-creation suffix of the history. -/
theorem claim_C6 (cap rid : Nat) (t1 t2 : List Ev) (u v s : Sys)
    (hu : u = run (initSys cap) t1)
    (hfresh : rid ∉ rids u.b.rh ++ rids u.dead)
    (hv : v = joinNowF u rid)
    (hs : s = run v t2) :
    (rdRec v rid).off = u.b.off + bLen u.b
    ∧ u.b.off + bLen u.b = u.hist.length
    ∧ s.jof rid = u.hist.length
    ∧ List.IsPrefix (s.got rid) (s.hist.drop u.hist.length) := by
  have hInvU : Inv u := by
    rw [hu]
    exact run_inv cap t1
  obtain ⟨hok1, hjof, hmem1, hhist1, hoff1, hoffr, hposr⟩ := joinNow_ok u rid hInvU hfresh
  have hEnd : u.b.off + bLen u.b = u.hist.length := by
    have hx : bLen u.b = (u.hist.drop u.b.off).length := by
      unfold bLen
      rw [hInvU.2.1]
    have hoff := hInvU.1
    rw [hx]
    simp only [List.length_drop]
    omega
  have hrun2 := run_ok t2 v (by rw [hv]; exact hok1.1)
  rw [← hs] at hrun2
  have hmemv : rid ∈ rids v.b.rh ++ rids v.dead := by
    rw [hv]
    exact List.mem_append.mpr (Or.inl hmem1)
  obtain ⟨hmems, hjofs, _⟩ := hrun2.2.2.2 rid hmemv
  have hjval : s.jof rid = u.hist.length := by
    rw [hjofs, hv, hjof, hEnd]
  refine ⟨by rw [hv]; exact hoffr, hEnd, hjval, ?_⟩
  have hInvS : Inv s := hrun2.1
  obtain ⟨_, _, _, hd4, hd5⟩ := rdRec_rdinv s rid hInvS hmems
  have hcrid : (core (rdRec s rid)).rid = rid := rdRec_rid s rid hmems
  rw [hcrid] at hd5
  rw [posC_core] at hd5
  rw [hjval] at hd5
  rw [hd5, List.drop_take]
  exact List.take_prefix _ _

theorem claim_C6_witness :
    (1 ∉ rids (initSys 0).b.rh ++ rids (initSys 0).dead)
    ∧ (rdRec (joinNowF (initSys 0) 1) 1).off = (initSys 0).b.off + bLen (initSys 0).b :=
  ⟨by decide,
    (claim_C6 0 1 [] [Ev.write [9]] (initSys 0) (joinNowF (initSys 0) 1)
      (run (joinNowF (initSys 0) 1) [Ev.write [9]]) rfl (by decide) rfl rfl).1⟩

/-- C7 (amended): Snapshot aliasing. The value-copied cursor reads exactly
the bytes retained at its creation, and it stays unaffected under any
sequence consisting only of Writes, or only of Discards, on the store.
(Mixing them is NOT safe: a Discard hands the snapshot's region to the
writer as free gap and a following in-place Write clobbers it — see the
counterexample — so the frozen "not affected by any subsequent Write or
Discard calls" is false.) -/
theorem claim_C7 (w0 : Wring) (ps : List (List Byte)) (ns : List Nat) (h : wWF w0) :
    contentOf (mkSnap w0).s = contentOf w0
    ∧ contentOf (worldWrites (mkSnap w0) ps).s = contentOf w0
    ∧ (worldDiscards (mkSnap w0) ns).s = (mkSnap w0).s := by
  refine ⟨rfl, ?_, worldDiscards_snap ns (mkSnap w0)⟩
  rw [worldWrites_snap ps (mkSnap w0) (SInv_mkSnap w0 h)]
  rfl

theorem claim_C7_witness :
    wWF wEx
    ∧ contentOf (worldWrites (mkSnap wEx) [[1]]).s = contentOf wEx :=
  ⟨by decide, (claim_C7 wEx [[1]] [1] (by decide)).2.1⟩

/-- C7, counterexample to the frozen wording: a snapshot over the retained
bytes 10, 20 initially reads exactly them; after the store performs
`Discard 2` and then two in-place writes `[30, 31]` and `[40, 41]`, the
same untouched cursor now reads `[40, 41]` — later Write and Discard calls
did change what the snapshot returns. -/
theorem claim_C7_counterexample :
    contentOf (mkSnap wEx).s = [10, 20]
    ∧ (worldDiscard (mkSnap wEx) 2).map
        (fun x => contentOf (worldWrites x.1 [[30, 31], [40, 41]]).s)
      = some [40, 41] := by
  decide

theorem claim_C10_witness :
    selfIdx rhEx ∧ heapOrd rhEx
    ∧ (selfIdx (heapPush rhEx rdEx)
       ∧ heapOrd (heapPush rhEx rdEx)
       ∧ selfIdx (popRaw rhEx)
       ∧ selfIdx (hswap rhEx 1 2)
       ∧ selfIdx (heapFix rhEx 1)
       ∧ selfIdx (heapRemove rhEx 1)
       ∧ heapOrd (heapRemove rhEx 1)
       ∧ (peek rhEx).off ≤ (rhEx.getD 2 dum).off) :=
  ⟨by decide, by decide,
   claim_C10 rhEx rdEx 1 2 2 (by decide) (by decide) (by decide) (by decide) (by decide)⟩

end Bufit
